import Mathlib

/-!
# Recursive character splitter of `gorag`: a shallow embedding

The development embeds `splitter/recursive/recursive.go` (and the data types of
`document.go`, `splitter/splitter.go` it uses) and proves properties of it.

Modelling conventions.

* A Go `string` is an immutable sequence of bytes; it is embedded as a list of
  natural numbers (`GoString`), a byte being a number below 256.  `len(s)` is
  `List.length`, `s[a:]` is `List.drop`.  A rune is a natural number too.
* Go `int` values (`ChunkSize`, `ChunkOverlap`, loop indices) are embedded as
  `Int`; the sums the code forms (`i + ChunkSize`, `len + len`) are far below
  `2^63` for every text that fits in memory, so no wrap-around is modelled.
* The library functions the code calls (`utf8.DecodeRuneInString`,
  `utf8.DecodeLastRuneInString`, `string(rune)`, `unicode.IsSpace`,
  `strings.TrimSpace`, `strings.Split`) are embedded from the Go standard
  library, loops being unrolled by a fuel argument that is at least the number
  of iterations the loop can make.
* A call that may not return normally yields an `Outcome`: `done v` for a
  normal return, `panic` for a run-time panic, `outOfFuel` when the iteration
  budget given to the fixed-size loop is exhausted.
-/

namespace Gorag

/-- A Go string, as its sequence of bytes. -/
abbrev GoString := List Nat

/-- The replacement character `utf8.RuneError`, U+FFFD. -/
def RuneError : Nat := 0xFFFD

/-- Result of a call: normal return, run-time panic, or iteration budget exhausted. -/
inductive Outcome (α : Type) where
  | done (val : α)
  | panic
  | outOfFuel
  deriving DecidableEq, Repr

/-- Sequencing of calls: the second call is made when the first has returned. -/
def Outcome.bind {α β : Type} (o : Outcome α) (f : α → Outcome β) : Outcome β :=
  match o with
  | .done a => f a
  | .panic => .panic
  | .outOfFuel => .outOfFuel

/-! ## UTF-8 (package `unicode/utf8`) -/

/-- Lower bound of the second byte of an encoding whose first byte is `s0`
(`acceptRanges[...].lo` of package `utf8`). -/
def acceptLo (s0 : Nat) : Nat := if s0 = 0xE0 then 0xA0 else if s0 = 0xF0 then 0x90 else 0x80

/-- Upper bound of the second byte of an encoding whose first byte is `s0`
(`acceptRanges[...].hi` of package `utf8`). -/
def acceptHi (s0 : Nat) : Nat := if s0 = 0xED then 0x9F else if s0 = 0xF4 then 0x8F else 0xBF

/-- Decoding of a two-byte encoding with first byte `s0` in `C2..DF`, from the bytes after it. -/
def decode2 (s0 : Nat) : GoString → Nat × Nat
  | s1 :: _ =>
    if s1 < acceptLo s0 ∨ acceptHi s0 < s1 then (RuneError, 1)
    else ((s0 % 32) * 64 + s1 % 64, 2)
  | [] => (RuneError, 1)

/-- Decoding of a three-byte encoding with first byte `s0` in `E0..EF`. -/
def decode3 (s0 : Nat) : GoString → Nat × Nat
  | s1 :: s2 :: _ =>
    if s1 < acceptLo s0 ∨ acceptHi s0 < s1 then (RuneError, 1)
    else if s2 < 0x80 ∨ 0xBF < s2 then (RuneError, 1)
    else ((s0 % 16) * 4096 + (s1 % 64) * 64 + s2 % 64, 3)
  | _ => (RuneError, 1)

/-- Decoding of a four-byte encoding with first byte `s0` in `F0..F4`. -/
def decode4 (s0 : Nat) : GoString → Nat × Nat
  | s1 :: s2 :: s3 :: _ =>
    if s1 < acceptLo s0 ∨ acceptHi s0 < s1 then (RuneError, 1)
    else if s2 < 0x80 ∨ 0xBF < s2 then (RuneError, 1)
    else if s3 < 0x80 ∨ 0xBF < s3 then (RuneError, 1)
    else ((s0 % 8) * 262144 + (s1 % 64) * 4096 + (s2 % 64) * 64 + s3 % 64, 4)
  | _ => (RuneError, 1)

/-- Embedding of `utf8.DecodeRuneInString`: the first rune of `s` and its width in bytes.
An empty string gives `(RuneError, 0)`, an invalid or truncated encoding `(RuneError, 1)`.
The first byte gives the size of the encoding (table `first` of package `utf8`): one byte
below `80`, none for `80..C1` and `F5..FF`, two bytes for `C2..DF`, three for `E0..EF`,
four for `F0..F4`. -/
def decodeRune : GoString → Nat × Nat
  | [] => (RuneError, 0)
  | s0 :: t =>
    if s0 < 0x80 then (s0, 1)
    else if s0 < 0xC2 ∨ 0xF4 < s0 then (RuneError, 1)
    else if s0 < 0xE0 then decode2 s0 t
    else if s0 < 0xF0 then decode3 s0 t
    else decode4 s0 t

/-- Embedding of `utf8.RuneStart`: the byte is not a continuation byte `10xxxxxx`. -/
def RuneStart (b : Nat) : Bool := !(0x80 ≤ b && b < 0xC0)

/-- Offset at which `utf8.DecodeLastRuneInString` starts decoding: it walks back from
`end - 2` to `lim = max (end - 4) 0` looking for a rune start, and ends one below `lim`
(clamped to 0) when there is none. -/
def lastRuneStart (s : GoString) : Nat :=
  let n := s.length
  if 2 ≤ n ∧ RuneStart (s.getD (n - 2) 0) then n - 2
  else if 3 ≤ n ∧ RuneStart (s.getD (n - 3) 0) then n - 3
  else if 4 ≤ n ∧ RuneStart (s.getD (n - 4) 0) then n - 4
  else n - 5

/-- Embedding of `utf8.DecodeLastRuneInString`: the last rune of `s` and its width. -/
def decodeLastRune (s : GoString) : Nat × Nat :=
  if s.length = 0 then (RuneError, 0)
  else if s.getD (s.length - 1) 0 < 0x80 then (s.getD (s.length - 1) 0, 1)
  else
    let start := lastRuneStart s
    let d := decodeRune (s.drop start)
    if start + d.2 ≠ s.length then (RuneError, 1) else d

/-- Embedding of the conversion `string(r)` (`utf8.AppendRune`): the UTF-8 encoding of `r`,
surrogates and values above U+10FFFF being encoded as U+FFFD. -/
def encodeRune (r : Nat) : GoString :=
  if r < 0x80 then [r]
  else if r < 0x800 then [0xC0 + r / 64, 0x80 + r % 64]
  else if 0x10FFFF < r ∨ (0xD800 ≤ r ∧ r ≤ 0xDFFF) then [0xEF, 0xBF, 0xBD]
  else if r < 0x10000 then [0xE0 + r / 4096, 0x80 + (r / 64) % 64, 0x80 + r % 64]
  else [0xF0 + r / 262144, 0x80 + (r / 4096) % 64, 0x80 + (r / 64) % 64, 0x80 + r % 64]

/-- Nat iteration of a string (`for _, r := range s`), with an iteration budget. -/
def runesFuel : Nat → GoString → List Nat
  | 0, _ => []
  | _, [] => []
  | n + 1, c :: t =>
    (decodeRune (c :: t)).1 :: runesFuel n ((c :: t).drop (decodeRune (c :: t)).2)

/-- Embedding of the conversion `[]rune(s)`; also the runes a `range` loop over `s` yields. -/
def runes (s : GoString) : List Nat := runesFuel s.length s

/-- Embedding of the conversion `string(rs)` of a rune slice. -/
def encodeRunes (rs : List Nat) : GoString := (rs.map encodeRune).flatten

/-! ## White space (packages `unicode`, `strings`) -/

/-- Embedding of `unicode.IsSpace`. -/
def isSpace (r : Nat) : Bool :=
  r = 0x09 || r = 0x0A || r = 0x0B || r = 0x0C || r = 0x0D || r = 0x20 || r = 0x85 || r = 0xA0
    || r = 0x1680 || (0x2000 ≤ r && r ≤ 0x200A) || r = 0x2028 || r = 0x2029 || r = 0x202F
    || r = 0x205F || r = 0x3000

/-- Leading white space removal (`strings.TrimLeftFunc(s, unicode.IsSpace)`). -/
def trimLeftFuel : Nat → GoString → GoString
  | 0, s => s
  | _, [] => []
  | n + 1, c :: t =>
    if isSpace (decodeRune (c :: t)).1 then trimLeftFuel n ((c :: t).drop (decodeRune (c :: t)).2)
    else c :: t

/-- Trailing white space removal (`strings.TrimRightFunc(s, unicode.IsSpace)`). -/
def trimRightFuel : Nat → GoString → GoString
  | 0, s => s
  | n + 1, s =>
    if s = [] then []
    else if isSpace (decodeLastRune s).1 then
      trimRightFuel n (s.take (s.length - (decodeLastRune s).2))
    else s

/-- Embedding of `strings.TrimSpace`: `s` without its leading and trailing white space,
as defined by Unicode. -/
def TrimSpace (s : GoString) : GoString :=
  trimRightFuel s.length (trimLeftFuel s.length s)

/-- Loop of `strings.Split(s, sep)` for a non-empty `sep`: `cur` is the piece being read. -/
def stringsSplitFuel (sep : GoString) : Nat → GoString → GoString → List GoString
  | 0, s, cur => [cur ++ s]
  | _, [], cur => [cur]
  | n + 1, c :: t, cur =>
    if sep.isPrefixOf (c :: t) then cur :: stringsSplitFuel sep n ((c :: t).drop sep.length) []
    else stringsSplitFuel sep n t (cur ++ [c])

/-- Embedding of `strings.Split(s, sep)` for a non-empty separator (the only way the
splitter calls it): the pieces of `s` between the non-overlapping occurrences of `sep`,
found from the left. -/
def stringsSplit (s sep : GoString) : List GoString :=
  stringsSplitFuel sep (s.length + 1) s []

/-! ## Configuration (`splitter/splitter.go`) -/

/-- Embedding of `splitter.Options`. -/
structure Options where
  /-- Target size of a chunk. -/
  ChunkSize : Int
  /-- Size of the overlap between chunks. -/
  ChunkOverlap : Int
  /-- Separators, by decreasing priority. -/
  Separators : List GoString
  deriving DecidableEq, Repr

/-- Embedding of `splitter.DefaultOptions`. -/
def DefaultOptions : Options where
  ChunkSize := 1000
  ChunkOverlap := 200
  Separators :=
    [ [0x0A, 0x0A], [0x0A], [0xE3, 0x80, 0x82], [0x2E], [0xEF, 0xBC, 0x81], [0x21],
      [0xEF, 0xBC, 0x9F], [0x3F], [0xEF, 0xBC, 0x9B], [0x3B], [0xEF, 0xBC, 0x8C], [0x2C],
      [0x20], [] ]

/-- The splitter: embedding of `recursive.Splitter`, a record holding the options. -/
structure Splitter where
  /-- The options of the splitter. -/
  opts : Options
  deriving DecidableEq, Repr

/-- Embedding of `recursive.NewSplitter`: the first of the given options, or the defaults. -/
def NewSplitter (opts : List Options) : Splitter :=
  match opts with
  | [] => { opts := DefaultOptions }
  | o :: _ => { opts := o }

/-! ## The splitter (`splitter/recursive/recursive.go`) -/

/-- The bound `end` of a window of `Splitter.splitBySize` starting at `i`, over `n` runes:
`end := i + ChunkSize; if end > len(runes) { end = len(runes) }`. -/
def windowEnd (cfg : Options) (n : Nat) (i : Int) : Int :=
  if i + cfg.ChunkSize > (n : Int) then (n : Int) else i + cfg.ChunkSize

/-- The chunks after the window `runes[i:e]` has been handled: the window is converted to a
string and trimmed, and appended when it is not empty. -/
def appendWindow (rs : List Nat) (i e : Int) (chunks : List GoString) : List GoString :=
  if TrimSpace (encodeRunes ((rs.drop i.toNat).take (e - i).toNat)) ≠ [] then
    chunks ++ [TrimSpace (encodeRunes ((rs.drop i.toNat).take (e - i).toNat))]
  else chunks

/-- Loop of `Splitter.splitBySize` over the rune slice `rs`, from index `i` with the chunks
collected so far.  The slice expression `runes[i:end]` panics when `i < 0` or `end < i`. -/
def splitBySizeLoop (cfg : Options) (rs : List Nat) :
    Nat → Int → List GoString → Outcome (List GoString)
  | 0, _, _ => .outOfFuel
  | fuel + 1, i, chunks =>
    if i < (rs.length : Int) then
      if i < 0 ∨ windowEnd cfg rs.length i < i then .panic
      else if windowEnd cfg rs.length i = (rs.length : Int) then
        .done (appendWindow rs i (windowEnd cfg rs.length i) chunks)
      else
        splitBySizeLoop cfg rs fuel (i + (cfg.ChunkSize - cfg.ChunkOverlap))
          (appendWindow rs i (windowEnd cfg rs.length i) chunks)
    else .done chunks

/-- Embedding of `Splitter.splitBySize`; `fuel` bounds the number of loop iterations. -/
def splitBySize (cfg : Options) (fuel : Nat) (text : GoString) : Outcome (List GoString) :=
  splitBySizeLoop cfg (runes text) fuel 0 []

/-- The flush of `Splitter.splitText`:
`if currentChunk.Len() > 0 { chunks = append(chunks, strings.TrimSpace(currentChunk.String())) }`. -/
def flushBuffer (chunks : List GoString) (cur : GoString) : List GoString :=
  if cur.length > 0 then chunks ++ [TrimSpace cur] else chunks

/-- The value `newSize` of `Splitter.splitText`: the size of the buffer if the piece were
added, the separator being counted when the buffer is not empty. -/
def newSize (separator cur split : GoString) : Int :=
  (cur.length : Int) + (split.length : Int)
    + (if cur.length > 0 ∧ separator ≠ [] then (separator.length : Int) else 0)

/-- The seed `Splitter.splitText` writes into the buffer it has just reset: the last
`ChunkOverlap` bytes of the last chunk (`lastChunk[overlapStart:]`), followed by the
separator; nothing when `ChunkOverlap` is not positive or there is no chunk yet. -/
def overlapSeed (cfg : Options) (separator : GoString) (chunks : List GoString) : GoString :=
  if cfg.ChunkOverlap > 0 ∧ chunks.length > 0 then
    (chunks.getLastD []).drop
        (if ((chunks.getLastD []).length : Int) - cfg.ChunkOverlap < 0 then (0 : Int)
          else ((chunks.getLastD []).length : Int) - cfg.ChunkOverlap).toNat
      ++ (if separator ≠ [] then separator else [])
  else []

/-- The end of an iteration of `Splitter.splitText`: the separator is written when the
buffer is not empty (and the separator is not empty and `i > 0`), then the piece. -/
def writePiece (separator : GoString) (i : Nat) (cur split : GoString) : GoString :=
  (if cur.length > 0 ∧ separator ≠ [] ∧ i > 0 then cur ++ separator else cur) ++ split

/-- The merging loop of `Splitter.splitText` (`for i, split := range splits`), followed by
the final flush.  `recur` is the recursive call on the remaining separators, `i` the loop
index, `chunks` the chunks collected so far and `cur` the content of `currentChunk`. -/
def mergeLoop (cfg : Options) (separator : GoString)
    (recur : GoString → Outcome (List GoString)) :
    List GoString → Nat → List GoString → GoString → Outcome (List GoString)
  | [], _, chunks, cur => .done (flushBuffer chunks cur)
  | split :: rest, i, chunks, cur =>
    if TrimSpace split = [] then mergeLoop cfg separator recur rest (i + 1) chunks cur
    else if ((TrimSpace split).length : Int) > cfg.ChunkSize then
      match recur (TrimSpace split) with
      | .done subChunks =>
        mergeLoop cfg separator recur rest (i + 1) (flushBuffer chunks cur ++ subChunks)
          (if cur.length > 0 then [] else cur)
      | .panic => .panic
      | .outOfFuel => .outOfFuel
    else if newSize separator cur (TrimSpace split) > cfg.ChunkSize then
      mergeLoop cfg separator recur rest (i + 1) (flushBuffer chunks cur)
        (writePiece separator i (overlapSeed cfg separator (flushBuffer chunks cur))
          (TrimSpace split))
    else mergeLoop cfg separator recur rest (i + 1) chunks (writePiece separator i cur (TrimSpace split))

/-- The pieces `Splitter.splitText` cuts a text into: one piece per rune for the empty
separator, `strings.Split` otherwise. -/
def splitPieces (text separator : GoString) : List GoString :=
  if separator = [] then (runes text).map encodeRune else stringsSplit text separator

/-- Embedding of `Splitter.splitText`; `fuel` is the iteration budget of each call of
`splitBySize`. -/
def splitText (cfg : Options) (fuel : Nat) :
    GoString → List GoString → Outcome (List GoString)
  | text, [] =>
    if text.length = 0 then .done []
    else if (text.length : Int) ≤ cfg.ChunkSize then .done [TrimSpace text]
    else splitBySize cfg fuel text
  | text, separator :: remainingSeparators =>
    if text.length = 0 then .done []
    else if (text.length : Int) ≤ cfg.ChunkSize then .done [TrimSpace text]
    else
      mergeLoop cfg separator (fun piece => splitText cfg fuel piece remainingSeparators)
        (splitPieces text separator) 0 [] []

/-! ## Documents (`document.go`) and `Splitter.Split` -/

/-- A value of Go type `any` held by the extra metadata. -/
inductive AnyValue where
  | null
  | str (s : GoString)
  | int (i : Int)
  | bool (b : Bool)
  deriving DecidableEq, Repr

/-- A Go `map[string]any`: `none` is the nil map, `some m` a map with distinct keys. -/
abbrev GoMap := Option (AList (fun _ : GoString => AnyValue))

/-- Value stored under key `k` (`v, ok := m[k]`); a nil map has no entry. -/
def GoMap.get (m : GoMap) (k : GoString) : Option AnyValue :=
  match m with
  | none => none
  | some l => l.lookup k

/-- Embedding of `gorag.Metadata`.  `CreatedAt` is an instant, kept as an integer. -/
structure Metadata where
  /-- Origin of the document. -/
  Source : GoString
  /-- Title of the document. -/
  Title : GoString
  /-- Author of the document. -/
  Author : GoString
  /-- Creation time. -/
  CreatedAt : Int
  /-- Position of a chunk in its parent. -/
  ChunkIndex : Int
  /-- Number of chunks of the parent. -/
  TotalChunks : Int
  /-- Identifier of the parent document. -/
  ParentID : GoString
  /-- Other metadata. -/
  Extra : GoMap
  deriving DecidableEq

/-- Embedding of `gorag.Document`.  `Embedding` holds the bit patterns of the `float32`
components; the nil slice is the empty list. -/
structure Document where
  /-- Identifier. -/
  ID : GoString
  /-- Text content. -/
  Content : GoString
  /-- Metadata. -/
  Metadata : Metadata
  /-- Vector of the document. -/
  Embedding : List Nat
  deriving DecidableEq

/-- Embedding of `gorag.NewDocument`: a document with the given identifier and content,
zero metadata and an empty (non-nil) extra map. -/
def NewDocument (id content : GoString) : Document where
  ID := id
  Content := content
  Metadata :=
    { Source := []
      Title := []
      Author := []
      CreatedAt := 0
      ChunkIndex := 0
      TotalChunks := 0
      ParentID := []
      Extra := some ∅ }
  Embedding := []

/-- Loop of `itoa` (`for i > 0`): prepends the decimal digits of `i` to `digits`. -/
def itoaLoop : Nat → Int → GoString → GoString
  | 0, _, digits => digits
  | fuel + 1, i, digits =>
    if i > 0 then itoaLoop fuel (i / 10) ((48 + i % 10).toNat :: digits) else digits

/-- Embedding of `itoa`; the loop runs at most `i` times. -/
def itoa (i : Int) : GoString :=
  if i = 0 then [48] else itoaLoop i.toNat i []

/-- Embedding of `copyExtra`: a fresh map holding the entries of `extra`, the empty map
for the nil map. -/
def copyExtra (extra : GoMap) : GoMap :=
  match extra with
  | none => some ∅
  | some m => some (m.entries.foldl (fun copied kv => copied.insert kv.1 kv.2) ∅)

/-- The string `"_chunk_"`. -/
def chunkTag : GoString := [0x5F, 0x63, 0x68, 0x75, 0x6E, 0x6B, 0x5F]

/-- The record `Splitter.Split` builds for chunk number `i` of `doc`. -/
def newDoc (doc : Document) (totalChunks : Int) (i : Nat) (chunk : GoString) : Document where
  ID := doc.ID ++ chunkTag ++ itoa i
  Content := chunk
  Metadata :=
    { Source := doc.Metadata.Source
      Title := doc.Metadata.Title
      Author := doc.Metadata.Author
      CreatedAt := doc.Metadata.CreatedAt
      ChunkIndex := i
      TotalChunks := totalChunks
      ParentID := doc.ID
      Extra := copyExtra doc.Metadata.Extra }
  Embedding := []

/-- Inner loop of `Splitter.Split` (`for i, chunk := range chunks`). -/
def appendChunkDocs (doc : Document) (totalChunks : Int) :
    List GoString → Nat → List Document → List Document
  | [], _, result => result
  | chunk :: rest, i, result =>
    appendChunkDocs doc totalChunks rest (i + 1) (result ++ [newDoc doc totalChunks i chunk])

/-- The error of a cancelled context (`ctx.Err()`). -/
inductive CtxError where
  | Canceled
  | DeadlineExceeded
  deriving DecidableEq, Repr

/-- A context, as what the `select` on `ctx.Done()` observes before document number `k`:
`none` when the context is not done, the error of the context otherwise. -/
abbrev Context := Nat → Option CtxError

/-- Outer loop of `Splitter.Split` (`for _, doc := range docs`), `k` counting the documents
already handled.  The result is the pair of return values (nil slice: empty list). -/
def SplitLoop (s : Splitter) (fuel : Nat) (ctx : Context) :
    List Document → Nat → List Document → Outcome (List Document × Option CtxError)
  | [], _, result => .done (result, none)
  | doc :: rest, k, result =>
    match ctx k with
    | some err => .done ([], some err)
    | none =>
      match splitText s.opts fuel doc.Content s.opts.Separators with
      | .done chunks =>
        SplitLoop s fuel ctx rest (k + 1) (appendChunkDocs doc chunks.length chunks 0 result)
      | .panic => .panic
      | .outOfFuel => .outOfFuel

/-- Embedding of `Splitter.Split`. -/
def Split (s : Splitter) (fuel : Nat) (ctx : Context) (docs : List Document) :
    Outcome (List Document × Option CtxError) :=
  SplitLoop s fuel ctx docs 0 []

/-! ## Definitions used to state the properties -/

/-- The bound the merging loop keeps on the size of the buffer: `ChunkSize`, plus
`ChunkOverlap` and twice the separator when the buffer can be seeded. -/
def sizeBound (cfg : Options) (sep : GoString) : Int :=
  cfg.ChunkSize + (if cfg.ChunkOverlap ≤ 0 then 0 else cfg.ChunkOverlap + 2 * (sep.length : Int))

/-- Loop of `utf8.ValidString`: every rune of the string decodes without error. -/
def validFuel : Nat → GoString → Bool
  | 0, s => s.isEmpty
  | _, [] => true
  | n + 1, c :: t =>
    if (decodeRune (c :: t)).1 = RuneError ∧ (decodeRune (c :: t)).2 = 1 then false
    else validFuel n ((c :: t).drop (decodeRune (c :: t)).2)

/-- Embedding of `utf8.ValidString`: the string is a sequence of UTF-8 encoded runes. -/
def ValidString (s : GoString) : Bool := validFuel s.length s

/-- The canonical decimal representation of a natural number, as ASCII digits. -/
def decimal (n : Nat) : GoString :=
  if n = 0 then [48] else (Nat.digits 10 n).reverse.map (fun d => 48 + d)

/-- The record of chunk number `i` of `doc`, when `doc` gave `total` chunks: what the
specification says of `r`. -/
def IsChunkRecord (doc : Document) (total i : Nat) (chunk : GoString) (r : Document) : Prop :=
  r.Content = chunk ∧ r.ID = doc.ID ++ chunkTag ++ decimal i ∧
  r.Metadata.ChunkIndex = (i : Int) ∧ r.Metadata.TotalChunks = (total : Int) ∧
  r.Metadata.ParentID = doc.ID ∧ r.Metadata.Source = doc.Metadata.Source ∧
  r.Metadata.Title = doc.Metadata.Title ∧ r.Metadata.Author = doc.Metadata.Author ∧
  r.Metadata.CreatedAt = doc.Metadata.CreatedAt ∧
  ∀ k, r.Metadata.Extra.get k = doc.Metadata.Extra.get k

/-- The chunks of one document, each with its document, the number of chunks of the
document and its position. -/
def indexedChunks (doc : Document) (chunks : List GoString) :
    List (Document × Nat × Nat × GoString) :=
  chunks.enum.map (fun ic => (doc, chunks.length, ic.1, ic.2))

/-- A Unicode scalar value: a code point up to U+10FFFF that is not a surrogate. -/
def IsScalar (r : Nat) : Prop := r < 0xD800 ∨ (0xE000 ≤ r ∧ r ≤ 0x10FFFF)

instance (r : Nat) : Decidable (IsScalar r) := by
  unfold IsScalar
  exact inferInstance

/-- Removal of the leading and trailing white space of a sequence of runes. -/
def trimRunes (rs : List Nat) : List Nat :=
  (rs.dropWhile isSpace).rdropWhile isSpace

/-- The window number `k` of a sequence of runes, for windows of `size` runes starting
every `stride` runes: the runes of index `k * stride` up to `min (k * stride + size) n`. -/
def runeWindow (rs : List Nat) (size stride k : Nat) : List Nat :=
  (rs.drop (k * stride)).take (min (k * stride + size) rs.length - k * stride)

/-- The chunk a window of runes gives: the window as a string, trimmed, when that is not
empty. -/
def windowChunk (w : List Nat) : List GoString :=
  if TrimSpace (encodeRunes w) = [] then [] else [TrimSpace (encodeRunes w)]

/-- The string holds ASCII bytes only: every byte is a rune of its own. -/
def IsAscii (s : GoString) : Prop := ∀ b ∈ s, b < 128

instance (s : GoString) : Decidable (IsAscii s) := by
  unfold IsAscii
  exact inferInstance

/-- The last `min k (len c)` bytes of `c`. -/
def lastBytes (k : Nat) (c : GoString) : GoString := c.drop (c.length - k)

/-- A string that ends with a byte that is not white space. -/
def EndsNonSpace (s : GoString) : Prop := ∃ x y, s = x ++ [y] ∧ isSpace y = false

/-- The link between two adjacent chunks built by the merging loop: the later chunk begins
with the last `co` bytes of the earlier one, their leading white space removed, followed
by the separator. -/
def OverlapLink (co : Nat) (sep : GoString) (a b : GoString) : Prop :=
  ((lastBytes co a).dropWhile isSpace ++ sep) <+: b

/-- The invariant of the merging loop behind `OverlapLink`, for ASCII pieces: the chunks
are linked, every chunk and a non-empty buffer end with a byte that is not white space, and
once a chunk has been flushed the buffer begins (after its leading white space) with the
seed taken from the last chunk. -/
def LinkInv (co : Nat) (sep : GoString) (chunks : List GoString) (cur : GoString) : Prop :=
  List.Chain' (OverlapLink co sep) chunks ∧ IsAscii cur ∧ (∀ c ∈ chunks, IsAscii c) ∧
  (cur = [] ∨ EndsNonSpace cur) ∧ (∀ c ∈ chunks, EndsNonSpace c) ∧
  ∀ a, chunks.getLast? = some a →
    cur ≠ [] ∧ ((lastBytes co a).dropWhile isSpace ++ sep) <+: cur.dropWhile isSpace

/-- Embedding of `strings.Join(elems, sep)`. -/
def stringsJoin (sep : GoString) : List GoString → GoString
  | [] => []
  | [a] => a
  | a :: b :: l => a ++ sep ++ stringsJoin sep (b :: l)

/-- The string without its white space: the runes of `s` that are not white space, encoded
again. -/
def noSpace (s : GoString) : GoString :=
  encodeRunes ((runes s).filter (fun r => !isSpace r))

/-- The string is the encoding of a sequence of Unicode scalar values. -/
def IsValid (s : GoString) : Prop := ∃ rs : List Nat, (∀ r ∈ rs, IsScalar r) ∧ s = encodeRunes rs

/-- The buffer of the merging loop seen as a list of pieces: nothing when it is empty. -/
def bufferList (cur : GoString) : List GoString := if cur = [] then [] else [cur]

/-- The pieces the merging loop keeps: trimmed, and dropped when empty. -/
def keptPieces (splits : List GoString) : List GoString :=
  (splits.map TrimSpace).filter (fun p => decide (p ≠ []))

/-- The length of the longest separator of a list. -/
def maxSepLen : List GoString → Nat
  | [] => 0
  | s :: rest => max s.length (maxSepLen rest)

/-- The bound on the size of a buffer of the merging loop at any level of the recursion:
`sizeBound` for the longest separator. -/
def sizeBoundAll (cfg : Options) (seps : List GoString) : Int :=
  cfg.ChunkSize
    + (if cfg.ChunkOverlap ≤ 0 then 0 else cfg.ChunkOverlap + 2 * (maxSepLen seps : Int))

/-- A clean string: valid UTF-8, not empty, and without leading or trailing white space. -/
def IsClean (s : GoString) : Prop := IsValid s ∧ s ≠ [] ∧ TrimSpace s = s

/-- Clean pieces at every level of the recursion of `splitText`: a text of more than
`ChunkSize` bytes is cut by the first separator into pieces that are not empty and have no
leading or trailing white space, and the pieces of more than `ChunkSize` bytes, which are
split again with the remaining separators, are cut the same way.  Nothing is asked of a
text that is not split by a separator (a short text, or no separator left). -/
def CleanPieces (cfg : Options) : List GoString → GoString → Prop
  | [], _ => True
  | sep :: rest, text =>
    (text.length : Int) ≤ cfg.ChunkSize ∨
      ∀ p ∈ splitPieces text sep, p ≠ [] ∧ TrimSpace p = p ∧
        (cfg.ChunkSize < (p.length : Int) → CleanPieces cfg rest p)

/-- A string of white space only: every rune of the string is white space. -/
def IsBlank (s : GoString) : Prop := ∀ r ∈ runes s, isSpace r = true

/-! # Theorems

Everything below is proved about the definitions above. -/

/-! ## The library functions on examples -/

/-- `[]rune("aé\xff")` is `a`, `é` and the replacement character for the invalid byte. -/
theorem runes_example : runes [0x61, 0xC3, 0xA9, 0xFF] = [0x61, 0xE9, 0xFFFD] := by decide

/-- `string(r)` for `é`, for U+3000 and for a surrogate (encoded as U+FFFD). -/
theorem encodeRune_example :
    encodeRune 0xE9 = [0xC3, 0xA9] ∧ encodeRune 0x3000 = [0xE3, 0x80, 0x80] ∧
      encodeRune 0xD800 = [0xEF, 0xBF, 0xBD] := by decide

/-- `strings.TrimSpace(" \t　a b \n")` is `"a b"`. -/
theorem TrimSpace_example :
    TrimSpace [0x20, 0x09, 0xE3, 0x80, 0x80, 0x61, 0x20, 0x62, 0xC2, 0xA0, 0x0A]
      = [0x61, 0x20, 0x62] := by decide

/-- `strings.Split("a,,b,", ",")` is `["a", "", "b", ""]`, and `strings.Split("aaa", "aa")`
is `["", "a"]`. -/
theorem stringsSplit_example :
    stringsSplit [0x61, 0x2C, 0x2C, 0x62, 0x2C] [0x2C] = [[0x61], [], [0x62], []] ∧
      stringsSplit [0x61, 0x61, 0x61] [0x61, 0x61] = [[], [0x61]] := by decide

/-- `itoa(0)`, `itoa(7)` and `itoa(120)`. -/
theorem itoa_example : itoa 0 = [48] ∧ itoa 7 = [55] ∧ itoa 120 = [49, 50, 48] := by decide

/-! ## Basic facts on the library functions -/

theorem trimLeftFuel_eq_drop (n : Nat) (s : GoString) : ∃ k, trimLeftFuel n s = s.drop k := by
  induction n generalizing s with
  | zero => exact ⟨0, by simp [trimLeftFuel]⟩
  | succ n ih =>
    cases s with
    | nil => exact ⟨0, by simp [trimLeftFuel]⟩
    | cons c t =>
      simp only [trimLeftFuel]
      split
      · obtain ⟨k, hk⟩ := ih ((c :: t).drop (decodeRune (c :: t)).2)
        exact ⟨(decodeRune (c :: t)).2 + k, by rw [hk, List.drop_drop]⟩
      · exact ⟨0, rfl⟩

theorem trimRightFuel_eq_take (n : Nat) (s : GoString) : ∃ k, trimRightFuel n s = s.take k := by
  induction n generalizing s with
  | zero => exact ⟨s.length, by simp [trimRightFuel]⟩
  | succ n ih =>
    simp only [trimRightFuel]
    split
    · exact ⟨0, by simp⟩
    · split
      · obtain ⟨k, hk⟩ := ih (s.take (s.length - (decodeLastRune s).2))
        exact ⟨min k (s.length - (decodeLastRune s).2), by rw [hk, List.take_take]⟩
      · exact ⟨s.length, by simp⟩

theorem TrimSpace_eq_take_drop (s : GoString) : ∃ a b, TrimSpace s = (s.drop a).take b := by
  obtain ⟨a, ha⟩ := trimLeftFuel_eq_drop s.length s
  obtain ⟨b, hb⟩ := trimRightFuel_eq_take s.length (trimLeftFuel s.length s)
  exact ⟨a, b, by unfold TrimSpace; rw [hb, ha]⟩

theorem TrimSpace_length_le (s : GoString) : (TrimSpace s).length ≤ s.length := by
  obtain ⟨a, b, h⟩ := TrimSpace_eq_take_drop s
  rw [h, List.length_take, List.length_drop]
  omega

theorem runesFuel_length_le (n : Nat) (s : GoString) : (runesFuel n s).length ≤ n := by
  induction n generalizing s with
  | zero => simp [runesFuel]
  | succ n ih =>
    cases s with
    | nil => simp [runesFuel]
    | cons c t =>
      simp only [runesFuel, List.length_cons]
      have := ih ((c :: t).drop (decodeRune (c :: t)).2)
      omega

theorem runes_length_le (s : GoString) : (runes s).length ≤ s.length :=
  runesFuel_length_le _ _

theorem encodeRune_length_le (r : Nat) : (encodeRune r).length ≤ 4 := by
  unfold encodeRune
  split_ifs <;> simp

theorem stringsSplitFuel_length_le (sep : GoString) (n : Nat) :
    ∀ (s cur : GoString), ∀ p ∈ stringsSplitFuel sep n s cur,
      p.length ≤ cur.length + s.length := by
  induction n with
  | zero =>
    intro s cur p hp
    simp only [stringsSplitFuel, List.mem_singleton] at hp
    simp [hp]
  | succ n ih =>
    intro s cur p hp
    cases s with
    | nil =>
      simp only [stringsSplitFuel, List.mem_singleton] at hp
      simp [hp]
    | cons c t =>
      simp only [stringsSplitFuel] at hp
      split at hp
      · rcases List.mem_cons.1 hp with h | h
        · simp [h]
        · have := ih _ _ p h
          simp only [List.length_nil, List.length_drop, List.length_cons] at this ⊢
          omega
      · have := ih _ _ p hp
        simp only [List.length_append, List.length_cons, List.length_nil] at this ⊢
        omega

theorem splitPieces_length_le (text sep : GoString) :
    ∀ p ∈ splitPieces text sep, p.length ≤ max text.length 4 := by
  intro p hp
  unfold splitPieces at hp
  split at hp
  · obtain ⟨r, _, rfl⟩ := List.mem_map.1 hp
    have := encodeRune_length_le r
    omega
  · have := stringsSplitFuel_length_le sep _ text [] p hp
    simp only [List.length_nil] at this
    omega

/-! ## Steps of the loops -/

theorem mergeLoop_nil (cfg : Options) (sep : GoString)
    (recur : GoString → Outcome (List GoString)) (i : Nat) (chunks : List GoString)
    (cur : GoString) :
    mergeLoop cfg sep recur [] i chunks cur = .done (flushBuffer chunks cur) := rfl

theorem mergeLoop_blank (cfg : Options) (sep : GoString)
    (recur : GoString → Outcome (List GoString)) (p : GoString) (rest : List GoString)
    (i : Nat) (chunks : List GoString) (cur : GoString) (h1 : TrimSpace p = []) :
    mergeLoop cfg sep recur (p :: rest) i chunks cur
      = mergeLoop cfg sep recur rest (i + 1) chunks cur := by
  rw [mergeLoop, if_pos h1]

theorem mergeLoop_big_done (cfg : Options) (sep : GoString)
    (recur : GoString → Outcome (List GoString)) (p : GoString) (rest : List GoString)
    (i : Nat) (chunks : List GoString) (cur : GoString) (sub : List GoString)
    (h1 : TrimSpace p ≠ []) (h2 : ((TrimSpace p).length : Int) > cfg.ChunkSize)
    (h3 : recur (TrimSpace p) = .done sub) :
    mergeLoop cfg sep recur (p :: rest) i chunks cur
      = mergeLoop cfg sep recur rest (i + 1) (flushBuffer chunks cur ++ sub)
          (if cur.length > 0 then [] else cur) := by
  rw [mergeLoop, if_neg h1, if_pos h2, h3]

theorem mergeLoop_big_panic (cfg : Options) (sep : GoString)
    (recur : GoString → Outcome (List GoString)) (p : GoString) (rest : List GoString)
    (i : Nat) (chunks : List GoString) (cur : GoString)
    (h1 : TrimSpace p ≠ []) (h2 : ((TrimSpace p).length : Int) > cfg.ChunkSize)
    (h3 : recur (TrimSpace p) = .panic) :
    mergeLoop cfg sep recur (p :: rest) i chunks cur = .panic := by
  rw [mergeLoop, if_neg h1, if_pos h2, h3]

theorem mergeLoop_big_outOfFuel (cfg : Options) (sep : GoString)
    (recur : GoString → Outcome (List GoString)) (p : GoString) (rest : List GoString)
    (i : Nat) (chunks : List GoString) (cur : GoString)
    (h1 : TrimSpace p ≠ []) (h2 : ((TrimSpace p).length : Int) > cfg.ChunkSize)
    (h3 : recur (TrimSpace p) = .outOfFuel) :
    mergeLoop cfg sep recur (p :: rest) i chunks cur = .outOfFuel := by
  rw [mergeLoop, if_neg h1, if_pos h2, h3]

theorem mergeLoop_overflow (cfg : Options) (sep : GoString)
    (recur : GoString → Outcome (List GoString)) (p : GoString) (rest : List GoString)
    (i : Nat) (chunks : List GoString) (cur : GoString) (h1 : TrimSpace p ≠ [])
    (h2 : ¬ ((TrimSpace p).length : Int) > cfg.ChunkSize)
    (h3 : newSize sep cur (TrimSpace p) > cfg.ChunkSize) :
    mergeLoop cfg sep recur (p :: rest) i chunks cur
      = mergeLoop cfg sep recur rest (i + 1) (flushBuffer chunks cur)
          (writePiece sep i (overlapSeed cfg sep (flushBuffer chunks cur)) (TrimSpace p)) := by
  rw [mergeLoop, if_neg h1, if_neg h2, if_pos h3]

theorem mergeLoop_append (cfg : Options) (sep : GoString)
    (recur : GoString → Outcome (List GoString)) (p : GoString) (rest : List GoString)
    (i : Nat) (chunks : List GoString) (cur : GoString) (h1 : TrimSpace p ≠ [])
    (h2 : ¬ ((TrimSpace p).length : Int) > cfg.ChunkSize)
    (h3 : ¬ newSize sep cur (TrimSpace p) > cfg.ChunkSize) :
    mergeLoop cfg sep recur (p :: rest) i chunks cur
      = mergeLoop cfg sep recur rest (i + 1) chunks (writePiece sep i cur (TrimSpace p)) := by
  rw [mergeLoop, if_neg h1, if_neg h2, if_neg h3]

theorem splitBySizeLoop_succ_eq (cfg : Options) (rs : List Nat) (fuel : Nat) (i : Int)
    (chunks : List GoString) :
    splitBySizeLoop cfg rs (fuel + 1) i chunks =
      if i < (rs.length : Int) then
        if i < 0 ∨ windowEnd cfg rs.length i < i then .panic
        else if windowEnd cfg rs.length i = (rs.length : Int) then
          .done (appendWindow rs i (windowEnd cfg rs.length i) chunks)
        else
          splitBySizeLoop cfg rs fuel (i + (cfg.ChunkSize - cfg.ChunkOverlap))
            (appendWindow rs i (windowEnd cfg rs.length i) chunks)
      else .done chunks := by
  rw [splitBySizeLoop]

theorem splitText_nil_eq (cfg : Options) (fuel : Nat) (text : GoString) :
    splitText cfg fuel text [] =
      if text.length = 0 then .done []
      else if (text.length : Int) ≤ cfg.ChunkSize then .done [TrimSpace text]
      else splitBySize cfg fuel text := by
  rw [splitText]

theorem splitText_cons_eq (cfg : Options) (fuel : Nat) (text sep : GoString)
    (rest : List GoString) :
    splitText cfg fuel text (sep :: rest) =
      if text.length = 0 then .done []
      else if (text.length : Int) ≤ cfg.ChunkSize then .done [TrimSpace text]
      else
        mergeLoop cfg sep (fun piece => splitText cfg fuel piece rest)
          (splitPieces text sep) 0 [] [] := by
  rw [splitText]

theorem splitText_empty (cfg : Options) (fuel : Nat) (seps : List GoString) :
    splitText cfg fuel [] seps = .done [] := by
  cases seps <;> simp [splitText]

theorem splitText_short (cfg : Options) (fuel : Nat) (text : GoString) (seps : List GoString)
    (h0 : text ≠ []) (h1 : (text.length : Int) ≤ cfg.ChunkSize) :
    splitText cfg fuel text seps = .done [TrimSpace text] := by
  have h : text.length ≠ 0 := fun h => h0 (List.length_eq_zero.1 h)
  cases seps <;> simp [splitText, h, h1]

theorem splitText_long (cfg : Options) (fuel : Nat) (text sep : GoString)
    (rest : List GoString) (h1 : cfg.ChunkSize < (text.length : Int)) (h0 : 0 ≤ cfg.ChunkSize) :
    splitText cfg fuel text (sep :: rest) =
      mergeLoop cfg sep (fun piece => splitText cfg fuel piece rest)
        (splitPieces text sep) 0 [] [] := by
  have h : text.length ≠ 0 := by omega
  rw [splitText_cons_eq, if_neg h, if_neg (by omega)]

/-! ## Size of the chunks built by the merging loop -/

theorem overlapSeed_length_le (cfg : Options) (sep : GoString) (chunks : List GoString) :
    ((overlapSeed cfg sep chunks).length : Int) ≤
      if cfg.ChunkOverlap ≤ 0 then 0 else cfg.ChunkOverlap + sep.length := by
  unfold overlapSeed
  split
  · rename_i h
    have h1 : ¬ cfg.ChunkOverlap ≤ 0 := by omega
    simp only [h1, if_false]
    split_ifs
    all_goals
      simp only [List.length_append, List.length_drop, List.length_nil]
      push_cast
      omega
  · split_ifs
    all_goals
      simp only [List.length_nil, Nat.cast_zero]
      omega

theorem flushBuffer_bound (B : Int) (chunks : List GoString) (cur : GoString)
    (hch : ∀ c ∈ chunks, (c.length : Int) ≤ B) (hcur : (cur.length : Int) ≤ B) :
    ∀ c ∈ flushBuffer chunks cur, (c.length : Int) ≤ B := by
  intro c hc
  unfold flushBuffer at hc
  split at hc
  · rcases List.mem_append.1 hc with h | h
    · exact hch c h
    · rw [List.mem_singleton.1 h]
      have := TrimSpace_length_le cur
      omega
  · exact hch c hc

theorem writePiece_length_le (sep : GoString) (i : Nat) (cur split : GoString) :
    ((writePiece sep i cur split).length : Int) ≤
      cur.length + split.length + (if cur.length > 0 ∧ sep ≠ [] then (sep.length : Int) else 0) := by
  unfold writePiece
  split_ifs with h1 h2 h2
  · simp only [List.length_append]; push_cast; omega
  · exact absurd ⟨h1.1, h1.2.1⟩ h2
  · simp only [List.length_append]; push_cast; omega
  · simp only [List.length_append]; push_cast; omega

theorem mergeLoop_fit_bound (cfg : Options) (sep : GoString)
    (recur : GoString → Outcome (List GoString)) (splits : List GoString) :
    ∀ (i : Nat) (chunks : List GoString) (cur : GoString),
      (∀ p ∈ splits, ((TrimSpace p).length : Int) ≤ cfg.ChunkSize) →
      (∀ c ∈ chunks, (c.length : Int) ≤ sizeBound cfg sep) →
      (cur.length : Int) ≤ sizeBound cfg sep →
      ∃ out, mergeLoop cfg sep recur splits i chunks cur = .done out ∧
        ∀ c ∈ out, (c.length : Int) ≤ sizeBound cfg sep := by
  induction splits with
  | nil =>
    intro i chunks cur _ hch hcur
    exact ⟨_, rfl, flushBuffer_bound _ _ _ hch hcur⟩
  | cons p rest ih =>
    intro i chunks cur hfit hch hcur
    have hp : ((TrimSpace p).length : Int) ≤ cfg.ChunkSize := hfit p (List.mem_cons_self _ _)
    have hrest : ∀ q ∈ rest, ((TrimSpace q).length : Int) ≤ cfg.ChunkSize :=
      fun q hq => hfit q (List.mem_cons_of_mem _ hq)
    by_cases h1 : TrimSpace p = []
    · rw [mergeLoop_blank _ _ _ _ _ _ _ _ h1]
      exact ih _ _ _ hrest hch hcur
    · have h2 : ¬ ((TrimSpace p).length : Int) > cfg.ChunkSize := by omega
      by_cases h3 : newSize sep cur (TrimSpace p) > cfg.ChunkSize
      · rw [mergeLoop_overflow _ _ _ _ _ _ _ _ h1 h2 h3]
        apply ih _ _ _ hrest (flushBuffer_bound _ _ _ hch hcur)
        have hs := overlapSeed_length_le cfg sep (flushBuffer chunks cur)
        have hw := writePiece_length_le sep i (overlapSeed cfg sep (flushBuffer chunks cur))
          (TrimSpace p)
        unfold sizeBound
        split_ifs at hs hw ⊢ <;> omega
      · rw [mergeLoop_append _ _ _ _ _ _ _ _ h1 h2 h3]
        apply ih _ _ _ hrest hch
        have hw := writePiece_length_le sep i cur (TrimSpace p)
        have hsep : (0 : Int) ≤ (sep.length : Int) := Int.natCast_nonneg _
        unfold newSize at h3
        unfold sizeBound
        split_ifs at h3 hw ⊢ <;> omega

/-! ## The fixed-size loop: termination, and what happens without a positive stride -/

theorem windowEnd_cases (cfg : Options) (n : Nat) (i : Int) :
    ((n : Int) < i + cfg.ChunkSize ∧ windowEnd cfg n i = (n : Int)) ∨
      (i + cfg.ChunkSize ≤ (n : Int) ∧ windowEnd cfg n i = i + cfg.ChunkSize) := by
  unfold windowEnd
  split_ifs with h
  · exact Or.inl ⟨h, rfl⟩
  · exact Or.inr ⟨by omega, rfl⟩

theorem splitBySizeLoop_terminates (cfg : Options) (rs : List Nat)
    (hcs : 0 < cfg.ChunkSize) (hco : 0 ≤ cfg.ChunkOverlap)
    (hlt : cfg.ChunkOverlap < cfg.ChunkSize) (fuel : Nat) :
    ∀ (i : Int) (chunks : List GoString), 0 ≤ i → i ≤ (rs.length : Int) →
      (rs.length : Int) - i < fuel →
      ∃ out, splitBySizeLoop cfg rs fuel i chunks = .done out := by
  induction fuel with
  | zero =>
    intro i chunks hi hle hf
    push_cast at hf
    omega
  | succ fuel ih =>
    intro i chunks hi hle hf
    push_cast at hf
    rw [splitBySizeLoop_succ_eq]
    by_cases h1 : i < (rs.length : Int)
    · rw [if_pos h1]
      have hw := windowEnd_cases cfg rs.length i
      rw [if_neg (by omega)]
      by_cases h3 : windowEnd cfg rs.length i = (rs.length : Int)
      · rw [if_pos h3]
        exact ⟨_, rfl⟩
      · rw [if_neg h3]
        apply ih <;> omega
    · rw [if_neg h1]
      exact ⟨_, rfl⟩

theorem splitBySizeLoop_succ (cfg : Options) (rs : List Nat) (fuel : Nat) :
    ∀ (i : Int) (chunks out : List GoString), splitBySizeLoop cfg rs fuel i chunks = .done out →
      splitBySizeLoop cfg rs (fuel + 1) i chunks = .done out := by
  induction fuel with
  | zero => intro i chunks out h; simp [splitBySizeLoop] at h
  | succ fuel ih =>
    intro i chunks out h
    rw [splitBySizeLoop_succ_eq] at h ⊢
    split_ifs at h ⊢ with h1 h2 h3
    · exact h
    · exact ih _ _ _ h
    · exact h

theorem splitBySizeLoop_mono (cfg : Options) (rs : List Nat) (fuel fuel2 : Nat)
    (hle : fuel ≤ fuel2) (i : Int) (chunks out : List GoString)
    (h : splitBySizeLoop cfg rs fuel i chunks = .done out) :
    splitBySizeLoop cfg rs fuel2 i chunks = .done out := by
  induction hle with
  | refl => exact h
  | step _ ih => exact splitBySizeLoop_succ cfg rs _ i chunks out ih

theorem splitBySize_terminates (cfg : Options) (hcs : 0 < cfg.ChunkSize)
    (hco : 0 ≤ cfg.ChunkOverlap) (hlt : cfg.ChunkOverlap < cfg.ChunkSize) (text : GoString) :
    ∃ out, ∀ fuel, text.length < fuel → splitBySize cfg fuel text = .done out := by
  obtain ⟨out, hout⟩ := splitBySizeLoop_terminates cfg (runes text) hcs hco hlt (text.length + 1) 0 []
    le_rfl (Int.natCast_nonneg _) (by have := runes_length_le text; push_cast; omega)
  refine ⟨out, fun fuel hf => ?_⟩
  exact splitBySizeLoop_mono cfg (runes text) _ fuel (by omega) 0 [] out hout

/-- With a stride of zero the loop stays at index 0 and never reaches the end of a text
of more than `ChunkSize` runes: no iteration budget is enough. -/
theorem splitBySizeLoop_zero_stride (cfg : Options) (rs : List Nat)
    (hcs : 0 < cfg.ChunkSize) (heq : cfg.ChunkOverlap = cfg.ChunkSize)
    (hlen : cfg.ChunkSize < (rs.length : Int)) (fuel : Nat) :
    ∀ chunks : List GoString, splitBySizeLoop cfg rs fuel 0 chunks = .outOfFuel := by
  induction fuel with
  | zero => intro chunks; rfl
  | succ fuel ih =>
    intro chunks
    have hw : windowEnd cfg rs.length 0 = cfg.ChunkSize := by
      unfold windowEnd
      rw [if_neg (by omega)]
      omega
    rw [splitBySizeLoop_succ_eq, if_pos (by omega), hw, if_neg (by omega), if_neg (by omega), heq,
      sub_self, add_zero]
    exact ih _

/-- With a negative stride the second iteration slices the runes from a negative index. -/
theorem splitBySizeLoop_negative_stride (cfg : Options) (rs : List Nat)
    (hcs : 0 < cfg.ChunkSize) (hgt : cfg.ChunkSize < cfg.ChunkOverlap)
    (hlen : cfg.ChunkSize < (rs.length : Int)) (fuel : Nat) (chunks : List GoString) :
    splitBySizeLoop cfg rs (fuel + 2) 0 chunks = .panic := by
  have hw : windowEnd cfg rs.length 0 = cfg.ChunkSize := by
    unfold windowEnd
    rw [if_neg (by omega)]
    omega
  rw [splitBySizeLoop_succ_eq, if_pos (by omega), hw, if_neg (by omega), if_neg (by omega),
    splitBySizeLoop_succ_eq, if_pos (by omega), if_pos (Or.inl (by omega))]

/-! ## Termination of `splitText` -/

theorem mergeLoop_congr (cfg : Options) (sep : GoString)
    (recur recur2 : GoString → Outcome (List GoString)) (splits : List GoString) :
    ∀ (i : Nat) (chunks : List GoString) (cur : GoString),
      (∀ p ∈ splits, cfg.ChunkSize < ((TrimSpace p).length : Int) →
        recur (TrimSpace p) = recur2 (TrimSpace p)) →
      mergeLoop cfg sep recur splits i chunks cur
        = mergeLoop cfg sep recur2 splits i chunks cur := by
  induction splits with
  | nil => intro i chunks cur _; rfl
  | cons p rest ih =>
    intro i chunks cur h
    have hrest : ∀ q ∈ rest, cfg.ChunkSize < ((TrimSpace q).length : Int) →
        recur (TrimSpace q) = recur2 (TrimSpace q) :=
      fun q hq => h q (List.mem_cons_of_mem _ hq)
    by_cases h1 : TrimSpace p = []
    · rw [mergeLoop_blank _ _ _ _ _ _ _ _ h1, mergeLoop_blank _ _ _ _ _ _ _ _ h1]
      exact ih _ _ _ hrest
    · by_cases h2 : ((TrimSpace p).length : Int) > cfg.ChunkSize
      · have he := h p (List.mem_cons_self _ _) h2
        cases hr : recur (TrimSpace p) with
        | done sub =>
          rw [mergeLoop_big_done _ _ _ _ _ _ _ _ _ h1 h2 hr,
            mergeLoop_big_done _ _ _ _ _ _ _ _ _ h1 h2 (he ▸ hr)]
          exact ih _ _ _ hrest
        | panic =>
          rw [mergeLoop_big_panic _ _ _ _ _ _ _ _ h1 h2 hr,
            mergeLoop_big_panic _ _ _ _ _ _ _ _ h1 h2 (he ▸ hr)]
        | outOfFuel =>
          rw [mergeLoop_big_outOfFuel _ _ _ _ _ _ _ _ h1 h2 hr,
            mergeLoop_big_outOfFuel _ _ _ _ _ _ _ _ h1 h2 (he ▸ hr)]
      · by_cases h3 : newSize sep cur (TrimSpace p) > cfg.ChunkSize
        · rw [mergeLoop_overflow _ _ _ _ _ _ _ _ h1 h2 h3,
            mergeLoop_overflow _ _ _ _ _ _ _ _ h1 h2 h3]
          exact ih _ _ _ hrest
        · rw [mergeLoop_append _ _ _ _ _ _ _ _ h1 h2 h3,
            mergeLoop_append _ _ _ _ _ _ _ _ h1 h2 h3]
          exact ih _ _ _ hrest

theorem mergeLoop_total (cfg : Options) (sep : GoString)
    (f : GoString → List GoString) (splits : List GoString) :
    ∀ (i : Nat) (chunks : List GoString) (cur : GoString),
      ∃ out, mergeLoop cfg sep (fun q => .done (f q)) splits i chunks cur = .done out := by
  induction splits with
  | nil => intro i chunks cur; exact ⟨_, rfl⟩
  | cons p rest ih =>
    intro i chunks cur
    by_cases h1 : TrimSpace p = []
    · rw [mergeLoop_blank _ _ _ _ _ _ _ _ h1]
      exact ih _ _ _
    · by_cases h2 : ((TrimSpace p).length : Int) > cfg.ChunkSize
      · rw [mergeLoop_big_done _ _ _ _ _ _ _ _ _ h1 h2 rfl]
        exact ih _ _ _
      · by_cases h3 : newSize sep cur (TrimSpace p) > cfg.ChunkSize
        · rw [mergeLoop_overflow _ _ _ _ _ _ _ _ h1 h2 h3]
          exact ih _ _ _
        · rw [mergeLoop_append _ _ _ _ _ _ _ _ h1 h2 h3]
          exact ih _ _ _

/-- For a valid configuration `splitText` returns: there are chunks that it returns for
every iteration budget above the length of the text (and above 4, the longest encoding of
a rune). -/
theorem splitText_returns (cfg : Options) (hcs : 0 < cfg.ChunkSize)
    (hco : 0 ≤ cfg.ChunkOverlap) (hlt : cfg.ChunkOverlap < cfg.ChunkSize) (seps : List GoString) :
    ∀ text : GoString, ∃ chunks, ∀ fuel, max text.length 4 < fuel →
      splitText cfg fuel text seps = .done chunks := by
  induction seps with
  | nil =>
    intro text
    by_cases h0 : text.length = 0
    · exact ⟨[], fun fuel _ => by rw [splitText_nil_eq, if_pos h0]⟩
    · by_cases h1 : (text.length : Int) ≤ cfg.ChunkSize
      · exact ⟨[TrimSpace text], fun fuel _ => by rw [splitText_nil_eq, if_neg h0, if_pos h1]⟩
      · obtain ⟨out, hout⟩ := splitBySize_terminates cfg hcs hco hlt text
        refine ⟨out, fun fuel hf => ?_⟩
        rw [splitText_nil_eq, if_neg h0, if_neg h1]
        exact hout fuel (by omega)
  | cons sep rest ih =>
    intro text
    by_cases h0 : text.length = 0
    · exact ⟨[], fun fuel _ => by rw [splitText_cons_eq, if_pos h0]⟩
    · by_cases h1 : (text.length : Int) ≤ cfg.ChunkSize
      · exact ⟨[TrimSpace text], fun fuel _ => by rw [splitText_cons_eq, if_neg h0, if_pos h1]⟩
      · choose f hf using ih
        obtain ⟨out, hout⟩ := mergeLoop_total cfg sep f (splitPieces text sep) 0 [] []
        refine ⟨out, fun fuel hfuel => ?_⟩
        rw [splitText_cons_eq, if_neg h0, if_neg h1, ← hout]
        apply mergeLoop_congr
        intro p hp _
        apply hf
        have h2 := splitPieces_length_le text sep p hp
        have h3 := TrimSpace_length_le p
        omega

/-- **C3**.  For `ChunkSize > 0` and `0 ≤ ChunkOverlap < ChunkSize`, `splitText` terminates
on every text and every separator list (the empty list and lists with the empty separator
included): the stride of the fixed-size loop is at least 1, `splitBySize` returns within
`len(text) + 1` iterations, and `splitText`, which recurses on the remaining separators,
returns the same chunks for every iteration budget above the length of the text (and above
4, the longest encoding of a rune). -/
theorem splitText_terminates (cfg : Options) (hcs : 0 < cfg.ChunkSize)
    (hco : 0 ≤ cfg.ChunkOverlap) (hlt : cfg.ChunkOverlap < cfg.ChunkSize) :
    1 ≤ cfg.ChunkSize - cfg.ChunkOverlap ∧
    (∀ text : GoString, ∃ chunks, ∀ fuel, text.length < fuel →
      splitBySize cfg fuel text = .done chunks) ∧
    (∀ (text : GoString) (seps : List GoString), ∃ chunks, ∀ fuel, max text.length 4 < fuel →
      splitText cfg fuel text seps = .done chunks) := by
  refine ⟨by omega, fun text => ?_, fun text seps => ?_⟩
  · obtain ⟨out, hout⟩ := splitBySize_terminates cfg hcs hco hlt text
    exact ⟨out, hout⟩
  · obtain ⟨out, hout⟩ := splitText_returns cfg hcs hco hlt seps text
    exact ⟨out, hout⟩

/-- Witness of `splitText_terminates`: `ChunkSize = 3`, `ChunkOverlap = 1`. -/
theorem splitText_terminates_witness :
    (0 < (⟨3, 1, []⟩ : Options).ChunkSize ∧ 0 ≤ (⟨3, 1, []⟩ : Options).ChunkOverlap ∧
      (⟨3, 1, []⟩ : Options).ChunkOverlap < (⟨3, 1, []⟩ : Options).ChunkSize) ∧
    1 ≤ (⟨3, 1, []⟩ : Options).ChunkSize - (⟨3, 1, []⟩ : Options).ChunkOverlap ∧
    (∀ text : GoString, ∃ chunks, ∀ fuel, text.length < fuel →
      splitBySize ⟨3, 1, []⟩ fuel text = .done chunks) ∧
    (∀ (text : GoString) (seps : List GoString), ∃ chunks, ∀ fuel, max text.length 4 < fuel →
      splitText ⟨3, 1, []⟩ fuel text seps = .done chunks) :=
  ⟨by decide, splitText_terminates ⟨3, 1, []⟩ (by decide) (by decide) (by decide)⟩

/-! ## Invalid configurations are not rejected -/

/-- For `ChunkSize > 0` and `ChunkOverlap ≥ ChunkSize`, the fixed-size fallback never
returns on a text of more than `ChunkSize` runes, whatever the iteration budget: with a
zero stride the budget runs out, with a negative stride the second window panics. -/
theorem splitBySize_invalid_never_done (cfg : Options) (hcs : 0 < cfg.ChunkSize)
    (hge : cfg.ChunkSize ≤ cfg.ChunkOverlap) (text : GoString)
    (hlen : cfg.ChunkSize < ((runes text).length : Int)) (fuel : Nat)
    (out : List GoString) : splitBySize cfg fuel text ≠ .done out := by
  unfold splitBySize
  rcases eq_or_lt_of_le hge with heq | hgt
  · rw [splitBySizeLoop_zero_stride cfg _ hcs heq.symm hlen]
    exact fun h => Outcome.noConfusion h
  · match fuel with
    | 0 => exact fun h => Outcome.noConfusion h
    | 1 =>
      have hw := windowEnd_cases cfg (runes text).length 0
      rw [splitBySizeLoop_succ_eq, if_pos (by omega), if_neg (by omega), if_neg (by omega)]
      exact fun h => Outcome.noConfusion h
    | fuel + 2 =>
      rw [splitBySizeLoop_negative_stride cfg _ hcs hgt hlen]
      exact fun h => Outcome.noConfusion h

/-- **C2**, evaluation of the code.  No configuration is validated: with
`ChunkSize = ChunkOverlap = 2` and no separator, `Split` on the document `"abc"` never
returns, whatever the iteration budget (the window stays at index 0); with
`ChunkSize = 2`, `ChunkOverlap = 3` it panics on the second window. -/
theorem Split_invalid_configuration_not_rejected :
    (∀ fuel, Split ⟨⟨2, 2, []⟩⟩ fuel (fun _ => none) [NewDocument [100] [97, 98, 99]]
      = .outOfFuel) ∧
    (∀ fuel, Split ⟨⟨2, 3, []⟩⟩ (fuel + 2) (fun _ => none) [NewDocument [100] [97, 98, 99]]
      = .panic) := by
  constructor
  · intro fuel
    have h : splitText ⟨2, 2, []⟩ fuel [97, 98, 99] [] = .outOfFuel := by
      rw [splitText_nil_eq, if_neg (by decide), if_neg (by decide)]
      exact splitBySizeLoop_zero_stride ⟨2, 2, []⟩ _ (by decide) rfl (by decide) fuel []
    simp only [Split, SplitLoop, NewDocument, h]
  · intro fuel
    have h : splitText ⟨2, 3, []⟩ (fuel + 2) [97, 98, 99] [] = .panic := by
      rw [splitText_nil_eq, if_neg (by decide), if_neg (by decide)]
      exact splitBySizeLoop_negative_stride ⟨2, 3, []⟩ _ (by decide) (by decide) (by decide)
        fuel []
    simp only [Split, SplitLoop, NewDocument, h]

/-! ## Sizes are measured in bytes -/

/-- **C4**, evaluation of the code.  The text `"éé"` has 2 runes (4 bytes); with
`ChunkSize = 3`, no overlap and the separator list `[""]`, `splitText` does not return
the single chunk `"éé"` but the two chunks `"é"`, `"é"`. -/
theorem splitText_short_in_runes_is_split :
    (runes [0xC3, 0xA9, 0xC3, 0xA9]).length = 2 ∧
    TrimSpace [0xC3, 0xA9, 0xC3, 0xA9] = [0xC3, 0xA9, 0xC3, 0xA9] ∧
    ∀ fuel, splitText ⟨3, 0, []⟩ fuel [0xC3, 0xA9, 0xC3, 0xA9] [[]]
      = .done [[0xC3, 0xA9], [0xC3, 0xA9]] := by
  refine ⟨by decide, by decide, fun fuel => ?_⟩
  rw [splitText_cons_eq, if_neg (by decide), if_neg (by decide)]
  have hp : splitPieces [0xC3, 0xA9, 0xC3, 0xA9] [] = [[0xC3, 0xA9], [0xC3, 0xA9]] := by decide
  have ht : TrimSpace [0xC3, 0xA9] = [0xC3, 0xA9] := by decide
  rw [hp, mergeLoop_append _ _ _ _ _ _ _ _ (by rw [ht]; decide) (by rw [ht]; decide)
      (by rw [ht]; decide),
    mergeLoop_overflow _ _ _ _ _ _ _ _ (by rw [ht]; decide) (by rw [ht]; decide)
      (by rw [ht]; decide), mergeLoop_nil]
  decide

/-- **C5**, evaluation of the code.  With `ChunkSize = 4`, `ChunkOverlap = 1` and the
separator `","`, the valid text `"éé,éé"` gives the chunks `"éé"` and the bytes
`A9 2C 2C C3 A9 C3 A9`: the seed is the last byte of `"éé"` (half of `é`) followed by the
separator, and the second chunk is not valid UTF-8. -/
theorem splitText_overlap_splits_rune :
    ValidString [0xC3, 0xA9, 0xC3, 0xA9, 0x2C, 0xC3, 0xA9, 0xC3, 0xA9] = true ∧
    ValidString [0x2C] = true ∧
    overlapSeed ⟨4, 1, []⟩ [0x2C] [[0xC3, 0xA9, 0xC3, 0xA9]] = [0xA9, 0x2C] ∧
    (∀ fuel, splitText ⟨4, 1, []⟩ fuel [0xC3, 0xA9, 0xC3, 0xA9, 0x2C, 0xC3, 0xA9, 0xC3, 0xA9]
      [[0x2C]] = .done [[0xC3, 0xA9, 0xC3, 0xA9], [0xA9, 0x2C, 0x2C, 0xC3, 0xA9, 0xC3, 0xA9]]) ∧
    ValidString [0xA9, 0x2C, 0x2C, 0xC3, 0xA9, 0xC3, 0xA9] = false := by
  refine ⟨by decide, by decide, by decide, fun fuel => ?_, by decide⟩
  rw [splitText_cons_eq, if_neg (by decide), if_neg (by decide)]
  have hp : splitPieces [0xC3, 0xA9, 0xC3, 0xA9, 0x2C, 0xC3, 0xA9, 0xC3, 0xA9] [0x2C]
      = [[0xC3, 0xA9, 0xC3, 0xA9], [0xC3, 0xA9, 0xC3, 0xA9]] := by decide
  have ht : TrimSpace [0xC3, 0xA9, 0xC3, 0xA9] = [0xC3, 0xA9, 0xC3, 0xA9] := by decide
  rw [hp, mergeLoop_append _ _ _ _ _ _ _ _ (by rw [ht]; decide) (by rw [ht]; decide)
      (by rw [ht]; decide),
    mergeLoop_overflow _ _ _ _ _ _ _ _ (by rw [ht]; decide) (by rw [ht]; decide)
      (by rw [ht]; decide), mergeLoop_nil]
  decide

/-! ## Chunk records -/

theorem itoaLoop_eq (fuel : Nat) :
    ∀ (n : Nat) (digits : GoString), n ≤ fuel →
      itoaLoop fuel (n : Int) digits
        = (Nat.digits 10 n).reverse.map (fun d => 48 + d) ++ digits := by
  induction fuel with
  | zero =>
    intro n digits hn
    have : n = 0 := by omega
    subst this
    simp [itoaLoop]
  | succ fuel ih =>
    intro n digits hn
    rcases Nat.eq_zero_or_pos n with h0 | hpos
    · subst h0
      simp [itoaLoop]
    · have h1 : ((n : Int) > 0) := by exact_mod_cast hpos
      have h2 : ((n : Int) / 10) = ((n / 10 : Nat) : Int) := by norm_cast
      have h3 : (48 + (n : Int) % 10).toNat = 48 + n % 10 := by omega
      rw [itoaLoop, if_pos h1, h2, h3, ih (n / 10) _ (by omega),
        Nat.digits_def' (by decide) hpos]
      simp

theorem itoa_eq_decimal (n : Nat) : itoa (n : Int) = decimal n := by
  unfold itoa decimal
  by_cases h : n = 0
  · subst h
    simp
  · have h1 : ¬ ((n : Int) = 0) := by exact_mod_cast h
    rw [if_neg h1, if_neg h, Int.toNat_natCast, itoaLoop_eq n n [] le_rfl, List.append_nil]

theorem foldl_insert_lookup (k : GoString) (l : List (Sigma fun _ : GoString => AnyValue)) :
    ∀ (acc : AList (fun _ : GoString => AnyValue)), (l.map Sigma.fst).Nodup →
      (l.foldl (fun copied kv => copied.insert kv.1 kv.2) acc).lookup k
        = (List.dlookup k l).orElse (fun _ => acc.lookup k) := by
  induction l with
  | nil => intro acc _; simp
  | cons e rest ih =>
    intro acc hnd
    rw [List.map_cons, List.nodup_cons] at hnd
    rw [List.foldl_cons, ih _ hnd.2]
    by_cases hk : e.1 = k
    · subst hk
      have hnot : List.dlookup e.1 rest = none := by
        rw [List.dlookup_eq_none]
        exact hnd.1
      rw [hnot]
      cases e with
      | mk a b => simp [List.dlookup_cons_eq]
    · rw [List.dlookup_cons_ne _ _ (Ne.symm hk), AList.lookup_insert_ne (Ne.symm hk)]

theorem copyExtra_get (extra : GoMap) (k : GoString) :
    (copyExtra extra).get k = extra.get k := by
  cases extra with
  | none => simp [copyExtra, GoMap.get]
  | some m =>
    simp only [copyExtra, GoMap.get]
    rw [foldl_insert_lookup k m.entries ∅ m.nodupKeys]
    simp only [AList.lookup, AList.empty_entries, List.dlookup_nil]
    cases List.dlookup k m.entries <;> rfl

theorem newDoc_isChunkRecord (doc : Document) (total i : Nat) (chunk : GoString) :
    IsChunkRecord doc total i chunk (newDoc doc total i chunk) := by
  refine ⟨rfl, ?_, rfl, rfl, rfl, rfl, rfl, rfl, rfl, fun k => copyExtra_get _ k⟩
  simp only [newDoc, itoa_eq_decimal]

theorem appendChunkDocs_eq (doc : Document) (total : Int) (chunks : List GoString) :
    ∀ (i : Nat) (result : List Document),
      appendChunkDocs doc total chunks i result
        = result ++ (chunks.enumFrom i).map (fun ic => newDoc doc total ic.1 ic.2) := by
  induction chunks with
  | nil => intro i result; simp [appendChunkDocs]
  | cons c rest ih =>
    intro i result
    rw [appendChunkDocs, ih]
    simp

theorem SplitLoop_eq (s : Splitter) (fuel : Nat) (ctx : Context) (hctx : ∀ k, ctx k = none)
    (chunksOf : Document → List GoString) (docs : List Document) :
    ∀ (k : Nat) (result : List Document),
      (∀ d ∈ docs, splitText s.opts fuel d.Content s.opts.Separators = .done (chunksOf d)) →
      SplitLoop s fuel ctx docs k result
        = .done (result ++ docs.flatMap (fun d =>
            (chunksOf d).enum.map (fun ic => newDoc d (chunksOf d).length ic.1 ic.2)), none) := by
  induction docs with
  | nil => intro k result _; simp [SplitLoop]
  | cons d rest ih =>
    intro k result h
    have hd := h d (List.mem_cons_self _ _)
    rw [SplitLoop]
    simp only [hctx, hd]
    rw [ih _ _ (fun e he => h e (List.mem_cons_of_mem _ he)), appendChunkDocs_eq]
    simp [List.enum]

theorem forall₂_chunk_records (d : Document) (chunks : List GoString) (total : Nat) :
    ∀ i : Nat, List.Forall₂ (fun r q => IsChunkRecord q.1 q.2.1 q.2.2.1 q.2.2.2 r)
      ((chunks.enumFrom i).map (fun ic => newDoc d total ic.1 ic.2))
      ((chunks.enumFrom i).map (fun ic => (d, total, ic.1, ic.2))) := by
  induction chunks with
  | nil => intro i; exact List.Forall₂.nil
  | cons c rest ih =>
    intro i
    exact List.Forall₂.cons (newDoc_isChunkRecord d total i c) (ih (i + 1))

theorem forall₂_all_records (chunksOf : Document → List GoString) (docs : List Document) :
    List.Forall₂ (fun r q => IsChunkRecord q.1 q.2.1 q.2.2.1 q.2.2.2 r)
      (docs.flatMap (fun d =>
        (chunksOf d).enum.map (fun ic => newDoc d (chunksOf d).length ic.1 ic.2)))
      (docs.flatMap (fun d => indexedChunks d (chunksOf d))) := by
  induction docs with
  | nil => exact List.Forall₂.nil
  | cons d rest ih =>
    rw [List.flatMap_cons, List.flatMap_cons]
    exact List.rel_append (forall₂_chunk_records d (chunksOf d) _ 0) ih

/-- **C6**.  Chunk records.  For every configuration, every list of documents and a context
that is never cancelled: when `splitText(doc.Content, separators)` returns for each document,
`Split` returns no error and, for the documents in input order, one record per chunk of
`splitText(doc.Content, separators)` in chunk order; record number `i` of a document has the
chunk as content, the identifier `<doc.ID>_chunk_<i>` with `i` in decimal,
`ChunkIndex = i`, `TotalChunks` the number of chunks of that document, `ParentID = doc.ID`,
the `Source`, `Title`, `Author`, `CreatedAt` of the document and a copy of its `Extra`.  A
document with an empty content gives no record.  For a valid configuration and an iteration
budget above the length of every document, `splitText` returns for each document. -/
theorem Split_chunk_records (s : Splitter) (fuel : Nat) (ctx : Context) (docs : List Document) :
    ((∀ k, ctx k = none) →
      (∀ d ∈ docs, ∃ chunks,
        splitText s.opts fuel d.Content s.opts.Separators = .done chunks) →
      ∃ (chunksOf : Document → List GoString) (out : List Document),
        (∀ d ∈ docs,
          splitText s.opts fuel d.Content s.opts.Separators = .done (chunksOf d)) ∧
        (∀ d ∈ docs, d.Content = [] → chunksOf d = []) ∧
        Split s fuel ctx docs = .done (out, none) ∧
        List.Forall₂ (fun r q => IsChunkRecord q.1 q.2.1 q.2.2.1 q.2.2.2 r) out
          (docs.flatMap (fun d => indexedChunks d (chunksOf d)))) ∧
    (0 < s.opts.ChunkSize → 0 ≤ s.opts.ChunkOverlap →
      s.opts.ChunkOverlap < s.opts.ChunkSize →
      (∀ d ∈ docs, max d.Content.length 4 < fuel) →
      ∀ d ∈ docs, ∃ chunks,
        splitText s.opts fuel d.Content s.opts.Separators = .done chunks) := by
  refine ⟨fun hctx hret => ?_, fun hcs hco hlt hfuel d hd => ?_⟩
  · obtain ⟨f, h1⟩ : ∃ f : Document → List GoString, ∀ d ∈ docs,
        splitText s.opts fuel d.Content s.opts.Separators = .done (f d) := by
      refine ⟨fun d => match splitText s.opts fuel d.Content s.opts.Separators with
        | .done c => c
        | _ => [], ?_⟩
      intro d hd
      obtain ⟨c, hc⟩ := hret d hd
      simp only [hc]
    refine ⟨f, _, h1, ?_, ?_, forall₂_all_records _ docs⟩
    · intro d hd h0
      have h2 := h1 d hd
      rw [h0, splitText_empty] at h2
      exact (Outcome.done.inj h2).symm
    · unfold Split
      rw [SplitLoop_eq s fuel ctx hctx f docs 0 [] h1, List.nil_append]
  · obtain ⟨chunks, hc⟩ := splitText_returns s.opts hcs hco hlt s.opts.Separators d.Content
    exact ⟨chunks, hc fuel (hfuel d hd)⟩

/-- Witness of `Split_chunk_records`: first the two documents `"ab cd"` and the empty
document under `ChunkSize = 3`, `ChunkOverlap = 1`, separators `" "` and `""`; then the
document `"hello,world"` under `ChunkSize = 5`, `ChunkOverlap = 10`, separator `","`, a
configuration with an overlap above the chunk size on which `splitText` returns. -/
theorem Split_chunk_records_witness :
    (∃ (chunksOf : Document → List GoString) (out : List Document),
      (∀ d ∈ [NewDocument [100] [97, 98, 32, 99, 100], NewDocument [101] []],
        splitText (⟨⟨3, 1, [[32], []]⟩⟩ : Splitter).opts 6 d.Content
          (⟨⟨3, 1, [[32], []]⟩⟩ : Splitter).opts.Separators = .done (chunksOf d)) ∧
      (∀ d ∈ [NewDocument [100] [97, 98, 32, 99, 100], NewDocument [101] []],
        d.Content = [] → chunksOf d = []) ∧
      Split ⟨⟨3, 1, [[32], []]⟩⟩ 6 (fun _ => none)
        [NewDocument [100] [97, 98, 32, 99, 100], NewDocument [101] []] = .done (out, none) ∧
      List.Forall₂ (fun r q => IsChunkRecord q.1 q.2.1 q.2.2.1 q.2.2.2 r) out
        ([NewDocument [100] [97, 98, 32, 99, 100], NewDocument [101] []].flatMap
          (fun d => indexedChunks d (chunksOf d)))) ∧
    (∃ (chunksOf : Document → List GoString) (out : List Document),
      (∀ d ∈ [NewDocument [100] [104, 101, 108, 108, 111, 44, 119, 111, 114, 108, 100]],
        splitText (⟨⟨5, 10, [[44]]⟩⟩ : Splitter).opts 12 d.Content
          (⟨⟨5, 10, [[44]]⟩⟩ : Splitter).opts.Separators = .done (chunksOf d)) ∧
      (∀ d ∈ [NewDocument [100] [104, 101, 108, 108, 111, 44, 119, 111, 114, 108, 100]],
        d.Content = [] → chunksOf d = []) ∧
      Split ⟨⟨5, 10, [[44]]⟩⟩ 12 (fun _ => none)
        [NewDocument [100] [104, 101, 108, 108, 111, 44, 119, 111, 114, 108, 100]]
        = .done (out, none) ∧
      List.Forall₂ (fun r q => IsChunkRecord q.1 q.2.1 q.2.2.1 q.2.2.2 r) out
        ([NewDocument [100] [104, 101, 108, 108, 111, 44, 119, 111, 114, 108, 100]].flatMap
          (fun d => indexedChunks d (chunksOf d)))) :=
  ⟨(Split_chunk_records ⟨⟨3, 1, [[32], []]⟩⟩ 6 (fun _ => none)
      [NewDocument [100] [97, 98, 32, 99, 100], NewDocument [101] []]).1 (fun _ => rfl)
      ((Split_chunk_records ⟨⟨3, 1, [[32], []]⟩⟩ 6 (fun _ => none)
        [NewDocument [100] [97, 98, 32, 99, 100], NewDocument [101] []]).2
        (by decide) (by decide) (by decide) (by decide)),
    (Split_chunk_records ⟨⟨5, 10, [[44]]⟩⟩ 12 (fun _ => none)
      [NewDocument [100] [104, 101, 108, 108, 111, 44, 119, 111, 114, 108, 100]]).1
      (fun _ => rfl)
      (by
        intro d hd
        rw [List.mem_singleton] at hd
        subst hd
        exact ⟨[[104, 101, 108, 108, 111],
          [104, 101, 108, 108, 111, 44, 44, 119, 111, 114, 108, 100]], by decide⟩)⟩
/-! ## Sub-chunks are produced in place -/

theorem Outcome.bind_done {α β : Type} (a : α) (f : α → Outcome β) :
    (Outcome.done a).bind f = f a := rfl

theorem Outcome.bind_panic {α β : Type} (f : α → Outcome β) :
    (Outcome.panic : Outcome α).bind f = .panic := rfl

theorem Outcome.bind_outOfFuel {α β : Type} (f : α → Outcome β) :
    (Outcome.outOfFuel : Outcome α).bind f = .outOfFuel := rfl

theorem flushBuffer_append (c0 chunks : List GoString) (cur : GoString) :
    flushBuffer (c0 ++ chunks) cur = c0 ++ flushBuffer chunks cur := by
  unfold flushBuffer
  split_ifs <;> simp

theorem overlapSeed_flush_append (cfg : Options) (sep : GoString) (c0 chunks : List GoString)
    (cur : GoString) (hcur : cur.length > 0) :
    overlapSeed cfg sep (flushBuffer (c0 ++ chunks) cur)
      = overlapSeed cfg sep (flushBuffer chunks cur) := by
  unfold flushBuffer overlapSeed
  simp only [if_pos hcur, ← List.append_assoc, List.getLastD_concat, List.length_append,
    List.length_singleton]
  have e1 : (cfg.ChunkOverlap > 0 ∧ c0.length + chunks.length + 1 > 0)
      ↔ cfg.ChunkOverlap > 0 := ⟨fun h => h.1, fun h => ⟨h, by omega⟩⟩
  have e2 : (cfg.ChunkOverlap > 0 ∧ chunks.length + 1 > 0)
      ↔ cfg.ChunkOverlap > 0 := ⟨fun h => h.1, fun h => ⟨h, by omega⟩⟩
  simp only [e1, e2]

theorem newSize_pos_of_overflow (cfg : Options) (sep cur split : GoString)
    (h2 : ¬ (split.length : Int) > cfg.ChunkSize) (h3 : newSize sep cur split > cfg.ChunkSize) :
    cur.length > 0 := by
  unfold newSize at h3
  by_contra h
  have h0 : cur.length = 0 := by omega
  rw [if_neg (fun hh => h hh.1), h0] at h3
  push_cast at h3
  omega

theorem writePiece_index (sep : GoString) (i j : Nat) (cur split : GoString)
    (h : cur.length > 0 → (0 < i ↔ 0 < j)) :
    writePiece sep i cur split = writePiece sep j cur split := by
  unfold writePiece
  by_cases hc : cur.length > 0
  · have := h hc
    by_cases hi : i > 0
    · have hj : j > 0 := this.1 hi
      simp [hc, hi, hj]
    · have hj : ¬ j > 0 := fun hj => hi (this.2 hj)
      simp [hi, hj]
  · simp [hc]

/-- The chunks already completed are only extended by the loop, and the loop index only
matters through `i > 0` when the buffer is not empty. -/
theorem mergeLoop_prepend (cfg : Options) (sep : GoString)
    (recur : GoString → Outcome (List GoString)) (c0 : List GoString) (splits : List GoString) :
    ∀ (i j : Nat) (chunks : List GoString) (cur : GoString),
      (cur.length > 0 → (0 < i ↔ 0 < j)) →
      mergeLoop cfg sep recur splits i (c0 ++ chunks) cur
        = (mergeLoop cfg sep recur splits j chunks cur).bind (fun out => .done (c0 ++ out)) := by
  induction splits with
  | nil =>
    intro i j chunks cur _
    rw [mergeLoop_nil, mergeLoop_nil, Outcome.bind_done, flushBuffer_append]
  | cons p rest ih =>
    intro i j chunks cur hij
    have hnext : ∀ c : GoString, c.length > 0 → (0 < i + 1 ↔ 0 < j + 1) :=
      fun _ _ => ⟨fun _ => Nat.succ_pos _, fun _ => Nat.succ_pos _⟩
    by_cases h1 : TrimSpace p = []
    · rw [mergeLoop_blank _ _ _ _ _ _ _ _ h1, mergeLoop_blank _ _ _ _ _ _ _ _ h1]
      exact ih _ _ _ _ (hnext cur)
    · by_cases h2 : ((TrimSpace p).length : Int) > cfg.ChunkSize
      · cases hr : recur (TrimSpace p) with
        | done sub =>
          rw [mergeLoop_big_done _ _ _ _ _ _ _ _ _ h1 h2 hr,
            mergeLoop_big_done _ _ _ _ _ _ _ _ _ h1 h2 hr, flushBuffer_append,
            List.append_assoc]
          exact ih _ _ _ _ (hnext _)
        | panic =>
          rw [mergeLoop_big_panic _ _ _ _ _ _ _ _ h1 h2 hr,
            mergeLoop_big_panic _ _ _ _ _ _ _ _ h1 h2 hr, Outcome.bind_panic]
        | outOfFuel =>
          rw [mergeLoop_big_outOfFuel _ _ _ _ _ _ _ _ h1 h2 hr,
            mergeLoop_big_outOfFuel _ _ _ _ _ _ _ _ h1 h2 hr, Outcome.bind_outOfFuel]
      · by_cases h3 : newSize sep cur (TrimSpace p) > cfg.ChunkSize
        · have hcur := newSize_pos_of_overflow cfg sep cur _ h2 h3
          rw [mergeLoop_overflow _ _ _ _ _ _ _ _ h1 h2 h3,
            mergeLoop_overflow _ _ _ _ _ _ _ _ h1 h2 h3,
            overlapSeed_flush_append _ _ _ _ _ hcur, flushBuffer_append,
            writePiece_index sep i j _ _ (fun _ => hij hcur)]
          exact ih _ _ _ _ (hnext _)
        · rw [mergeLoop_append _ _ _ _ _ _ _ _ h1 h2 h3,
            mergeLoop_append _ _ _ _ _ _ _ _ h1 h2 h3, writePiece_index sep i j _ _ hij]
          exact ih _ _ _ _ (hnext _)

/-- The merging loop over pieces with an oversized piece `b` in the middle. -/
theorem mergeLoop_split_at_big (cfg : Options) (sep : GoString)
    (recur : GoString → Outcome (List GoString)) (b : GoString) (Q : List GoString)
    (hb1 : TrimSpace b ≠ []) (hb2 : ((TrimSpace b).length : Int) > cfg.ChunkSize)
    (P : List GoString) :
    ∀ (i : Nat) (chunks : List GoString) (cur : GoString),
      mergeLoop cfg sep recur (P ++ b :: Q) i chunks cur
        = (mergeLoop cfg sep recur P i chunks cur).bind fun fromP =>
          (recur (TrimSpace b)).bind fun sub =>
          (mergeLoop cfg sep recur Q 0 [] []).bind fun fromQ =>
          .done (fromP ++ sub ++ fromQ) := by
  induction P with
  | nil =>
    intro i chunks cur
    rw [List.nil_append, mergeLoop_nil, Outcome.bind_done]
    cases hr : recur (TrimSpace b) with
    | done sub =>
      rw [mergeLoop_big_done _ _ _ _ _ _ _ _ _ hb1 hb2 hr, Outcome.bind_done]
      have hc : (if cur.length > 0 then [] else cur) = ([] : GoString) := by
        split_ifs with h
        · rfl
        · exact List.length_eq_zero.1 (by omega)
      rw [hc]
      have := mergeLoop_prepend cfg sep recur (flushBuffer chunks cur ++ sub) Q (i + 1) 0 [] []
        (fun h => absurd h (by simp))
      rw [List.append_nil] at this
      rw [this]
    | panic => rw [mergeLoop_big_panic _ _ _ _ _ _ _ _ hb1 hb2 hr, Outcome.bind_panic]
    | outOfFuel =>
      rw [mergeLoop_big_outOfFuel _ _ _ _ _ _ _ _ hb1 hb2 hr, Outcome.bind_outOfFuel]
  | cons p rest ih =>
    intro i chunks cur
    rw [List.cons_append]
    by_cases h1 : TrimSpace p = []
    · rw [mergeLoop_blank _ _ _ _ _ _ _ _ h1, mergeLoop_blank _ _ _ _ _ _ _ _ h1]
      exact ih _ _ _
    · by_cases h2 : ((TrimSpace p).length : Int) > cfg.ChunkSize
      · cases hr : recur (TrimSpace p) with
        | done sub =>
          rw [mergeLoop_big_done _ _ _ _ _ _ _ _ _ h1 h2 hr,
            mergeLoop_big_done _ _ _ _ _ _ _ _ _ h1 h2 hr]
          exact ih _ _ _
        | panic =>
          rw [mergeLoop_big_panic _ _ _ _ _ _ _ _ h1 h2 hr,
            mergeLoop_big_panic _ _ _ _ _ _ _ _ h1 h2 hr, Outcome.bind_panic]
        | outOfFuel =>
          rw [mergeLoop_big_outOfFuel _ _ _ _ _ _ _ _ h1 h2 hr,
            mergeLoop_big_outOfFuel _ _ _ _ _ _ _ _ h1 h2 hr, Outcome.bind_outOfFuel]
      · by_cases h3 : newSize sep cur (TrimSpace p) > cfg.ChunkSize
        · rw [mergeLoop_overflow _ _ _ _ _ _ _ _ h1 h2 h3,
            mergeLoop_overflow _ _ _ _ _ _ _ _ h1 h2 h3]
          exact ih _ _ _
        · rw [mergeLoop_append _ _ _ _ _ _ _ _ h1 h2 h3,
            mergeLoop_append _ _ _ _ _ _ _ _ h1 h2 h3]
          exact ih _ _ _

theorem mergeLoop_returns (cfg : Options) (hcs : 0 < cfg.ChunkSize)
    (hco : 0 ≤ cfg.ChunkOverlap) (hlt : cfg.ChunkOverlap < cfg.ChunkSize) (fuel : Nat)
    (sep : GoString) (rest : List GoString) (splits : List GoString)
    (hfuel : ∀ p ∈ splits, max p.length 4 < fuel) (i : Nat) (chunks : List GoString)
    (cur : GoString) :
    ∃ out, mergeLoop cfg sep (fun piece => splitText cfg fuel piece rest) splits i chunks cur
      = .done out := by
  choose f hf using splitText_returns cfg hcs hco hlt rest
  obtain ⟨out, hout⟩ := mergeLoop_total cfg sep f splits i chunks cur
  refine ⟨out, ?_⟩
  rw [← hout]
  apply mergeLoop_congr
  intro p hp _
  apply hf
  have h2 := hfuel p hp
  have h3 := TrimSpace_length_le p
  omega

theorem flushBuffer_nil (chunks : List GoString) : flushBuffer chunks [] = chunks := rfl

/-- With a negative `ChunkSize` and an empty buffer, the merging loop over pieces with a
blank piece `b` in the middle. -/
theorem mergeLoop_split_at_blank (cfg : Options) (sep : GoString)
    (recur : GoString → Outcome (List GoString)) (b : GoString) (Q : List GoString)
    (hneg : cfg.ChunkSize < 0) (hb1 : TrimSpace b = []) (P : List GoString) :
    ∀ (i : Nat) (chunks : List GoString),
      mergeLoop cfg sep recur (P ++ b :: Q) i chunks []
        = (mergeLoop cfg sep recur P i chunks []).bind fun fromP =>
          (mergeLoop cfg sep recur Q 0 [] []).bind fun fromQ =>
          .done (fromP ++ fromQ) := by
  induction P with
  | nil =>
    intro i chunks
    rw [List.nil_append, mergeLoop_nil, Outcome.bind_done, flushBuffer_nil,
      mergeLoop_blank _ _ _ _ _ _ _ _ hb1]
    have := mergeLoop_prepend cfg sep recur chunks Q (i + 1) 0 [] []
      (fun h => absurd h (by simp))
    rw [List.append_nil] at this
    exact this
  | cons p rest ih =>
    intro i chunks
    rw [List.cons_append]
    by_cases h1 : TrimSpace p = []
    · rw [mergeLoop_blank _ _ _ _ _ _ _ _ h1, mergeLoop_blank _ _ _ _ _ _ _ _ h1]
      exact ih _ _
    · have h2 : ((TrimSpace p).length : Int) > cfg.ChunkSize := by
        have : (0 : Int) ≤ ((TrimSpace p).length : Int) := Int.natCast_nonneg _
        omega
      have hc : (if ([] : GoString).length > 0 then [] else ([] : GoString)) = [] := by simp
      cases hr : recur (TrimSpace p) with
      | done sub =>
        rw [mergeLoop_big_done _ _ _ _ _ _ _ _ _ h1 h2 hr,
          mergeLoop_big_done _ _ _ _ _ _ _ _ _ h1 h2 hr, hc]
        exact ih _ _
      | panic =>
        rw [mergeLoop_big_panic _ _ _ _ _ _ _ _ h1 h2 hr,
          mergeLoop_big_panic _ _ _ _ _ _ _ _ h1 h2 hr, Outcome.bind_panic]
      | outOfFuel =>
        rw [mergeLoop_big_outOfFuel _ _ _ _ _ _ _ _ h1 h2 hr,
          mergeLoop_big_outOfFuel _ _ _ _ _ _ _ _ h1 h2 hr, Outcome.bind_outOfFuel]

theorem splitPieces_of_nil (sep : GoString) :
    splitPieces [] sep = [] ∨ splitPieces [] sep = [[]] := by
  unfold splitPieces
  split
  · exact Or.inl rfl
  · exact Or.inr rfl

/-- For every configuration, a call of `splitText` whose pieces are `P ++ [b] ++ Q` with
`trim(b)` longer than `ChunkSize` is the merging loop on `P` alone, then
`splitText(trim(b), remainingSeparators)`, then the merging loop on `Q` alone. -/
theorem splitText_at_big (cfg : Options) (fuel : Nat) (text sep : GoString)
    (rest P Q : List GoString) (b : GoString)
    (hlong : cfg.ChunkSize < (text.length : Int))
    (hpieces : splitPieces text sep = P ++ b :: Q)
    (hb : cfg.ChunkSize < ((TrimSpace b).length : Int)) :
    splitText cfg fuel text (sep :: rest)
      = (mergeLoop cfg sep (fun piece => splitText cfg fuel piece rest) P 0 [] []).bind
          fun fromP => (splitText cfg fuel (TrimSpace b) rest).bind
          fun sub => (mergeLoop cfg sep (fun piece => splitText cfg fuel piece rest)
            Q 0 [] []).bind
          fun fromQ => .done (fromP ++ sub ++ fromQ) := by
  by_cases ht : text = []
  · subst ht
    rcases splitPieces_of_nil sep with h | h
    · rw [h] at hpieces
      exact absurd hpieces (by simp)
    · rw [h] at hpieces
      have hP : P = [] := by
        cases P with
        | nil => rfl
        | cons p P2 =>
          have := congrArg List.length hpieces
          simp at this
      subst hP
      rw [List.nil_append] at hpieces
      have hbQ := List.cons.inj hpieces
      rw [← hbQ.1, ← hbQ.2]
      have htrim : TrimSpace [] = [] := rfl
      rw [htrim, splitText_empty, splitText_empty, mergeLoop_nil, flushBuffer_nil]
      rfl
  · have h0 : text.length ≠ 0 := fun h => ht (List.length_eq_zero.1 h)
    rw [splitText_cons_eq, if_neg h0, if_neg (by omega), hpieces]
    by_cases hb1 : TrimSpace b = []
    · have hneg : cfg.ChunkSize < 0 := by
        rw [hb1] at hb
        simpa using hb
      rw [mergeLoop_split_at_blank cfg sep _ b Q hneg hb1 P 0 [], hb1, splitText_empty]
      cases mergeLoop cfg sep (fun piece => splitText cfg fuel piece rest) P 0 [] [] with
      | done fromP => simp only [Outcome.bind_done, List.append_nil]
      | panic => rfl
      | outOfFuel => rfl
    · exact mergeLoop_split_at_big cfg sep _ b Q hb1 hb P 0 [] []

/-- **C10**.  Sub-chunks are produced in place.  For every configuration, in a call of
`splitText` (text longer than `ChunkSize`) whose pieces are `P ++ [b] ++ Q` with `trim(b)`
longer than `ChunkSize`: the call is the sequence of the merging loop on `P` alone (final
flush included), of `splitText(trim(b), remainingSeparators)` and of the merging loop on `Q`
alone from an empty buffer; when the three return, the call returns the chunks of the first,
followed by those of the second, followed by those of the third.  For a valid configuration
and an iteration budget above the length of the text the three return, and so does the
call. -/
theorem splitText_interleaves (cfg : Options) (fuel : Nat) (text sep : GoString)
    (rest P Q : List GoString) (b : GoString)
    (hlong : cfg.ChunkSize < (text.length : Int))
    (hpieces : splitPieces text sep = P ++ b :: Q)
    (hb : cfg.ChunkSize < ((TrimSpace b).length : Int)) :
    (splitText cfg fuel text (sep :: rest)
      = (mergeLoop cfg sep (fun piece => splitText cfg fuel piece rest) P 0 [] []).bind
          fun fromP => (splitText cfg fuel (TrimSpace b) rest).bind
          fun sub => (mergeLoop cfg sep (fun piece => splitText cfg fuel piece rest)
            Q 0 [] []).bind
          fun fromQ => .done (fromP ++ sub ++ fromQ)) ∧
    (∀ fromP sub fromQ,
      mergeLoop cfg sep (fun piece => splitText cfg fuel piece rest) P 0 [] [] = .done fromP →
      splitText cfg fuel (TrimSpace b) rest = .done sub →
      mergeLoop cfg sep (fun piece => splitText cfg fuel piece rest) Q 0 [] [] = .done fromQ →
      splitText cfg fuel text (sep :: rest) = .done (fromP ++ sub ++ fromQ)) ∧
    (0 < cfg.ChunkSize → 0 ≤ cfg.ChunkOverlap → cfg.ChunkOverlap < cfg.ChunkSize →
      max text.length 4 < fuel →
      ∃ fromP sub fromQ,
        mergeLoop cfg sep (fun piece => splitText cfg fuel piece rest) P 0 [] []
          = .done fromP ∧
        splitText cfg fuel (TrimSpace b) rest = .done sub ∧
        mergeLoop cfg sep (fun piece => splitText cfg fuel piece rest) Q 0 [] []
          = .done fromQ ∧
        splitText cfg fuel text (sep :: rest) = .done (fromP ++ sub ++ fromQ)) := by
  have heq := splitText_at_big cfg fuel text sep rest P Q b hlong hpieces hb
  have hall : ∀ fromP sub fromQ,
      mergeLoop cfg sep (fun piece => splitText cfg fuel piece rest) P 0 [] [] = .done fromP →
      splitText cfg fuel (TrimSpace b) rest = .done sub →
      mergeLoop cfg sep (fun piece => splitText cfg fuel piece rest) Q 0 [] [] = .done fromQ →
      splitText cfg fuel text (sep :: rest) = .done (fromP ++ sub ++ fromQ) := by
    intro fromP sub fromQ hP hsub hQ
    rw [heq, hP, Outcome.bind_done, hsub, Outcome.bind_done, hQ, Outcome.bind_done]
  refine ⟨heq, hall, fun hcs hco hlt hfuel => ?_⟩
  have hbound : ∀ p ∈ P ++ b :: Q, max p.length 4 < fuel := by
    intro p hp
    rw [← hpieces] at hp
    have := splitPieces_length_le text sep p hp
    omega
  obtain ⟨fromP, hP⟩ := mergeLoop_returns cfg hcs hco hlt fuel sep rest P
    (fun p hp => hbound p (List.mem_append_left _ hp)) 0 [] []
  obtain ⟨fromQ, hQ⟩ := mergeLoop_returns cfg hcs hco hlt fuel sep rest Q
    (fun p hp => hbound p (List.mem_append_right _ (List.mem_cons_of_mem _ hp))) 0 [] []
  obtain ⟨sub, hsub⟩ := splitText_returns cfg hcs hco hlt rest (TrimSpace b)
  have hsub := hsub fuel (by
    have h1 := hbound b (List.mem_append_right _ (List.mem_cons_self _ _))
    have h2 := TrimSpace_length_le b
    omega)
  exact ⟨fromP, sub, fromQ, hP, hsub, hQ, hall fromP sub fromQ hP hsub hQ⟩

/-- Witness of `splitText_interleaves`: the text `"ab cdefgh ij"` cut on `" "` with
`ChunkSize = 3`; the piece `"cdefgh"` is too long.  First with `ChunkOverlap = 1`, then
with `ChunkOverlap = 5`, an overlap above the chunk size on which the three parts return. -/
theorem splitText_interleaves_witness :
    ((⟨3, 1, []⟩ : Options).ChunkSize
        < (([97, 98, 32, 99, 100, 101, 102, 103, 104, 32, 105, 106] : GoString).length : Int) ∧
      splitPieces [97, 98, 32, 99, 100, 101, 102, 103, 104, 32, 105, 106] [32]
        = [[97, 98]] ++ [99, 100, 101, 102, 103, 104] :: [[105, 106]] ∧
      (⟨3, 1, []⟩ : Options).ChunkSize
        < ((TrimSpace [99, 100, 101, 102, 103, 104]).length : Int) ∧
      0 < (⟨3, 1, []⟩ : Options).ChunkSize ∧ 0 ≤ (⟨3, 1, []⟩ : Options).ChunkOverlap ∧
      (⟨3, 1, []⟩ : Options).ChunkOverlap < (⟨3, 1, []⟩ : Options).ChunkSize ∧
      max ([97, 98, 32, 99, 100, 101, 102, 103, 104, 32, 105, 106] : GoString).length 4
        < 13) ∧
    (∃ fromP sub fromQ,
      mergeLoop ⟨3, 1, []⟩ [32] (fun piece => splitText ⟨3, 1, []⟩ 13 piece [[]])
        [[97, 98]] 0 [] [] = .done fromP ∧
      splitText ⟨3, 1, []⟩ 13 (TrimSpace [99, 100, 101, 102, 103, 104]) [[]] = .done sub ∧
      mergeLoop ⟨3, 1, []⟩ [32] (fun piece => splitText ⟨3, 1, []⟩ 13 piece [[]])
        [[105, 106]] 0 [] [] = .done fromQ ∧
      splitText ⟨3, 1, []⟩ 13 [97, 98, 32, 99, 100, 101, 102, 103, 104, 32, 105, 106]
        ([32] :: [[]]) = .done (fromP ++ sub ++ fromQ)) ∧
    ((⟨3, 5, []⟩ : Options).ChunkSize
        < (([97, 98, 32, 99, 100, 101, 102, 103, 104, 32, 105, 106] : GoString).length : Int) ∧
      (⟨3, 5, []⟩ : Options).ChunkSize
        < ((TrimSpace [99, 100, 101, 102, 103, 104]).length : Int) ∧
      mergeLoop ⟨3, 5, []⟩ [32] (fun piece => splitText ⟨3, 5, []⟩ 13 piece [[]])
        [[97, 98]] 0 [] [] = .done [[97, 98]] ∧
      splitText ⟨3, 5, []⟩ 13 (TrimSpace [99, 100, 101, 102, 103, 104]) [[]]
        = .done [[99, 100, 101], [99, 100, 101, 102], [99, 100, 101, 102, 103],
          [99, 100, 101, 102, 103, 104]] ∧
      mergeLoop ⟨3, 5, []⟩ [32] (fun piece => splitText ⟨3, 5, []⟩ 13 piece [[]])
        [[105, 106]] 0 [] [] = .done [[105, 106]]) ∧
    splitText ⟨3, 5, []⟩ 13 [97, 98, 32, 99, 100, 101, 102, 103, 104, 32, 105, 106]
      ([32] :: [[]])
      = .done ([[97, 98]] ++ [[99, 100, 101], [99, 100, 101, 102], [99, 100, 101, 102, 103],
          [99, 100, 101, 102, 103, 104]] ++ [[105, 106]]) :=
  ⟨by decide,
    (splitText_interleaves ⟨3, 1, []⟩ 13
      [97, 98, 32, 99, 100, 101, 102, 103, 104, 32, 105, 106]
      [32] [[]] [[97, 98]] [[105, 106]] [99, 100, 101, 102, 103, 104] (by decide) (by decide)
      (by decide)).2.2 (by decide) (by decide) (by decide) (by decide),
    by decide,
    (splitText_interleaves ⟨3, 5, []⟩ 13
      [97, 98, 32, 99, 100, 101, 102, 103, 104, 32, 105, 106]
      [32] [[]] [[97, 98]] [[105, 106]] [99, 100, 101, 102, 103, 104] (by decide) (by decide)
      (by decide)).2.1 _ _ _ (by decide) (by decide) (by decide)⟩

/-! ## UTF-8: decoding what was encoded -/

theorem decodeRune_one (s0 : Nat) (t : GoString) (h0 : s0 < 0x80) :
    decodeRune (s0 :: t) = (s0, 1) := by
  rw [decodeRune, if_pos h0]

theorem decodeRune_two (s0 s1 : Nat) (t : GoString) (h0 : 0xC2 ≤ s0 ∧ s0 ≤ 0xDF)
    (h1 : 0x80 ≤ s1 ∧ s1 ≤ 0xBF) :
    decodeRune (s0 :: s1 :: t) = ((s0 % 32) * 64 + s1 % 64, 2) := by
  have a1 : acceptLo s0 = 0x80 := by
    unfold acceptLo
    rw [if_neg (by omega), if_neg (by omega)]
  have a2 : acceptHi s0 = 0xBF := by
    unfold acceptHi
    rw [if_neg (by omega), if_neg (by omega)]
  rw [decodeRune, if_neg (by omega), if_neg (by omega), if_pos (by omega), decode2, a1, a2,
    if_neg (by omega)]

theorem decodeRune_three (s0 s1 s2 : Nat) (t : GoString) (h0 : 0xE0 ≤ s0 ∧ s0 ≤ 0xEF)
    (h1 : acceptLo s0 ≤ s1 ∧ s1 ≤ acceptHi s0) (h2 : 0x80 ≤ s2 ∧ s2 ≤ 0xBF) :
    decodeRune (s0 :: s1 :: s2 :: t)
      = ((s0 % 16) * 4096 + (s1 % 64) * 64 + s2 % 64, 3) := by
  rw [decodeRune, if_neg (by omega), if_neg (by omega), if_neg (by omega), if_pos (by omega),
    decode3, if_neg (by omega), if_neg (by omega)]

theorem decodeRune_four (s0 s1 s2 s3 : Nat) (t : GoString) (h0 : 0xF0 ≤ s0 ∧ s0 ≤ 0xF4)
    (h1 : acceptLo s0 ≤ s1 ∧ s1 ≤ acceptHi s0) (h2 : 0x80 ≤ s2 ∧ s2 ≤ 0xBF)
    (h3 : 0x80 ≤ s3 ∧ s3 ≤ 0xBF) :
    decodeRune (s0 :: s1 :: s2 :: s3 :: t)
      = ((s0 % 8) * 262144 + (s1 % 64) * 4096 + (s2 % 64) * 64 + s3 % 64, 4) := by
  rw [decodeRune, if_neg (by omega), if_neg (by omega), if_neg (by omega), if_neg (by omega),
    decode4, if_neg (by omega), if_neg (by omega), if_neg (by omega)]

theorem decodeRune_encodeRune (r : Nat) (hr : IsScalar r) (rest : GoString) :
    decodeRune (encodeRune r ++ rest) = (r, (encodeRune r).length) := by
  unfold IsScalar at hr
  unfold encodeRune
  split_ifs with h1 h2 h3 h4
  · rw [List.singleton_append, decodeRune_one _ _ h1]
    rfl
  · rw [List.cons_append, List.cons_append, List.nil_append,
      decodeRune_two _ _ _ (by omega) (by omega)]
    refine Prod.ext ?_ rfl
    show _ = r
    omega
  · omega
  · have a1 : acceptLo (0xE0 + r / 4096) ≤ 0x80 + r / 64 % 64 := by
      unfold acceptLo
      split_ifs <;> omega
    have a2 : 0x80 + r / 64 % 64 ≤ acceptHi (0xE0 + r / 4096) := by
      unfold acceptHi
      split_ifs <;> omega
    rw [List.cons_append, List.cons_append, List.cons_append, List.nil_append,
      decodeRune_three _ _ _ _ (by omega) ⟨a1, a2⟩ (by omega)]
    refine Prod.ext ?_ rfl
    show _ = r
    omega
  · have a1 : acceptLo (0xF0 + r / 262144) ≤ 0x80 + r / 4096 % 64 := by
      unfold acceptLo
      split_ifs <;> omega
    have a2 : 0x80 + r / 4096 % 64 ≤ acceptHi (0xF0 + r / 262144) := by
      unfold acceptHi
      split_ifs <;> omega
    rw [List.cons_append, List.cons_append, List.cons_append, List.cons_append,
      List.nil_append, decodeRune_four _ _ _ _ _ (by omega) ⟨a1, a2⟩ (by omega) (by omega)]
    refine Prod.ext ?_ rfl
    show _ = r
    omega

theorem encodeRune_ne_nil (r : Nat) : encodeRune r ≠ [] := by
  unfold encodeRune
  split_ifs <;> simp

theorem encodeRune_length_pos (r : Nat) : 0 < (encodeRune r).length :=
  List.length_pos.2 (encodeRune_ne_nil r)

theorem decode2_width (s0 : Nat) (t : GoString) :
    1 ≤ (decode2 s0 t).2 ∧ (decode2 s0 t).2 ≤ t.length + 1 := by
  cases t with
  | nil => simp [decode2]
  | cons s1 t1 =>
    simp only [decode2]
    split_ifs <;> simp

theorem decode3_width (s0 : Nat) (t : GoString) :
    1 ≤ (decode3 s0 t).2 ∧ (decode3 s0 t).2 ≤ t.length + 1 := by
  match t with
  | [] => simp [decode3]
  | [_] => simp [decode3]
  | s1 :: s2 :: t2 =>
    simp only [decode3]
    split_ifs <;> simp

theorem decode4_width (s0 : Nat) (t : GoString) :
    1 ≤ (decode4 s0 t).2 ∧ (decode4 s0 t).2 ≤ t.length + 1 := by
  match t with
  | [] => simp [decode4]
  | [_] => simp [decode4]
  | [_, _] => simp [decode4]
  | s1 :: s2 :: s3 :: t3 =>
    simp only [decode4]
    split_ifs <;> simp

theorem decodeRune_width (c : Nat) (t : GoString) :
    1 ≤ (decodeRune (c :: t)).2 ∧ (decodeRune (c :: t)).2 ≤ t.length + 1 := by
  rw [decodeRune]
  split_ifs
  · simp
  · simp
  · exact decode2_width c t
  · exact decode3_width c t
  · exact decode4_width c t

theorem runesFuel_fuel (n : Nat) :
    ∀ (m : Nat) (s : GoString), s.length ≤ n → s.length ≤ m → runesFuel n s = runesFuel m s := by
  induction n with
  | zero =>
    intro m s hn _
    have : s = [] := List.length_eq_zero.1 (by omega)
    subst this
    cases m <;> rfl
  | succ n ih =>
    intro m s hn hm
    cases s with
    | nil => cases m <;> rfl
    | cons c t =>
      cases m with
      | zero => simp at hm
      | succ m =>
        have hw := decodeRune_width c t
        simp only [runesFuel]
        rw [ih m _ (by simp only [List.length_drop, List.length_cons] at hn ⊢; omega)
          (by simp only [List.length_drop, List.length_cons] at hm ⊢; omega)]

theorem runes_cons (c : Nat) (t : GoString) :
    runes (c :: t)
      = (decodeRune (c :: t)).1 :: runes ((c :: t).drop (decodeRune (c :: t)).2) := by
  have hw := decodeRune_width c t
  unfold runes
  rw [List.length_cons, runesFuel]
  rw [runesFuel_fuel t.length _ _ (by simp only [List.length_drop, List.length_cons]; omega)
    le_rfl]

theorem runes_nil : runes [] = [] := rfl

theorem runes_encodeRune_append (r : Nat) (hr : IsScalar r) (s : GoString) :
    runes (encodeRune r ++ s) = r :: runes s := by
  have h := decodeRune_encodeRune r hr s
  have hne := encodeRune_ne_nil r
  cases he : encodeRune r with
  | nil => exact absurd he hne
  | cons c t =>
    rw [he] at h
    rw [List.cons_append] at h ⊢
    rw [runes_cons, h]
    simp only
    rw [← List.cons_append, List.drop_left]

theorem runes_encodeRunes_append (rs : List Nat) (hrs : ∀ r ∈ rs, IsScalar r) (s : GoString) :
    runes (encodeRunes rs ++ s) = rs ++ runes s := by
  induction rs with
  | nil => simp [encodeRunes]
  | cons r rest ih =>
    have : encodeRunes (r :: rest) = encodeRune r ++ encodeRunes rest := by
      simp [encodeRunes]
    rw [this, List.append_assoc, runes_encodeRune_append r (hrs r (List.mem_cons_self _ _)),
      ih (fun q hq => hrs q (List.mem_cons_of_mem _ hq)), List.cons_append]

theorem runes_encodeRunes (rs : List Nat) (hrs : ∀ r ∈ rs, IsScalar r) :
    runes (encodeRunes rs) = rs := by
  have := runes_encodeRunes_append rs hrs []
  rwa [List.append_nil, runes_nil, List.append_nil] at this

theorem encodeRunes_cons (r : Nat) (rs : List Nat) :
    encodeRunes (r :: rs) = encodeRune r ++ encodeRunes rs := by
  simp [encodeRunes]

theorem encodeRunes_append (a b : List Nat) :
    encodeRunes (a ++ b) = encodeRunes a ++ encodeRunes b := by
  simp [encodeRunes]

theorem encodeRunes_nil : encodeRunes [] = [] := rfl

theorem encodeRunes_eq_nil (rs : List Nat) : encodeRunes rs = [] ↔ rs = [] := by
  cases rs with
  | nil => simp [encodeRunes]
  | cons r rest =>
    rw [encodeRunes_cons]
    have := encodeRune_ne_nil r
    simp [this]

theorem getD_append_last (s : GoString) (t : GoString) (k : Nat) :
    (s ++ t).getD (s.length + k) 0 = t.getD k 0 := by
  rw [List.getD_eq_getElem?_getD, List.getD_eq_getElem?_getD,
    List.getElem?_append_right (by omega)]
  congr 2
  omega

theorem decodeLastRune_append_one (s : GoString) (a : Nat) (ha : a < 0x80) :
    decodeLastRune (s ++ [a]) = (a, 1) := by
  unfold decodeLastRune
  have h1 : (s ++ [a]).length - 1 = s.length + 0 := by simp
  have h2 := getD_append_last s [a] 0
  rw [if_neg (by simp), h1, h2]
  simp only [List.getD_cons_zero]
  rw [if_pos ha]

theorem decodeLastRune_append_two (s : GoString) (a b r : Nat) (hb : 0x80 ≤ b)
    (ha : RuneStart a = true) (hd : decodeRune [a, b] = (r, 2)) :
    decodeLastRune (s ++ [a, b]) = (r, 2) := by
  unfold decodeLastRune
  have h1 : (s ++ [a, b]).length - 1 = s.length + 1 := by simp
  have h2 := getD_append_last s [a, b] 1
  have hs : lastRuneStart (s ++ [a, b]) = s.length := by
    unfold lastRuneStart
    have e1 : (s ++ [a, b]).length - 2 = s.length + 0 := by simp
    have e2 := getD_append_last s [a, b] 0
    simp only [e1, e2, List.getD_cons_zero, ha, and_true]
    rw [if_pos (by simp)]
    rfl
  rw [if_neg (by simp), h1, h2]
  simp only [List.getD_cons_succ, List.getD_cons_zero]
  rw [if_neg (by omega)]
  simp only [hs, List.drop_left, hd]
  rw [if_neg (by simp)]

theorem decodeLastRune_append_three (s : GoString) (a b c r : Nat) (hc : 0x80 ≤ c)
    (hb : RuneStart b = false) (ha : RuneStart a = true)
    (hd : decodeRune [a, b, c] = (r, 3)) :
    decodeLastRune (s ++ [a, b, c]) = (r, 3) := by
  unfold decodeLastRune
  have h1 : (s ++ [a, b, c]).length - 1 = s.length + 2 := by simp
  have h2 := getD_append_last s [a, b, c] 2
  have hs : lastRuneStart (s ++ [a, b, c]) = s.length := by
    unfold lastRuneStart
    have e1 : (s ++ [a, b, c]).length - 2 = s.length + 1 := by simp
    have e2 := getD_append_last s [a, b, c] 1
    have e3 : (s ++ [a, b, c]).length - 3 = s.length + 0 := by simp
    have e4 := getD_append_last s [a, b, c] 0
    simp only [e1, e2, e3, e4, List.getD_cons_succ, List.getD_cons_zero, ha, hb, and_true,
      and_false, if_false, Bool.false_eq_true]
    rw [if_pos (by simp)]
    rfl
  rw [if_neg (by simp), h1, h2]
  simp only [List.getD_cons_succ, List.getD_cons_zero]
  rw [if_neg (by omega)]
  simp only [hs, List.drop_left, hd]
  rw [if_neg (by simp)]

theorem decodeLastRune_append_four (s : GoString) (a b c d r : Nat) (hd0 : 0x80 ≤ d)
    (hc : RuneStart c = false) (hb : RuneStart b = false) (ha : RuneStart a = true)
    (hd : decodeRune [a, b, c, d] = (r, 4)) :
    decodeLastRune (s ++ [a, b, c, d]) = (r, 4) := by
  unfold decodeLastRune
  have h1 : (s ++ [a, b, c, d]).length - 1 = s.length + 3 := by simp
  have h2 := getD_append_last s [a, b, c, d] 3
  have hs : lastRuneStart (s ++ [a, b, c, d]) = s.length := by
    unfold lastRuneStart
    have e1 : (s ++ [a, b, c, d]).length - 2 = s.length + 2 := by simp
    have e2 := getD_append_last s [a, b, c, d] 2
    have e3 : (s ++ [a, b, c, d]).length - 3 = s.length + 1 := by simp
    have e4 := getD_append_last s [a, b, c, d] 1
    have e5 : (s ++ [a, b, c, d]).length - 4 = s.length + 0 := by simp
    have e6 := getD_append_last s [a, b, c, d] 0
    simp only [e1, e2, e3, e4, e5, e6, List.getD_cons_succ, List.getD_cons_zero, ha, hb, hc,
      and_true, and_false, if_false, Bool.false_eq_true]
    rw [if_pos (by simp)]
    rfl
  rw [if_neg (by simp), h1, h2]
  simp only [List.getD_cons_succ, List.getD_cons_zero]
  rw [if_neg (by omega)]
  simp only [hs, List.drop_left, hd]
  rw [if_neg (by simp)]

theorem decodeLastRune_encodeRune (s : GoString) (r : Nat) (hr : IsScalar r) :
    decodeLastRune (s ++ encodeRune r) = (r, (encodeRune r).length) := by
  have hdec := decodeRune_encodeRune r hr []
  rw [List.append_nil] at hdec
  unfold IsScalar at hr
  unfold encodeRune at hdec ⊢
  split_ifs at hdec ⊢ with h1 h2 h3 h4
  · exact decodeLastRune_append_one s r h1
  · exact decodeLastRune_append_two s _ _ r (by omega) (by simp [RuneStart]) hdec
  · omega
  · exact decodeLastRune_append_three s _ _ _ r (by omega) (by simp [RuneStart]; omega)
      (by simp [RuneStart]; omega) hdec
  · exact decodeLastRune_append_four s _ _ _ _ r (by omega) (by simp [RuneStart]; omega)
      (by simp [RuneStart]; omega) (by simp [RuneStart]; omega) hdec

/-! ## Trimming a string of encoded runes -/

theorem encodeRunes_length_le_of_suffix (a b : List Nat) :
    (encodeRunes b).length ≤ (encodeRunes (a ++ b)).length := by
  rw [encodeRunes_append, List.length_append]
  omega

theorem trimLeftFuel_encodeRunes (rs : List Nat) (hrs : ∀ r ∈ rs, IsScalar r) :
    ∀ n, (encodeRunes rs).length ≤ n →
      trimLeftFuel n (encodeRunes rs) = encodeRunes (rs.dropWhile isSpace) := by
  induction rs with
  | nil =>
    intro n _
    cases n <;> rfl
  | cons r rest ih =>
    intro n hn
    have hr := hrs r (List.mem_cons_self _ _)
    have hdec := decodeRune_encodeRune r hr (encodeRunes rest)
    rw [encodeRunes_cons] at hn ⊢
    have hpos := encodeRune_length_pos r
    rw [List.length_append] at hn
    cases n with
    | zero => omega
    | succ n =>
      cases he : encodeRune r with
      | nil => exact absurd he (encodeRune_ne_nil r)
      | cons c t =>
        rw [he] at hdec hn
        rw [List.cons_append] at hdec ⊢
        rw [trimLeftFuel, hdec]
        simp only
        rw [← List.cons_append, List.drop_left, List.dropWhile_cons]
        by_cases hsp : isSpace r = true
        · rw [if_pos hsp, if_pos hsp]
          exact ih (fun q hq => hrs q (List.mem_cons_of_mem _ hq)) n
            (by simp only [List.length_cons] at hn; omega)
        · rw [if_neg hsp, if_neg hsp, encodeRunes_cons, he]

theorem trimRightFuel_encodeRunes (rs : List Nat) (hrs : ∀ r ∈ rs, IsScalar r) :
    ∀ n, (encodeRunes rs).length ≤ n →
      trimRightFuel n (encodeRunes rs) = encodeRunes (rs.rdropWhile isSpace) := by
  induction rs using List.reverseRecOn with
  | nil =>
    intro n _
    cases n <;> simp [trimRightFuel, encodeRunes]
  | append_singleton rest r ih =>
    intro n hn
    have hr := hrs r (by simp)
    have hdec := decodeLastRune_encodeRune (encodeRunes rest) r hr
    have he : encodeRunes (rest ++ [r]) = encodeRunes rest ++ encodeRune r := by
      rw [encodeRunes_append, encodeRunes_cons, encodeRunes_nil, List.append_nil]
    have hpos := encodeRune_length_pos r
    rw [he] at hn ⊢
    rw [List.length_append] at hn
    cases n with
    | zero => omega
    | succ n =>
      have hne : encodeRunes rest ++ encodeRune r ≠ [] := by
        intro h
        have := congrArg List.length h
        rw [List.length_append, List.length_nil] at this
        omega
      rw [trimRightFuel, if_neg hne, hdec, List.rdropWhile_concat]
      simp only
      by_cases hsp : isSpace r = true
      · rw [if_pos hsp, if_pos hsp]
        have ht : (encodeRunes rest ++ encodeRune r).take
            ((encodeRunes rest ++ encodeRune r).length - (encodeRune r).length)
            = encodeRunes rest := by
          rw [List.length_append, Nat.add_sub_cancel, List.take_left]
        rw [ht]
        exact ih (fun q hq => hrs q (by simp [hq])) n (by omega)
      · rw [if_neg hsp, if_neg hsp, he]

theorem TrimSpace_encodeRunes (rs : List Nat) (hrs : ∀ r ∈ rs, IsScalar r) :
    TrimSpace (encodeRunes rs) = encodeRunes (trimRunes rs) := by
  unfold TrimSpace trimRunes
  rw [trimLeftFuel_encodeRunes rs hrs _ le_rfl]
  apply trimRightFuel_encodeRunes
  · intro r hr
    exact hrs r ((List.dropWhile_suffix _).subset hr)
  · obtain ⟨a, ha⟩ := List.dropWhile_suffix (p := isSpace) (l := rs)
    have := encodeRunes_length_le_of_suffix a (rs.dropWhile isSpace)
    rwa [ha] at this

theorem trimRunes_of_no_space (rs : List Nat) (h : ∀ r ∈ rs, isSpace r = false) :
    trimRunes rs = rs := by
  unfold trimRunes
  have h1 : rs.dropWhile isSpace = rs := by
    cases rs with
    | nil => rfl
    | cons r rest =>
      rw [List.dropWhile_cons, if_neg (by simp [h r (List.mem_cons_self _ _)])]
  rw [h1]
  induction rs using List.reverseRecOn with
  | nil => rfl
  | append_singleton rest r _ =>
    rw [List.rdropWhile_concat, if_neg (by simp [h r (by simp)])]

/-! ## The windows of the fixed-size fallback -/

theorem decodeRune_scalar (s : GoString) : IsScalar (decodeRune s).1 := by
  unfold IsScalar
  cases s with
  | nil => simp [decodeRune, RuneError]
  | cons s0 t =>
    rw [decodeRune]
    split_ifs with h1 h2 h3 h4
    · show s0 < 0xD800 ∨ _
      omega
    · simp [RuneError]
    · cases t with
      | nil => simp [decode2, RuneError]
      | cons s1 t1 =>
        simp only [decode2]
        split_ifs
        · simp [RuneError]
        · show _ < 0xD800 ∨ _
          omega
    · match t with
      | [] => simp [decode3, RuneError]
      | [_] => simp [decode3, RuneError]
      | s1 :: s2 :: t2 =>
        simp only [decode3, acceptLo, acceptHi]
        split_ifs
        all_goals first
          | (simp [RuneError]; done)
          | (show _ < 0xD800 ∨ (0xE000 ≤ _ ∧ _ ≤ 0x10FFFF); omega)
    · match t with
      | [] => simp [decode4, RuneError]
      | [_] => simp [decode4, RuneError]
      | [_, _] => simp [decode4, RuneError]
      | s1 :: s2 :: s3 :: t3 =>
        simp only [decode4, acceptLo, acceptHi]
        split_ifs
        all_goals first
          | (simp [RuneError]; done)
          | (show _ < 0xD800 ∨ (0xE000 ≤ _ ∧ _ ≤ 0x10FFFF); omega)

theorem runesFuel_scalar (n : Nat) (s : GoString) : ∀ r ∈ runesFuel n s, IsScalar r := by
  induction n generalizing s with
  | zero => intro r hr; simp [runesFuel] at hr
  | succ n ih =>
    cases s with
    | nil => intro r hr; simp [runesFuel] at hr
    | cons c t =>
      intro r hr
      simp only [runesFuel, List.mem_cons] at hr
      rcases hr with h | h
      · rw [h]
        exact decodeRune_scalar _
      · exact ih _ r h

theorem runes_scalar (s : GoString) : ∀ r ∈ runes s, IsScalar r :=
  runesFuel_scalar _ _

theorem windowEnd_natCast (cs co : Nat) (seps : List GoString) (n a : Nat) :
    windowEnd ⟨(cs : Int), (co : Int), seps⟩ n (a : Int) = ((min (a + cs) n : Nat) : Int) := by
  unfold windowEnd
  simp only
  split_ifs with h
  · have : n < a + cs := by exact_mod_cast h
    rw [min_eq_right (by omega)]
  · have : ¬ n < a + cs := by exact_mod_cast h
    rw [min_eq_left (by omega)]
    push_cast
    rfl

theorem appendWindow_eq (rs : List Nat) (cs stride k : Nat) (chunks : List GoString) :
    appendWindow rs ((k * stride : Nat) : Int) ((min (k * stride + cs) rs.length : Nat) : Int)
      chunks = chunks ++ windowChunk (runeWindow rs cs stride k) := by
  unfold appendWindow windowChunk runeWindow
  have h1 : ((k * stride : Nat) : Int).toNat = k * stride := Int.toNat_natCast _
  have h2 : (((min (k * stride + cs) rs.length : Nat) : Int) - ((k * stride : Nat) : Int)).toNat
      = min (k * stride + cs) rs.length - k * stride := by
    omega
  rw [h1, h2]
  by_cases h3 : TrimSpace (encodeRunes (List.take ((k * stride + cs) ⊓ rs.length - k * stride)
      (List.drop (k * stride) rs))) = []
  · rw [if_neg (not_not.2 h3), if_pos h3, List.append_nil]
  · rw [if_pos h3, if_neg h3]

/-- Closed form of the loop of `splitBySize` from the window number `k`, when `k + d` is
the number of the last window. -/
theorem splitBySizeLoop_windows (rs : List Nat) (cs co : Nat) (seps : List GoString)
    (hlt : co < cs) (hn : cs < rs.length) (m : Nat)
    (hm1 : rs.length ≤ m * (cs - co) + cs)
    (hm2 : ∀ k < m, k * (cs - co) + cs < rs.length) (d : Nat) :
    ∀ (k fuel : Nat) (chunks : List GoString), k + d = m → d < fuel →
      splitBySizeLoop ⟨(cs : Int), (co : Int), seps⟩ rs fuel ((k * (cs - co) : Nat) : Int) chunks
        = .done (chunks ++ (List.range' k (d + 1)).flatMap
            (fun j => windowChunk (runeWindow rs cs (cs - co) j))) := by
  induction d with
  | zero =>
    intro k fuel chunks hk hf
    have hkm : k = m := by omega
    subst hkm
    obtain ⟨f, rfl⟩ : ∃ f, fuel = f + 1 := ⟨fuel - 1, by omega⟩
    have hi : k * (cs - co) < rs.length := by
      rcases Nat.eq_zero_or_pos k with h0 | hpos
      · subst h0
        omega
      · have h1 := hm2 (k - 1) (by omega)
        have h2 : k * (cs - co) = (k - 1) * (cs - co) + (cs - co) := by
          conv_lhs => rw [show k = (k - 1) + 1 by omega, Nat.succ_mul]
        omega
    rw [splitBySizeLoop_succ_eq, windowEnd_natCast, if_pos (by exact_mod_cast hi),
      if_neg (by omega), if_pos (by rw [min_eq_right hm1]), appendWindow_eq]
    simp
  | succ d ih =>
    intro k fuel chunks hk hf
    obtain ⟨f, rfl⟩ : ∃ f, fuel = f + 1 := ⟨fuel - 1, by omega⟩
    have h1 := hm2 k (by omega)
    have hstep : ((k * (cs - co) : Nat) : Int) + (((cs : Int)) - ((co : Int)))
        = (((k + 1) * (cs - co) : Nat) : Int) := by
      rw [Nat.succ_mul]
      push_cast
      omega
    rw [splitBySizeLoop_succ_eq, windowEnd_natCast, if_pos (by omega), if_neg (by omega),
      if_neg (by omega), appendWindow_eq]
    simp only
    rw [hstep, ih (k + 1) f _ (by omega) (by omega), List.append_assoc]
    congr 2

theorem exists_last_window (n cs stride : Nat) (hs : 0 < stride) :
    ∃ m : Nat, n ≤ m * stride + cs ∧ ∀ k < m, k * stride + cs < n := by
  have hex : ∃ m : Nat, n ≤ m * stride + cs := ⟨n, by nlinarith⟩
  refine ⟨Nat.find hex, Nat.find_spec hex, fun k hk => ?_⟩
  have := Nat.find_min hex hk
  omega

theorem runeWindow_length (rs : List Nat) (cs stride k : Nat) :
    (runeWindow rs cs stride k).length = min (k * stride + cs) rs.length - k * stride := by
  unfold runeWindow
  rw [List.length_take, List.length_drop]
  omega

theorem runeWindow_subset (rs : List Nat) (cs stride k : Nat) :
    ∀ r ∈ runeWindow rs cs stride k, r ∈ rs := by
  intro r hr
  unfold runeWindow at hr
  exact List.mem_of_mem_drop (List.mem_of_mem_take hr)

theorem windowChunk_of_no_space (w : List Nat) (hne : w ≠ [])
    (hsc : ∀ r ∈ w, IsScalar r) (hsp : ∀ r ∈ w, isSpace r = false) :
    windowChunk w = [encodeRunes w] := by
  unfold windowChunk
  rw [TrimSpace_encodeRunes w hsc, trimRunes_of_no_space w hsp,
    if_neg (fun h => hne ((encodeRunes_eq_nil w).1 h))]

theorem window_start_lt (n cs co m : Nat) (hlt : co < cs) (hn : cs < n)
    (hm2 : ∀ k < m, k * (cs - co) + cs < n) : ∀ k ≤ m, k * (cs - co) < n := by
  intro k hk
  rcases Nat.eq_zero_or_pos k with h0 | hpos
  · subst h0
    omega
  · have h1 := hm2 (k - 1) (by omega)
    have h2 : k * (cs - co) = (k - 1) * (cs - co) + (cs - co) := by
      conv_lhs => rw [show k = (k - 1) + 1 by omega, Nat.succ_mul]
    omega

/-- **C7**.  For `0 ≤ ChunkOverlap < ChunkSize`, `stride = ChunkSize - ChunkOverlap` and a
text of `n > ChunkSize` runes, `splitBySize` returns, in order, the trimmed non-empty
members of the windows `text[k * stride, min (k * stride + ChunkSize) n)` for `k = 0..m`,
where `m` is the least `k` with `k * stride + ChunkSize ≥ n`; the last window is
`text[m * stride, n)`.  For a text without white space these are exactly `m + 1` chunks,
the windows themselves, of `ChunkSize` runes each except the last one, which has
`n - m * stride` runes (at least 1, at most `ChunkSize`). -/
theorem splitBySize_windows (cs co : Nat) (seps : List GoString) (text : GoString)
    (hlt : co < cs) (hn : cs < (runes text).length) :
    ∃ m : Nat,
      (runes text).length ≤ m * (cs - co) + cs ∧
      (∀ k < m, k * (cs - co) + cs < (runes text).length) ∧
      (∀ fuel, m < fuel → splitBySize ⟨(cs : Int), (co : Int), seps⟩ fuel text
        = .done ((List.range (m + 1)).flatMap
            (fun k => windowChunk (runeWindow (runes text) cs (cs - co) k)))) ∧
      runeWindow (runes text) cs (cs - co) m = (runes text).drop (m * (cs - co)) ∧
      ((∀ r ∈ runes text, isSpace r = false) →
        (∀ fuel, m < fuel → splitBySize ⟨(cs : Int), (co : Int), seps⟩ fuel text
          = .done ((List.range (m + 1)).map
              (fun k => encodeRunes (runeWindow (runes text) cs (cs - co) k)))) ∧
        (∀ k ≤ m, runes (encodeRunes (runeWindow (runes text) cs (cs - co) k))
          = runeWindow (runes text) cs (cs - co) k) ∧
        (∀ k < m, (runeWindow (runes text) cs (cs - co) k).length = cs) ∧
        (runeWindow (runes text) cs (cs - co) m).length
          = (runes text).length - m * (cs - co) ∧
        0 < (runes text).length - m * (cs - co) ∧
        (runes text).length - m * (cs - co) ≤ cs) := by
  obtain ⟨m, hm1, hm2⟩ := exists_last_window (runes text).length cs (cs - co) (by omega)
  have hstart := window_start_lt (runes text).length cs co m hlt hn hm2
  have hloop : ∀ fuel, m < fuel → splitBySize ⟨(cs : Int), (co : Int), seps⟩ fuel text
      = .done ((List.range (m + 1)).flatMap
          (fun k => windowChunk (runeWindow (runes text) cs (cs - co) k))) := by
    intro fuel hf
    have := splitBySizeLoop_windows (runes text) cs co seps hlt hn m hm1 hm2 m 0 fuel []
      (by omega) hf
    rw [Nat.zero_mul, List.nil_append, ← List.range_eq_range'] at this
    exact this
  have hsc : ∀ k, ∀ r ∈ runeWindow (runes text) cs (cs - co) k, IsScalar r :=
    fun k r hr => runes_scalar text r (runeWindow_subset _ _ _ _ r hr)
  refine ⟨m, hm1, hm2, hloop, ?_, ?_⟩
  · unfold runeWindow
    rw [min_eq_right hm1]
    apply List.take_of_length_le
    rw [List.length_drop]
  · intro hsp
    have hm := hstart m le_rfl
    refine ⟨?_, fun k _ => runes_encodeRunes _ (hsc k), ?_, ?_, by omega, by omega⟩
    · intro fuel hf
      rw [hloop fuel hf]
      congr 1
      have : ∀ k ∈ List.range (m + 1),
          windowChunk (runeWindow (runes text) cs (cs - co) k)
            = [encodeRunes (runeWindow (runes text) cs (cs - co) k)] := by
        intro k hk
        have hk2 : k ≤ m := by
          rw [List.mem_range] at hk
          omega
        apply windowChunk_of_no_space _ _ (hsc k)
          (fun r hr => hsp r (runeWindow_subset _ _ _ _ r hr))
        intro h0
        have hl := runeWindow_length (runes text) cs (cs - co) k
        rw [h0, List.length_nil] at hl
        have := hstart k hk2
        omega
      generalize List.range (m + 1) = l at this
      induction l with
      | nil => rfl
      | cons a l ih =>
        rw [List.flatMap_cons, List.map_cons, this a (List.mem_cons_self _ _),
          ih (fun k hk => this k (List.mem_cons_of_mem _ hk))]
        rfl
    · intro k hk
      rw [runeWindow_length]
      have := hm2 k hk
      omega
    · rw [runeWindow_length]
      omega

/-- Witness of `splitBySize_windows`: the text `"abcdefgh"` with `ChunkSize = 3`,
`ChunkOverlap = 1`. -/
theorem splitBySize_windows_witness :
    (1 < 3 ∧ 3 < (runes [97, 98, 99, 100, 101, 102, 103, 104]).length) ∧
    ∃ m : Nat,
      (runes [97, 98, 99, 100, 101, 102, 103, 104]).length ≤ m * (3 - 1) + 3 ∧
      (∀ k < m, k * (3 - 1) + 3 < (runes [97, 98, 99, 100, 101, 102, 103, 104]).length) ∧
      (∀ fuel, m < fuel →
        splitBySize ⟨((3 : Nat) : Int), ((1 : Nat) : Int), []⟩ fuel
            [97, 98, 99, 100, 101, 102, 103, 104]
          = .done ((List.range (m + 1)).flatMap (fun k => windowChunk
              (runeWindow (runes [97, 98, 99, 100, 101, 102, 103, 104]) 3 (3 - 1) k)))) ∧
      runeWindow (runes [97, 98, 99, 100, 101, 102, 103, 104]) 3 (3 - 1) m
        = (runes [97, 98, 99, 100, 101, 102, 103, 104]).drop (m * (3 - 1)) ∧
      ((∀ r ∈ runes [97, 98, 99, 100, 101, 102, 103, 104], isSpace r = false) →
        (∀ fuel, m < fuel →
          splitBySize ⟨((3 : Nat) : Int), ((1 : Nat) : Int), []⟩ fuel
              [97, 98, 99, 100, 101, 102, 103, 104]
            = .done ((List.range (m + 1)).map (fun k => encodeRunes
                (runeWindow (runes [97, 98, 99, 100, 101, 102, 103, 104]) 3 (3 - 1) k)))) ∧
        (∀ k ≤ m,
          runes (encodeRunes (runeWindow (runes [97, 98, 99, 100, 101, 102, 103, 104]) 3
              (3 - 1) k))
            = runeWindow (runes [97, 98, 99, 100, 101, 102, 103, 104]) 3 (3 - 1) k) ∧
        (∀ k < m,
          (runeWindow (runes [97, 98, 99, 100, 101, 102, 103, 104]) 3 (3 - 1) k).length = 3) ∧
        (runeWindow (runes [97, 98, 99, 100, 101, 102, 103, 104]) 3 (3 - 1) m).length
          = (runes [97, 98, 99, 100, 101, 102, 103, 104]).length - m * (3 - 1) ∧
        0 < (runes [97, 98, 99, 100, 101, 102, 103, 104]).length - m * (3 - 1) ∧
        (runes [97, 98, 99, 100, 101, 102, 103, 104]).length - m * (3 - 1) ≤ 3) :=
  ⟨by decide, splitBySize_windows 3 1 [] [97, 98, 99, 100, 101, 102, 103, 104] (by decide)
    (by decide)⟩

/-! ## ASCII strings -/

theorem encodeRunes_ascii (s : GoString) (h : IsAscii s) : encodeRunes s = s := by
  induction s with
  | nil => rfl
  | cons b t ih =>
    have hb : b < 128 := h b (List.mem_cons_self _ _)
    rw [encodeRunes_cons, ih (fun c hc => h c (List.mem_cons_of_mem _ hc))]
    unfold encodeRune
    rw [if_pos (by omega)]
    rfl

theorem isScalar_of_ascii (s : GoString) (h : IsAscii s) : ∀ r ∈ s, IsScalar r := by
  intro r hr
  have := h r hr
  unfold IsScalar
  omega

theorem trimRunes_sublist (rs : List Nat) : ∀ r ∈ trimRunes rs, r ∈ rs := by
  intro r hr
  unfold trimRunes at hr
  exact (List.dropWhile_suffix _).subset ((List.rdropWhile_prefix isSpace _).subset hr)

theorem TrimSpace_ascii (s : GoString) (h : IsAscii s) : TrimSpace s = trimRunes s := by
  have h1 := TrimSpace_encodeRunes s (isScalar_of_ascii s h)
  rw [encodeRunes_ascii s h] at h1
  rw [h1]
  exact encodeRunes_ascii _ (fun b hb => h b (trimRunes_sublist s b hb))

theorem IsAscii_TrimSpace (s : GoString) (h : IsAscii s) : IsAscii (TrimSpace s) := by
  rw [TrimSpace_ascii s h]
  exact fun b hb => h b (trimRunes_sublist s b hb)

theorem IsAscii_append (a b : GoString) (ha : IsAscii a) (hb : IsAscii b) :
    IsAscii (a ++ b) := by
  intro c hc
  rcases List.mem_append.1 hc with h | h
  · exact ha c h
  · exact hb c h

theorem EndsNonSpace_append (a b : GoString) (hb : EndsNonSpace b) : EndsNonSpace (a ++ b) := by
  obtain ⟨x, y, rfl, hy⟩ := hb
  exact ⟨a ++ x, y, by rw [List.append_assoc], hy⟩

theorem EndsNonSpace_ne_nil (s : GoString) (h : EndsNonSpace s) : s ≠ [] := by
  obtain ⟨x, y, rfl, _⟩ := h
  simp

theorem dropWhile_append_of_endsNonSpace (a b : GoString) (ha : EndsNonSpace a) :
    (a ++ b).dropWhile isSpace = a.dropWhile isSpace ++ b := by
  obtain ⟨x, y, rfl, hy⟩ := ha
  induction x with
  | nil => simp [List.dropWhile_cons, hy]
  | cons c t ih =>
    simp only [List.cons_append, List.dropWhile_cons]
    split_ifs
    · exact ih
    · rfl

theorem EndsNonSpace_dropWhile (a : GoString) (ha : EndsNonSpace a) :
    EndsNonSpace (a.dropWhile isSpace) := by
  obtain ⟨x, y, rfl, hy⟩ := ha
  induction x with
  | nil => exact ⟨[], y, by simp [List.dropWhile_cons, hy], hy⟩
  | cons c t ih =>
    simp only [List.cons_append, List.dropWhile_cons]
    split_ifs
    · exact ih
    · exact ⟨c :: t, y, rfl, hy⟩

theorem rdropWhile_of_endsNonSpace (a : GoString) (ha : EndsNonSpace a) :
    a.rdropWhile isSpace = a := by
  obtain ⟨x, y, rfl, hy⟩ := ha
  rw [List.rdropWhile_concat_neg _ _ _ (by simp [hy])]

theorem trimRunes_of_endsNonSpace (a : GoString) (ha : EndsNonSpace a) :
    trimRunes a = a.dropWhile isSpace := by
  unfold trimRunes
  exact rdropWhile_of_endsNonSpace _ (EndsNonSpace_dropWhile a ha)

theorem EndsNonSpace_trimRunes (a : GoString) (h : trimRunes a ≠ []) :
    EndsNonSpace (trimRunes a) := by
  have h2 := List.rdropWhile_last_not (p := isSpace) (l := a.dropWhile isSpace) h
  refine ⟨(trimRunes a).dropLast, (trimRunes a).getLast h, ?_, ?_⟩
  · exact (List.dropLast_append_getLast h).symm
  · simpa using h2

theorem EndsNonSpace_lastBytes (k : Nat) (hk : 0 < k) (c : GoString) (hc : EndsNonSpace c) :
    EndsNonSpace (lastBytes k c) := by
  obtain ⟨x, y, rfl, hy⟩ := hc
  unfold lastBytes
  refine ⟨x.drop (x.length + 1 - k), y, ?_, hy⟩
  rw [List.length_append, List.length_singleton, List.drop_append_of_le_length (by omega)]

/-! ## The overlap between adjacent chunks -/

theorem stringsSplitFuel_mem (sep : GoString) (n : Nat) :
    ∀ (s cur : GoString), ∀ p ∈ stringsSplitFuel sep n s cur, ∀ b ∈ p, b ∈ cur ∨ b ∈ s := by
  induction n with
  | zero =>
    intro s cur p hp b hb
    simp only [stringsSplitFuel, List.mem_singleton] at hp
    rw [hp] at hb
    exact List.mem_append.1 hb
  | succ n ih =>
    intro s cur p hp b hb
    cases s with
    | nil =>
      simp only [stringsSplitFuel, List.mem_singleton] at hp
      rw [hp] at hb
      exact Or.inl hb
    | cons c t =>
      simp only [stringsSplitFuel] at hp
      split at hp
      · rcases List.mem_cons.1 hp with h | h
        · rw [h] at hb
          exact Or.inl hb
        · rcases ih _ _ p h b hb with h1 | h1
          · simp at h1
          · exact Or.inr (List.mem_of_mem_drop h1)
      · rcases ih _ _ p hp b hb with h1 | h1
        · rcases List.mem_append.1 h1 with h2 | h2
          · exact Or.inl h2
          · rw [List.mem_singleton.1 h2]
            exact Or.inr (List.mem_cons_self _ _)
        · exact Or.inr (List.mem_cons_of_mem _ h1)

theorem IsAscii_stringsSplit (text sep : GoString) (h : IsAscii text) :
    ∀ p ∈ stringsSplit text sep, IsAscii p := by
  intro p hp b hb
  rcases stringsSplitFuel_mem sep _ text [] p hp b hb with h1 | h1
  · simp at h1
  · exact h b h1

theorem IsAscii_lastBytes (k : Nat) (c : GoString) (h : IsAscii c) : IsAscii (lastBytes k c) :=
  fun b hb => h b (List.mem_of_mem_drop hb)

theorem overlapSeed_concat (cfg : Options) (sep : GoString) (chunks : List GoString)
    (c : GoString) (co : Nat) (hco : cfg.ChunkOverlap = (co : Int)) (hpos : 0 < co)
    (hsep : sep ≠ []) :
    overlapSeed cfg sep (chunks ++ [c]) = lastBytes co c ++ sep := by
  unfold overlapSeed lastBytes
  rw [if_pos ⟨by omega, by simp⟩, List.getLastD_concat, if_pos hsep, hco]
  congr 2
  split_ifs <;> omega

theorem flushBuffer_of_ne_nil (chunks : List GoString) (cur : GoString) (h : cur ≠ []) :
    flushBuffer chunks cur = chunks ++ [TrimSpace cur] := by
  unfold flushBuffer
  rw [if_pos (List.length_pos.2 h)]

theorem LinkInv_flush (co : Nat) (sep : GoString) (chunks : List GoString) (cur : GoString)
    (h : LinkInv co sep chunks cur) (hne : cur ≠ []) :
    TrimSpace cur = cur.dropWhile isSpace ∧ EndsNonSpace (TrimSpace cur) ∧
      IsAscii (TrimSpace cur) ∧ List.Chain' (OverlapLink co sep) (chunks ++ [TrimSpace cur]) := by
  obtain ⟨hchain, hac, _, hec, _, hlink⟩ := h
  have hends : EndsNonSpace cur := hec.resolve_left hne
  have ht : TrimSpace cur = cur.dropWhile isSpace := by
    rw [TrimSpace_ascii cur hac, trimRunes_of_endsNonSpace cur hends]
  refine ⟨ht, ?_, IsAscii_TrimSpace cur hac, ?_⟩
  · rw [ht]
    exact EndsNonSpace_dropWhile cur hends
  · apply List.Chain'.append hchain (List.chain'_singleton _)
    intro a ha b hb
    rw [List.head?_cons, Option.mem_def, Option.some.injEq] at hb
    subst hb
    rw [ht]
    exact (hlink a ha).2

theorem LinkInv_append (co : Nat) (sep : GoString) (chunks : List GoString)
    (cur extra p : GoString) (h : LinkInv co sep chunks cur) (hx : IsAscii extra)
    (hp : IsAscii p) (hpe : EndsNonSpace p) :
    LinkInv co sep chunks (cur ++ extra ++ p) := by
  obtain ⟨hchain, hac, hach, hec, hech, hlink⟩ := h
  refine ⟨hchain, IsAscii_append _ _ (IsAscii_append _ _ hac hx) hp, hach,
    Or.inr (EndsNonSpace_append _ _ hpe), hech, ?_⟩
  intro a ha
  obtain ⟨hne, hpre⟩ := hlink a ha
  refine ⟨by simp [hne], ?_⟩
  rw [List.append_assoc, dropWhile_append_of_endsNonSpace cur _ (hec.resolve_left hne)]
  exact hpre.trans (List.prefix_append _ _)

theorem LinkInv_seed (co : Nat) (hpos : 0 < co) (sep : GoString) (has : IsAscii sep)
    (chunks : List GoString) (cur extra p : GoString) (h : LinkInv co sep chunks cur)
    (hne : cur ≠ []) (hx : IsAscii extra) (hp : IsAscii p) (hpe : EndsNonSpace p) :
    LinkInv co sep (chunks ++ [TrimSpace cur])
      (lastBytes co (TrimSpace cur) ++ sep ++ extra ++ p) := by
  obtain ⟨ht, hte, hta, hchain⟩ := LinkInv_flush co sep chunks cur h hne
  obtain ⟨_, _, hach, _, hech, _⟩ := h
  refine ⟨hchain, ?_, ?_, Or.inr (EndsNonSpace_append _ _ hpe), ?_, ?_⟩
  · exact IsAscii_append _ _ (IsAscii_append _ _
      (IsAscii_append _ _ (IsAscii_lastBytes _ _ hta) has) hx) hp
  · intro c hc
    rcases List.mem_append.1 hc with h1 | h1
    · exact hach c h1
    · rw [List.mem_singleton.1 h1]
      exact hta
  · intro c hc
    rcases List.mem_append.1 hc with h1 | h1
    · exact hech c h1
    · rw [List.mem_singleton.1 h1]
      exact hte
  · intro a ha
    rw [List.getLast?_concat, Option.some.injEq] at ha
    subst ha
    refine ⟨by simp [EndsNonSpace_ne_nil p hpe], ?_⟩
    rw [List.append_assoc, List.append_assoc,
      dropWhile_append_of_endsNonSpace _ _ (EndsNonSpace_lastBytes co hpos _ hte)]
    rw [← List.append_assoc]
    exact List.prefix_append _ _

theorem writePiece_cases (sep : GoString) (i : Nat) (cur p : GoString) :
    writePiece sep i cur p = cur ++ [] ++ p ∨ writePiece sep i cur p = cur ++ sep ++ p := by
  unfold writePiece
  split_ifs
  · exact Or.inr rfl
  · exact Or.inl (by rw [List.append_nil])

theorem mergeLoop_link (cfg : Options) (sep : GoString)
    (recur : GoString → Outcome (List GoString)) (co : Nat)
    (hco : cfg.ChunkOverlap = (co : Int)) (hpos : 0 < co) (hsep : sep ≠ [])
    (has : IsAscii sep) (splits : List GoString) :
    ∀ (i : Nat) (chunks : List GoString) (cur : GoString),
      (∀ p ∈ splits, IsAscii p ∧ ((TrimSpace p).length : Int) ≤ cfg.ChunkSize) →
      LinkInv co sep chunks cur →
      ∃ out, mergeLoop cfg sep recur splits i chunks cur = .done out ∧
        List.Chain' (OverlapLink co sep) out := by
  induction splits with
  | nil =>
    intro i chunks cur _ hinv
    refine ⟨_, mergeLoop_nil _ _ _ _ _ _, ?_⟩
    by_cases hne : cur = []
    · rw [hne, flushBuffer_nil]
      exact hinv.1
    · rw [flushBuffer_of_ne_nil _ _ hne]
      exact (LinkInv_flush co sep chunks cur hinv hne).2.2.2
  | cons p0 rest ih =>
    intro i chunks cur hfit hinv
    have hrest : ∀ q ∈ rest, IsAscii q ∧ ((TrimSpace q).length : Int) ≤ cfg.ChunkSize :=
      fun q hq => hfit q (List.mem_cons_of_mem _ hq)
    obtain ⟨hp0, hlen⟩ := hfit p0 (List.mem_cons_self _ _)
    by_cases h1 : TrimSpace p0 = []
    · rw [mergeLoop_blank _ _ _ _ _ _ _ _ h1]
      exact ih _ _ _ hrest hinv
    · have h2 : ¬ ((TrimSpace p0).length : Int) > cfg.ChunkSize := by omega
      have hpa : IsAscii (TrimSpace p0) := IsAscii_TrimSpace p0 hp0
      have hpe : EndsNonSpace (TrimSpace p0) := by
        rw [TrimSpace_ascii p0 hp0] at h1 ⊢
        exact EndsNonSpace_trimRunes p0 h1
      by_cases h3 : newSize sep cur (TrimSpace p0) > cfg.ChunkSize
      · have hcur : cur ≠ [] :=
          List.length_pos.1 (newSize_pos_of_overflow cfg sep cur _ h2 h3)
        rw [mergeLoop_overflow _ _ _ _ _ _ _ _ h1 h2 h3, flushBuffer_of_ne_nil _ _ hcur,
          overlapSeed_concat cfg sep chunks _ co hco hpos hsep]
        apply ih _ _ _ hrest
        rcases writePiece_cases sep i (lastBytes co (TrimSpace cur) ++ sep) (TrimSpace p0)
          with hw | hw
        · rw [hw]
          exact LinkInv_seed co hpos sep has chunks cur [] _ hinv hcur (by simp [IsAscii])
            hpa hpe
        · rw [hw]
          exact LinkInv_seed co hpos sep has chunks cur sep _ hinv hcur has hpa hpe
      · rw [mergeLoop_append _ _ _ _ _ _ _ _ h1 h2 h3]
        apply ih _ _ _ hrest
        rcases writePiece_cases sep i cur (TrimSpace p0) with hw | hw
        · rw [hw]
          exact LinkInv_append co sep chunks cur [] _ hinv (by simp [IsAscii]) hpa hpe
        · rw [hw]
          exact LinkInv_append co sep chunks cur sep _ hinv has hpa hpe

theorem stringsSplitFuel_no_match (sep : GoString) (hns : ¬ IsAscii sep) (n : Nat) :
    ∀ (s cur : GoString), IsAscii s → stringsSplitFuel sep n s cur = [cur ++ s] := by
  induction n with
  | zero => intro s cur _; simp [stringsSplitFuel]
  | succ n ih =>
    intro s cur hs
    cases s with
    | nil => simp [stringsSplitFuel]
    | cons c t =>
      have hno : ¬ (sep.isPrefixOf (c :: t) = true) := by
        intro h
        apply hns
        intro b hb
        exact hs b ((List.isPrefixOf_iff_prefix.1 h).subset hb)
      rw [stringsSplitFuel, if_neg hno, ih t _ (fun b hb => hs b (List.mem_cons_of_mem _ hb)),
        List.append_assoc, List.singleton_append]

/-- **C8** (amended).  For `ChunkOverlap > 0`, a non-empty separator and an ASCII text whose
pieces all fit in `ChunkSize`, `splitText` returns chunks in which every chunk after the
first begins with the last `min(ChunkOverlap, len)` bytes of the chunk before it, their
leading white space removed, followed by the separator. -/
theorem splitText_overlap_link (cfg : Options) (fuel : Nat) (text sep : GoString)
    (rest : List GoString) (co : Nat) (hco : cfg.ChunkOverlap = (co : Int)) (hpos : 0 < co)
    (hsep : sep ≠ []) (hat : IsAscii text)
    (hfit : ∀ p ∈ splitPieces text sep, (p.length : Int) ≤ cfg.ChunkSize) :
    ∃ chunks, splitText cfg fuel text (sep :: rest) = .done chunks ∧
      List.Chain' (OverlapLink co sep) chunks := by
  rw [splitText_cons_eq]
  by_cases h0 : text.length = 0
  · rw [if_pos h0]
    exact ⟨[], rfl, List.chain'_nil⟩
  · rw [if_neg h0]
    by_cases h1 : (text.length : Int) ≤ cfg.ChunkSize
    · rw [if_pos h1]
      exact ⟨_, rfl, List.chain'_singleton _⟩
    · rw [if_neg h1]
      have hpieces : splitPieces text sep = stringsSplit text sep := by
        unfold splitPieces
        rw [if_neg hsep]
      by_cases has : IsAscii sep
      · apply mergeLoop_link cfg sep _ co hco hpos hsep has
        · intro p hp
          have h2 := hfit p hp
          have h3 := TrimSpace_length_le p
          refine ⟨?_, by omega⟩
          rw [hpieces] at hp
          exact IsAscii_stringsSplit text sep hat p hp
        · exact ⟨List.chain'_nil, by simp [IsAscii], by simp, Or.inl rfl, by simp, by simp⟩
      · -- a separator with a byte above 127 does not occur in an ASCII text
        exfalso
        have h2 := hfit text (by
          rw [hpieces, stringsSplit, stringsSplitFuel_no_match sep has _ text [] hat]
          simp)
        exact h1 h2

/-- Witness of `splitText_overlap_link`: the text `"ab cd,efghi"` cut on `","` with
`ChunkSize = 5`, `ChunkOverlap = 3`. -/
theorem splitText_overlap_link_witness :
    ((⟨5, 3, []⟩ : Options).ChunkOverlap = ((3 : Nat) : Int) ∧ 0 < 3 ∧
      ([44] : GoString) ≠ [] ∧
      IsAscii [97, 98, 32, 99, 100, 44, 101, 102, 103, 104, 105] ∧
      ∀ p ∈ splitPieces [97, 98, 32, 99, 100, 44, 101, 102, 103, 104, 105] [44],
        (p.length : Int) ≤ (⟨5, 3, []⟩ : Options).ChunkSize) ∧
    ∃ chunks, splitText ⟨5, 3, []⟩ 0 [97, 98, 32, 99, 100, 44, 101, 102, 103, 104, 105]
        ([44] :: []) = .done chunks ∧
      List.Chain' (OverlapLink 3 [44]) chunks :=
  ⟨by decide,
    splitText_overlap_link ⟨5, 3, []⟩ 0 [97, 98, 32, 99, 100, 44, 101, 102, 103, 104, 105] [44]
      [] 3 (by decide) (by decide) (by decide) (by decide) (by decide)⟩

/-- **C8**, counterexample.  With `ChunkSize = 5`, `ChunkOverlap = 3` and separator `","`,
the ASCII text `"ab cd,efghi"` (pieces `"ab cd"`, `"efghi"`) gives the chunks `"ab cd"` and
`"cd,,efghi"`: the second chunk does not begin with `" cd,"`, the last 3 bytes of the first
chunk followed by the separator, since the buffer is trimmed when it is flushed. -/
theorem splitText_overlap_counterexample :
    (0 : Int) < 3 ∧ (3 : Int) < 5 ∧ ([44] : GoString) ≠ [] ∧
    IsAscii [97, 98, 32, 99, 100, 44, 101, 102, 103, 104, 105] ∧
    (∀ p ∈ splitPieces [97, 98, 32, 99, 100, 44, 101, 102, 103, 104, 105] [44],
      (p.length : Int) ≤ 5) ∧
    splitText ⟨5, 3, []⟩ 0 [97, 98, 32, 99, 100, 44, 101, 102, 103, 104, 105] [[44]]
      = .done [[97, 98, 32, 99, 100], [99, 100, 44, 44, 101, 102, 103, 104, 105]] ∧
    lastBytes 3 [97, 98, 32, 99, 100] = [32, 99, 100] ∧
    ¬ (([32, 99, 100] ++ [44] : GoString) <+: [99, 100, 44, 44, 101, 102, 103, 104, 105]) := by
  refine ⟨by decide, by decide, by decide, by decide, by decide, by decide, by decide, ?_⟩
  intro h
  obtain ⟨t, ht⟩ := h
  simp at ht

/-! ## The size of every chunk -/

theorem sizeBound_le_all (cfg : Options) (sep : GoString) (rest : List GoString) :
    sizeBound cfg sep ≤ sizeBoundAll cfg (sep :: rest) := by
  unfold sizeBound sizeBoundAll maxSepLen
  have : sep.length ≤ max sep.length (maxSepLen rest) := le_max_left _ _
  split_ifs <;> omega

theorem sizeBoundAll_mono (cfg : Options) (sep : GoString) (rest : List GoString) :
    sizeBoundAll cfg rest ≤ sizeBoundAll cfg (sep :: rest) := by
  unfold sizeBoundAll
  have : maxSepLen rest ≤ maxSepLen (sep :: rest) := le_max_right _ _
  split_ifs <;> omega

theorem chunkSize_le_sizeBound (cfg : Options) (sep : GoString) :
    cfg.ChunkSize ≤ sizeBound cfg sep := by
  unfold sizeBound
  split_ifs <;> omega

theorem chunkSize_le_sizeBoundAll (cfg : Options) (seps : List GoString) :
    cfg.ChunkSize ≤ sizeBoundAll cfg seps := by
  unfold sizeBoundAll
  split_ifs <;> omega

theorem writePiece_overflow_bound (cfg : Options) (sep : GoString) (i : Nat)
    (chunks : List GoString) (p : GoString) (hp : ¬ (p.length : Int) > cfg.ChunkSize) :
    ((writePiece sep i (overlapSeed cfg sep chunks) p).length : Int) ≤ sizeBound cfg sep := by
  have hs := overlapSeed_length_le cfg sep chunks
  have hw := writePiece_length_le sep i (overlapSeed cfg sep chunks) p
  unfold sizeBound
  split_ifs at hs hw ⊢ <;> omega

theorem writePiece_append_bound (cfg : Options) (sep : GoString) (i : Nat) (cur p : GoString)
    (h3 : ¬ newSize sep cur p > cfg.ChunkSize) :
    ((writePiece sep i cur p).length : Int) ≤ sizeBound cfg sep := by
  have hw := writePiece_length_le sep i cur p
  have h := chunkSize_le_sizeBound cfg sep
  unfold newSize at h3
  split_ifs at h3 hw <;> omega

/-- The chunks of the merging loop, when it returns: each is within the bound `B` in bytes
or within `ChunkSize` in runes, as soon as the chunks of the recursive calls are. -/
theorem mergeLoop_chunk_bound (cfg : Options) (hcs : 0 < cfg.ChunkSize) (sep : GoString)
    (recur : GoString → Outcome (List GoString)) (B : Int) (hB : sizeBound cfg sep ≤ B)
    (splits : List GoString) :
    ∀ (i : Nat) (chunks : List GoString) (cur : GoString) (out : List GoString),
      (∀ p ∈ splits, ∀ sub, recur (TrimSpace p) = .done sub →
        ∀ c ∈ sub, (c.length : Int) ≤ B ∨ ((runes c).length : Int) ≤ cfg.ChunkSize) →
      (∀ c ∈ chunks, (c.length : Int) ≤ B ∨ ((runes c).length : Int) ≤ cfg.ChunkSize) →
      (cur.length : Int) ≤ sizeBound cfg sep →
      mergeLoop cfg sep recur splits i chunks cur = .done out →
      ∀ c ∈ out, (c.length : Int) ≤ B ∨ ((runes c).length : Int) ≤ cfg.ChunkSize := by
  have hflush : ∀ (chunks : List GoString) (cur : GoString),
      (∀ c ∈ chunks, (c.length : Int) ≤ B ∨ ((runes c).length : Int) ≤ cfg.ChunkSize) →
      (cur.length : Int) ≤ sizeBound cfg sep →
      ∀ c ∈ flushBuffer chunks cur,
        (c.length : Int) ≤ B ∨ ((runes c).length : Int) ≤ cfg.ChunkSize := by
    intro chunks cur hch hcur c hc
    unfold flushBuffer at hc
    split at hc
    · rcases List.mem_append.1 hc with h | h
      · exact hch c h
      · rw [List.mem_singleton.1 h]
        have := TrimSpace_length_le cur
        exact Or.inl (by omega)
    · exact hch c hc
  induction splits with
  | nil =>
    intro i chunks cur out _ hch hcur hout
    rw [mergeLoop_nil] at hout
    rw [← Outcome.done.inj hout]
    exact hflush chunks cur hch hcur
  | cons p0 rest ih =>
    intro i chunks cur out hrec hch hcur hout
    have hrest : ∀ p ∈ rest, ∀ sub, recur (TrimSpace p) = .done sub →
        ∀ c ∈ sub, (c.length : Int) ≤ B ∨ ((runes c).length : Int) ≤ cfg.ChunkSize :=
      fun p hp => hrec p (List.mem_cons_of_mem _ hp)
    by_cases h1 : TrimSpace p0 = []
    · rw [mergeLoop_blank _ _ _ _ _ _ _ _ h1] at hout
      exact ih _ _ _ _ hrest hch hcur hout
    · by_cases h2 : ((TrimSpace p0).length : Int) > cfg.ChunkSize
      · cases hr : recur (TrimSpace p0) with
        | done sub =>
          rw [mergeLoop_big_done _ _ _ _ _ _ _ _ _ h1 h2 hr] at hout
          refine ih _ _ _ _ hrest ?_ ?_ hout
          · intro c hc
            rcases List.mem_append.1 hc with h | h
            · exact hflush chunks cur hch hcur c h
            · exact hrec p0 (List.mem_cons_self _ _) sub hr c h
          · have := chunkSize_le_sizeBound cfg sep
            split_ifs
            · simp only [List.length_nil, Nat.cast_zero]
              omega
            · exact hcur
        | panic =>
          rw [mergeLoop_big_panic _ _ _ _ _ _ _ _ h1 h2 hr] at hout
          exact Outcome.noConfusion hout
        | outOfFuel =>
          rw [mergeLoop_big_outOfFuel _ _ _ _ _ _ _ _ h1 h2 hr] at hout
          exact Outcome.noConfusion hout
      · by_cases h3 : newSize sep cur (TrimSpace p0) > cfg.ChunkSize
        · rw [mergeLoop_overflow _ _ _ _ _ _ _ _ h1 h2 h3] at hout
          exact ih _ _ _ _ hrest (hflush chunks cur hch hcur)
            (writePiece_overflow_bound cfg sep i _ _ h2) hout
        · rw [mergeLoop_append _ _ _ _ _ _ _ _ h1 h2 h3] at hout
          exact ih _ _ _ _ hrest hch (writePiece_append_bound cfg sep i cur _ h3) hout

theorem trimRunes_length_le (rs : List Nat) : (trimRunes rs).length ≤ rs.length := by
  unfold trimRunes
  exact ((List.rdropWhile_prefix isSpace _).length_le).trans
    (List.dropWhile_suffix _).length_le

theorem runes_TrimSpace_encodeRunes_length (w : List Nat) (hw : ∀ r ∈ w, IsScalar r) :
    (runes (TrimSpace (encodeRunes w))).length ≤ w.length := by
  rw [TrimSpace_encodeRunes w hw,
    runes_encodeRunes _ (fun r hr => hw r (trimRunes_sublist w r hr))]
  exact trimRunes_length_le w

theorem appendWindow_rune_bound (cfg : Options) (hcs : 0 < cfg.ChunkSize) (rs : List Nat)
    (hrs : ∀ r ∈ rs, IsScalar r)
    (i : Int) (chunks : List GoString)
    (hch : ∀ c ∈ chunks, ((runes c).length : Int) ≤ cfg.ChunkSize) :
    ∀ c ∈ appendWindow rs i (windowEnd cfg rs.length i) chunks,
      ((runes c).length : Int) ≤ cfg.ChunkSize := by
  intro c hc
  unfold appendWindow at hc
  split at hc
  · rcases List.mem_append.1 hc with h | h
    · exact hch c h
    · rw [List.mem_singleton.1 h]
      have hsc : ∀ r ∈ (rs.drop i.toNat).take (windowEnd cfg rs.length i - i).toNat,
          IsScalar r := fun r hr => hrs r (List.mem_of_mem_drop (List.mem_of_mem_take hr))
      have h1 := runes_TrimSpace_encodeRunes_length _ hsc
      have h2 : ((rs.drop i.toNat).take (windowEnd cfg rs.length i - i).toNat).length
          ≤ (windowEnd cfg rs.length i - i).toNat := List.length_take_le _ _
      have h3 := windowEnd_cases cfg rs.length i
      omega
  · exact hch c hc

theorem splitBySizeLoop_rune_bound (cfg : Options) (hcs : 0 < cfg.ChunkSize) (rs : List Nat)
    (hrs : ∀ r ∈ rs, IsScalar r) (fuel : Nat) :
    ∀ (i : Int) (chunks out : List GoString),
      (∀ c ∈ chunks, ((runes c).length : Int) ≤ cfg.ChunkSize) →
      splitBySizeLoop cfg rs fuel i chunks = .done out →
      ∀ c ∈ out, ((runes c).length : Int) ≤ cfg.ChunkSize := by
  induction fuel with
  | zero =>
    intro i chunks out _ h
    exact Outcome.noConfusion h
  | succ fuel ih =>
    intro i chunks out hch h
    rw [splitBySizeLoop_succ_eq] at h
    by_cases h1 : i < (rs.length : Int)
    · rw [if_pos h1] at h
      by_cases h2 : i < 0 ∨ windowEnd cfg rs.length i < i
      · rw [if_pos h2] at h
        exact Outcome.noConfusion h
      · rw [if_neg h2] at h
        have hw := appendWindow_rune_bound cfg hcs rs hrs i chunks hch
        by_cases h3 : windowEnd cfg rs.length i = (rs.length : Int)
        · rw [if_pos h3] at h
          rw [← Outcome.done.inj h]
          exact hw
        · rw [if_neg h3] at h
          exact ih _ _ _ hw h
    · rw [if_neg h1] at h
      rw [← Outcome.done.inj h]
      exact hch

/-- Every chunk `splitText` returns is within `sizeBoundAll` in bytes or, when it was cut by
the fixed-size fallback, within `ChunkSize` in runes. -/
theorem splitText_chunk_bound (cfg : Options) (hcs : 0 < cfg.ChunkSize) (fuel : Nat)
    (seps : List GoString) :
    ∀ (text : GoString) (chunks : List GoString), splitText cfg fuel text seps = .done chunks →
      ∀ c ∈ chunks, (c.length : Int) ≤ sizeBoundAll cfg seps ∨
        ((runes c).length : Int) ≤ cfg.ChunkSize := by
  induction seps with
  | nil =>
    intro text chunks h c hc
    rw [splitText_nil_eq] at h
    by_cases h0 : text.length = 0
    · rw [if_pos h0] at h
      rw [← Outcome.done.inj h] at hc
      simp at hc
    · rw [if_neg h0] at h
      by_cases h1 : (text.length : Int) ≤ cfg.ChunkSize
      · rw [if_pos h1] at h
        rw [← Outcome.done.inj h, List.mem_singleton] at hc
        rw [hc]
        have := TrimSpace_length_le text
        have := chunkSize_le_sizeBoundAll cfg []
        exact Or.inl (by omega)
      · rw [if_neg h1] at h
        exact Or.inr (splitBySizeLoop_rune_bound cfg hcs (runes text) (runes_scalar text) fuel 0 []
          chunks (by simp) h c hc)
  | cons sep rest ih =>
    intro text chunks h c hc
    rw [splitText_cons_eq] at h
    by_cases h0 : text.length = 0
    · rw [if_pos h0] at h
      rw [← Outcome.done.inj h] at hc
      simp at hc
    · rw [if_neg h0] at h
      by_cases h1 : (text.length : Int) ≤ cfg.ChunkSize
      · rw [if_pos h1] at h
        rw [← Outcome.done.inj h, List.mem_singleton] at hc
        rw [hc]
        have := TrimSpace_length_le text
        have := chunkSize_le_sizeBoundAll cfg (sep :: rest)
        exact Or.inl (by omega)
      · rw [if_neg h1] at h
        refine mergeLoop_chunk_bound cfg hcs sep _ (sizeBoundAll cfg (sep :: rest))
          (sizeBound_le_all cfg sep rest) (splitPieces text sep) 0 [] [] chunks ?_ (by simp) ?_
          h c hc
        · intro p _ sub hsub d hd
          rcases ih (TrimSpace p) sub hsub d hd with h2 | h2
          · have := sizeBoundAll_mono cfg sep rest
            exact Or.inl (by omega)
          · exact Or.inr h2
        · have := chunkSize_le_sizeBound cfg sep
          simp only [List.length_nil, Nat.cast_zero]
          omega

/-- When every piece of the text cut on the first separator is at most `ChunkSize` bytes
long, every chunk is within `sizeBound`, and within `ChunkSize` without overlap. -/
theorem splitText_fit_bound (cfg : Options) (fuel : Nat) (text sep : GoString)
    (rest : List GoString) (hcs : 0 < cfg.ChunkSize)
    (hfit : ∀ p ∈ splitPieces text sep, (p.length : Int) ≤ cfg.ChunkSize) :
    ∃ chunks, splitText cfg fuel text (sep :: rest) = .done chunks ∧
      ∀ c ∈ chunks, (c.length : Int) ≤ sizeBound cfg sep ∧
        (cfg.ChunkOverlap ≤ 0 → (c.length : Int) ≤ cfg.ChunkSize) := by
  have hsep : (0 : Int) ≤ (sep.length : Int) := Int.natCast_nonneg _
  have hsb : cfg.ChunkSize ≤ sizeBound cfg sep := by
    unfold sizeBound
    split_ifs <;> omega
  have hsb0 : cfg.ChunkOverlap ≤ 0 → sizeBound cfg sep = cfg.ChunkSize := by
    intro h
    unfold sizeBound
    rw [if_pos h, add_zero]
  have key : ∃ chunks, splitText cfg fuel text (sep :: rest) = .done chunks ∧
      ∀ c ∈ chunks, (c.length : Int) ≤ sizeBound cfg sep := by
    rw [splitText_cons_eq]
    by_cases h0 : text.length = 0
    · rw [if_pos h0]
      exact ⟨[], rfl, by simp⟩
    · rw [if_neg h0]
      by_cases h1 : (text.length : Int) ≤ cfg.ChunkSize
      · rw [if_pos h1]
        refine ⟨_, rfl, ?_⟩
        intro c hc
        rw [List.mem_singleton.1 hc]
        have := TrimSpace_length_le text
        omega
      · rw [if_neg h1]
        apply mergeLoop_fit_bound
        · intro p hp
          have := hfit p hp
          have := TrimSpace_length_le p
          omega
        · simp
        · simp only [List.length_nil, Nat.cast_zero]
          omega
  obtain ⟨chunks, h1, h2⟩ := key
  exact ⟨chunks, h1, fun c hc => ⟨h2 c hc, fun h => by rw [← hsb0 h]; exact h2 c hc⟩⟩

/-- **C1** (amended).  For `ChunkSize > 0` and `0 ≤ ChunkOverlap < ChunkSize`, every text and
every separator list: `splitText` returns, and each chunk it returns has at most `ChunkSize`
runes (the chunks the fixed-size fallback cuts from a piece no separator divides) or is at
most `ChunkSize + ChunkOverlap + 2 * len(longest separator)` bytes long (`sizeBoundAll`).
In particular, when every piece of the text cut on the first separator is at most
`ChunkSize` bytes long, every chunk (also one whose buffer was seeded with the overlap) is
at most `ChunkSize + ChunkOverlap + 2 * len(separator)` bytes long (`sizeBound`), and at
most `ChunkSize` bytes long when `ChunkOverlap` is 0. -/
theorem splitText_size_bound (cfg : Options) (hcs : 0 < cfg.ChunkSize)
    (hco : 0 ≤ cfg.ChunkOverlap) (hlt : cfg.ChunkOverlap < cfg.ChunkSize) (text : GoString)
    (seps : List GoString) :
    (∃ chunks, (∀ fuel, max text.length 4 < fuel → splitText cfg fuel text seps = .done chunks) ∧
      ∀ c ∈ chunks, (c.length : Int) ≤ sizeBoundAll cfg seps ∨
        ((runes c).length : Int) ≤ cfg.ChunkSize) ∧
    (∀ sep rest, seps = sep :: rest →
      (∀ p ∈ splitPieces text sep, (p.length : Int) ≤ cfg.ChunkSize) →
      ∀ fuel, ∃ chunks, splitText cfg fuel text seps = .done chunks ∧
        ∀ c ∈ chunks, (c.length : Int) ≤ sizeBound cfg sep ∧
          (cfg.ChunkOverlap = 0 → (c.length : Int) ≤ cfg.ChunkSize)) := by
  constructor
  · obtain ⟨chunks, hchunks⟩ := splitText_returns cfg hcs hco hlt seps text
    refine ⟨chunks, hchunks, ?_⟩
    exact splitText_chunk_bound cfg hcs (max text.length 4 + 1) seps text chunks
      (hchunks _ (Nat.lt_succ_self _))
  · intro sep rest hseps hfit fuel
    rw [hseps]
    obtain ⟨chunks, h1, h2⟩ := splitText_fit_bound cfg fuel text sep rest hcs hfit
    exact ⟨chunks, h1, fun c hc => ⟨(h2 c hc).1, fun h0 => (h2 c hc).2 (le_of_eq h0)⟩⟩

/-- Witness of `splitText_size_bound`: the text `"hello,world"` cut on `","` with
`ChunkSize = 5`, `ChunkOverlap = 2`. -/
theorem splitText_size_bound_witness :
    (0 < (⟨5, 2, []⟩ : Options).ChunkSize ∧ 0 ≤ (⟨5, 2, []⟩ : Options).ChunkOverlap ∧
      (⟨5, 2, []⟩ : Options).ChunkOverlap < (⟨5, 2, []⟩ : Options).ChunkSize) ∧
    (∃ chunks,
      (∀ fuel, max ([104, 101, 108, 108, 111, 44, 119, 111, 114, 108, 100] : GoString).length 4
          < fuel →
        splitText ⟨5, 2, []⟩ fuel [104, 101, 108, 108, 111, 44, 119, 111, 114, 108, 100] [[44]]
          = .done chunks) ∧
      ∀ c ∈ chunks, (c.length : Int) ≤ sizeBoundAll ⟨5, 2, []⟩ [[44]] ∨
        ((runes c).length : Int) ≤ (⟨5, 2, []⟩ : Options).ChunkSize) ∧
    (∀ sep rest, [[44]] = sep :: rest →
      (∀ p ∈ splitPieces [104, 101, 108, 108, 111, 44, 119, 111, 114, 108, 100] sep,
        (p.length : Int) ≤ (⟨5, 2, []⟩ : Options).ChunkSize) →
      ∀ fuel, ∃ chunks,
        splitText ⟨5, 2, []⟩ fuel [104, 101, 108, 108, 111, 44, 119, 111, 114, 108, 100] [[44]]
          = .done chunks ∧
        ∀ c ∈ chunks, (c.length : Int) ≤ sizeBound ⟨5, 2, []⟩ sep ∧
          ((⟨5, 2, []⟩ : Options).ChunkOverlap = 0 →
            (c.length : Int) ≤ (⟨5, 2, []⟩ : Options).ChunkSize)) :=
  ⟨by decide,
    splitText_size_bound ⟨5, 2, []⟩ (by decide) (by decide) (by decide)
      [104, 101, 108, 108, 111, 44, 119, 111, 114, 108, 100] [[44]]⟩

/-- **C1**, counterexample.  With `ChunkSize = 5`, `ChunkOverlap = 2` and separator `","`,
both pieces of `"hello,world"` are 5 bytes long, and `splitText` returns
`["hello", "lo,,world"]`: the second chunk, seeded with the overlap, is 9 bytes long. -/
theorem splitText_size_bound_counterexample :
    (0 : Int) < 5 ∧ (0 : Int) ≤ 2 ∧ (2 : Int) < 5 ∧
    (∀ p ∈ splitPieces [104, 101, 108, 108, 111, 44, 119, 111, 114, 108, 100] [44],
        (p.length : Int) ≤ 5) ∧
    splitText ⟨5, 2, []⟩ 0 [104, 101, 108, 108, 111, 44, 119, 111, 114, 108, 100] [[44]]
      = .done [[104, 101, 108, 108, 111], [108, 111, 44, 44, 119, 111, 114, 108, 100]] ∧
    ¬ (([108, 111, 44, 44, 119, 111, 114, 108, 100] : GoString).length ≤ 5) := by
  decide

/-! ## Valid UTF-8 -/

/-- The ways `decodeRune` decodes a non-empty string. -/
theorem decodeRune_cases (c : Nat) (t : GoString) :
    decodeRune (c :: t) = (RuneError, 1) ∨
    (c < 0x80 ∧ decodeRune (c :: t) = (c, 1)) ∨
    (∃ s1 t1, t = s1 :: t1 ∧ (0xC2 ≤ c ∧ c ≤ 0xDF) ∧ (0x80 ≤ s1 ∧ s1 ≤ 0xBF) ∧
      decodeRune (c :: t) = ((c % 32) * 64 + s1 % 64, 2)) ∨
    (∃ s1 s2 t2, t = s1 :: s2 :: t2 ∧ (0xE0 ≤ c ∧ c ≤ 0xEF) ∧
      (acceptLo c ≤ s1 ∧ s1 ≤ acceptHi c) ∧ (0x80 ≤ s2 ∧ s2 ≤ 0xBF) ∧
      decodeRune (c :: t) = ((c % 16) * 4096 + (s1 % 64) * 64 + s2 % 64, 3)) ∨
    (∃ s1 s2 s3 t3, t = s1 :: s2 :: s3 :: t3 ∧ (0xF0 ≤ c ∧ c ≤ 0xF4) ∧
      (acceptLo c ≤ s1 ∧ s1 ≤ acceptHi c) ∧ (0x80 ≤ s2 ∧ s2 ≤ 0xBF) ∧
      (0x80 ≤ s3 ∧ s3 ≤ 0xBF) ∧
      decodeRune (c :: t)
        = ((c % 8) * 262144 + (s1 % 64) * 4096 + (s2 % 64) * 64 + s3 % 64, 4)) := by
  by_cases h1 : c < 0x80
  · exact Or.inr (Or.inl ⟨h1, decodeRune_one c t h1⟩)
  by_cases h2 : c < 0xC2 ∨ 0xF4 < c
  · left
    rw [decodeRune, if_neg h1, if_pos h2]
  by_cases h3 : c < 0xE0
  · match t with
    | [] =>
      left
      rw [decodeRune, if_neg h1, if_neg h2, if_pos h3, decode2]
    | s1 :: t1 =>
      have a1 : acceptLo c = 0x80 := by
        unfold acceptLo
        rw [if_neg (by omega), if_neg (by omega)]
      have a2 : acceptHi c = 0xBF := by
        unfold acceptHi
        rw [if_neg (by omega), if_neg (by omega)]
      by_cases h4 : s1 < 0x80 ∨ 0xBF < s1
      · left
        rw [decodeRune, if_neg h1, if_neg h2, if_pos h3, decode2, a1, a2, if_pos h4]
      · right; right; left
        exact ⟨s1, t1, rfl, by omega, by omega, decodeRune_two c s1 t1 (by omega) (by omega)⟩
  by_cases h4 : c < 0xF0
  · match t with
    | [] =>
      left
      rw [decodeRune, if_neg h1, if_neg h2, if_neg h3, if_pos h4]
      rfl
    | [_] =>
      left
      rw [decodeRune, if_neg h1, if_neg h2, if_neg h3, if_pos h4]
      rfl
    | s1 :: s2 :: t2 =>
      by_cases h5 : s1 < acceptLo c ∨ acceptHi c < s1
      · left
        rw [decodeRune, if_neg h1, if_neg h2, if_neg h3, if_pos h4, decode3, if_pos h5]
      by_cases h6 : s2 < 0x80 ∨ 0xBF < s2
      · left
        rw [decodeRune, if_neg h1, if_neg h2, if_neg h3, if_pos h4, decode3, if_neg h5,
          if_pos h6]
      right; right; right; left
      exact ⟨s1, s2, t2, rfl, by omega, by omega, by omega,
        decodeRune_three c s1 s2 t2 (by omega) (by omega) (by omega)⟩
  · match t with
    | [] =>
      left
      rw [decodeRune, if_neg h1, if_neg h2, if_neg h3, if_neg h4]
      rfl
    | [_] =>
      left
      rw [decodeRune, if_neg h1, if_neg h2, if_neg h3, if_neg h4]
      rfl
    | [_, _] =>
      left
      rw [decodeRune, if_neg h1, if_neg h2, if_neg h3, if_neg h4]
      rfl
    | s1 :: s2 :: s3 :: t3 =>
      by_cases h5 : s1 < acceptLo c ∨ acceptHi c < s1
      · left
        rw [decodeRune, if_neg h1, if_neg h2, if_neg h3, if_neg h4, decode4, if_pos h5]
      by_cases h6 : s2 < 0x80 ∨ 0xBF < s2
      · left
        rw [decodeRune, if_neg h1, if_neg h2, if_neg h3, if_neg h4, decode4, if_neg h5,
          if_pos h6]
      by_cases h7 : s3 < 0x80 ∨ 0xBF < s3
      · left
        rw [decodeRune, if_neg h1, if_neg h2, if_neg h3, if_neg h4, decode4, if_neg h5,
          if_neg h6, if_pos h7]
      right; right; right; right
      exact ⟨s1, s2, s3, t3, rfl, by omega, by omega, by omega, by omega,
        decodeRune_four c s1 s2 s3 t3 (by omega) (by omega) (by omega) (by omega)⟩

theorem acceptLo_cases (c : Nat) :
    (c = 0xE0 ∧ acceptLo c = 0xA0) ∨ (c = 0xF0 ∧ acceptLo c = 0x90) ∨
      (c ≠ 0xE0 ∧ c ≠ 0xF0 ∧ acceptLo c = 0x80) := by
  unfold acceptLo
  split_ifs with h1 h2
  · exact Or.inl ⟨h1, rfl⟩
  · exact Or.inr (Or.inl ⟨h2, rfl⟩)
  · exact Or.inr (Or.inr ⟨h1, h2, rfl⟩)

theorem acceptHi_cases (c : Nat) :
    (c = 0xED ∧ acceptHi c = 0x9F) ∨ (c = 0xF4 ∧ acceptHi c = 0x8F) ∨
      (c ≠ 0xED ∧ c ≠ 0xF4 ∧ acceptHi c = 0xBF) := by
  unfold acceptHi
  split_ifs with h1 h2
  · exact Or.inl ⟨h1, rfl⟩
  · exact Or.inr (Or.inl ⟨h2, rfl⟩)
  · exact Or.inr (Or.inr ⟨h1, h2, rfl⟩)

/-- A rune that decodes without error is followed by the rest of the string, and it is
encoded by the bytes that were decoded. -/
theorem decodeRune_take (c : Nat) (t : GoString)
    (h : decodeRune (c :: t) ≠ (RuneError, 1)) :
    c :: t = encodeRune (decodeRune (c :: t)).1 ++ (c :: t).drop (decodeRune (c :: t)).2 := by
  rcases decodeRune_cases c t with h0 | ⟨h1, h2⟩ | ⟨s1, t1, rfl, h1, h2, h3⟩ |
    ⟨s1, s2, t2, rfl, h1, h2, h3, h4⟩ | ⟨s1, s2, s3, t3, rfl, h1, h2, h3, h4, h5⟩
  · exact absurd h0 h
  · rw [h2]
    unfold encodeRune
    rw [if_pos h1]
    rfl
  · rw [h3]
    unfold encodeRune
    rw [if_neg (by omega), if_pos (by omega)]
    simp only [List.drop_succ_cons, List.drop_zero, List.cons_append, List.nil_append]
    congr 1
    · omega
    · congr 1
      omega
  · rw [h4]
    have hlo := acceptLo_cases c
    have hhi := acceptHi_cases c
    unfold encodeRune
    rw [if_neg (by omega), if_neg (by omega), if_neg (by omega), if_pos (by omega)]
    simp only [List.drop_succ_cons, List.drop_zero, List.cons_append, List.nil_append]
    congr 1
    · omega
    · congr 1
      · omega
      · congr 1
        omega
  · rw [h5]
    have hlo := acceptLo_cases c
    have hhi := acceptHi_cases c
    unfold encodeRune
    rw [if_neg (by omega), if_neg (by omega), if_neg (by omega), if_neg (by omega)]
    simp only [List.drop_succ_cons, List.drop_zero, List.cons_append, List.nil_append]
    congr 1
    · omega
    · congr 1
      · omega
      · congr 1
        · omega
        · congr 1
          omega

theorem IsValid_nil : IsValid [] := ⟨[], by simp, rfl⟩

theorem IsValid_encodeRunes (rs : List Nat) (h : ∀ r ∈ rs, IsScalar r) :
    IsValid (encodeRunes rs) := ⟨rs, h, rfl⟩

theorem IsValid_append (a b : GoString) (ha : IsValid a) (hb : IsValid b) :
    IsValid (a ++ b) := by
  obtain ⟨ra, hra, rfl⟩ := ha
  obtain ⟨rb, hrb, rfl⟩ := hb
  refine ⟨ra ++ rb, ?_, (encodeRunes_append ra rb).symm⟩
  intro r hr
  rcases List.mem_append.1 hr with h | h
  · exact hra r h
  · exact hrb r h

theorem validFuel_isValid (n : Nat) :
    ∀ s : GoString, s.length ≤ n → validFuel n s = true → IsValid s := by
  induction n with
  | zero =>
    intro s hs _
    have : s = [] := List.length_eq_zero.1 (by omega)
    rw [this]
    exact IsValid_nil
  | succ n ih =>
    intro s hs hv
    cases s with
    | nil => exact IsValid_nil
    | cons c t =>
      rw [validFuel] at hv
      split_ifs at hv with h1
      have hne : decodeRune (c :: t) ≠ (RuneError, 1) := by
        intro h
        rw [h] at h1
        exact h1 ⟨rfl, rfl⟩
      have hw := decodeRune_width c t
      have htake := decodeRune_take c t hne
      have hrest := ih ((c :: t).drop (decodeRune (c :: t)).2)
        (by simp only [List.length_drop, List.length_cons] at hs ⊢; omega) hv
      rw [htake]
      exact IsValid_append _ _
        ⟨[(decodeRune (c :: t)).1], by simp [decodeRune_scalar], by simp [encodeRunes]⟩ hrest

theorem ValidString_isValid (s : GoString) (h : ValidString s = true) : IsValid s :=
  validFuel_isValid s.length s le_rfl h

theorem IsValid_TrimSpace (s : GoString) (h : IsValid s) : IsValid (TrimSpace s) := by
  obtain ⟨rs, hrs, rfl⟩ := h
  rw [TrimSpace_encodeRunes rs hrs]
  exact ⟨_, fun r hr => hrs r (trimRunes_sublist rs r hr), rfl⟩

theorem runes_of_valid_append (a b : GoString) (ha : IsValid a) :
    runes (a ++ b) = runes a ++ runes b := by
  obtain ⟨ra, hra, rfl⟩ := ha
  rw [runes_encodeRunes_append ra hra, runes_encodeRunes ra hra]

theorem noSpace_append (a b : GoString) (ha : IsValid a) :
    noSpace (a ++ b) = noSpace a ++ noSpace b := by
  unfold noSpace
  rw [runes_of_valid_append a b ha, List.filter_append, encodeRunes_append]

theorem filter_dropWhile_not (l : List Nat) :
    (l.dropWhile isSpace).filter (fun r => !isSpace r) = l.filter (fun r => !isSpace r) := by
  induction l with
  | nil => rfl
  | cons a t ih =>
    rw [List.dropWhile_cons]
    split_ifs with h
    · rw [ih, List.filter_cons_of_neg (by simp [h])]
    · rfl

theorem filter_rdropWhile_not (l : List Nat) :
    (l.rdropWhile isSpace).filter (fun r => !isSpace r) = l.filter (fun r => !isSpace r) := by
  induction l using List.reverseRecOn with
  | nil => rfl
  | append_singleton t a ih =>
    rw [List.rdropWhile_concat]
    split_ifs with h
    · rw [ih, List.filter_append, List.filter_cons_of_neg (by simp [h]), List.filter_nil,
        List.append_nil]
    · rfl

theorem noSpace_TrimSpace (s : GoString) (h : IsValid s) : noSpace (TrimSpace s) = noSpace s := by
  obtain ⟨rs, hrs, rfl⟩ := h
  unfold noSpace
  rw [TrimSpace_encodeRunes rs hrs, runes_encodeRunes rs hrs,
    runes_encodeRunes _ (fun r hr => hrs r (trimRunes_sublist rs r hr))]
  unfold trimRunes
  rw [filter_rdropWhile_not, filter_dropWhile_not]

theorem noSpace_nil : noSpace [] = [] := rfl

theorem noSpace_eq_nil_of_TrimSpace (s : GoString) (h : IsValid s) (ht : TrimSpace s = []) :
    noSpace s = [] := by
  rw [← noSpace_TrimSpace s h, ht]
  rfl

/-! ## The pieces of a valid text are valid, and joining them gives the text back -/

theorem encodeRune_head_start (r : Nat) :
    ∀ b ∈ (encodeRune r).head?, RuneStart b = true := by
  unfold encodeRune
  intro b hb
  split_ifs at hb <;> simp at hb <;> subst hb <;> simp [RuneStart] <;> omega

theorem encodeRune_tail_cont (r : Nat) : ∀ b ∈ (encodeRune r).tail, RuneStart b = false := by
  unfold encodeRune
  intro b hb
  split_ifs at hb <;> simp at hb
  · subst hb
    simp [RuneStart]
    omega
  · rcases hb with h | h <;> subst h <;> simp [RuneStart]
  · rcases hb with h | h <;> subst h <;> simp [RuneStart] <;> omega
  · rcases hb with h | h | h <;> subst h <;> simp [RuneStart] <;> omega

theorem IsValid_head_start (s : GoString) (h : IsValid s) :
    ∀ b ∈ s.head?, RuneStart b = true := by
  obtain ⟨rs, hrs, rfl⟩ := h
  cases rs with
  | nil => simp [encodeRunes]
  | cons r rest =>
    intro b hb
    rw [encodeRunes_cons] at hb
    have hne := encodeRune_ne_nil r
    cases he : encodeRune r with
    | nil => exact absurd he hne
    | cons c t =>
      rw [he, List.cons_append, List.head?_cons] at hb
      apply encodeRune_head_start r
      rw [he, List.head?_cons]
      exact hb

/-- A valid string cut where a rune starts gives two valid strings. -/
theorem IsValid_cut (rs : List Nat) (hrs : ∀ r ∈ rs, IsScalar r) :
    ∀ x y : GoString, x ++ y = encodeRunes rs → (∀ b ∈ y.head?, RuneStart b = true) →
      IsValid x ∧ IsValid y := by
  induction rs with
  | nil =>
    intro x y h _
    rw [encodeRunes_nil, List.append_eq_nil] at h
    rw [h.1, h.2]
    exact ⟨IsValid_nil, IsValid_nil⟩
  | cons r rest ih =>
    intro x y h hy
    have hr := hrs r (List.mem_cons_self _ _)
    have hrest : ∀ q ∈ rest, IsScalar q := fun q hq => hrs q (List.mem_cons_of_mem _ hq)
    rw [encodeRunes_cons] at h
    rcases List.append_eq_append_iff.1 h with ⟨a, h1, h2⟩ | ⟨c, h1, h2⟩
    · -- the encoding of `r` is `x ++ a`
      cases a with
      | nil =>
        rw [List.append_nil] at h1
        rw [List.nil_append] at h2
        rw [← h1, h2]
        exact ⟨⟨[r], by simpa using hr, by simp [encodeRunes]⟩, IsValid_encodeRunes rest hrest⟩
      | cons b a2 =>
        cases x with
        | nil =>
          rw [List.nil_append] at h
          rw [h, ← encodeRunes_cons]
          exact ⟨IsValid_nil, IsValid_encodeRunes _ hrs⟩
        | cons x0 x2 =>
          exfalso
          have hb : RuneStart b = true := by
            apply hy
            rw [h2, List.cons_append, List.head?_cons]
            rfl
          have hb2 : RuneStart b = false := by
            apply encodeRune_tail_cont r
            rw [h1, List.cons_append, List.tail_cons]
            exact List.mem_append_right _ (List.mem_cons_self _ _)
          rw [hb] at hb2
          exact absurd hb2 (by decide)
    · -- `x` is the encoding of `r` followed by `c`
      obtain ⟨hc, hy2⟩ := ih hrest c y h2.symm hy
      rw [h1]
      exact ⟨IsValid_append _ _ ⟨[r], by simpa using hr, by simp [encodeRunes]⟩ hc, hy2⟩

theorem IsValid_of_append_left (x y : GoString) (hxy : IsValid (x ++ y)) (hx : IsValid x) :
    IsValid y := by
  obtain ⟨rs, hrs, h⟩ := hxy
  have h1 : runes (x ++ y) = rs := by rw [h, runes_encodeRunes rs hrs]
  rw [runes_of_valid_append x y hx] at h1
  obtain ⟨rx, hrx, rfl⟩ := hx
  rw [runes_encodeRunes rx hrx] at h1
  rw [← h1, encodeRunes_append] at h
  exact ⟨runes y, runes_scalar y, List.append_cancel_left h⟩

theorem isPrefixOf_eq_append (sep s : GoString) (h : sep.isPrefixOf s = true) :
    s = sep ++ s.drop sep.length := by
  have := List.isPrefixOf_iff_prefix.1 h
  obtain ⟨t, rfl⟩ := this
  rw [List.drop_left]

theorem stringsSplitFuel_valid (sep : GoString) (hsep : IsValid sep) (hne : sep ≠ [])
    (n : Nat) :
    ∀ (s cur : GoString), IsValid (cur ++ s) →
      ∀ p ∈ stringsSplitFuel sep n s cur, IsValid p := by
  induction n with
  | zero =>
    intro s cur h p hp
    simp only [stringsSplitFuel, List.mem_singleton] at hp
    rw [hp]
    exact h
  | succ n ih =>
    intro s cur h p hp
    cases s with
    | nil =>
      simp only [stringsSplitFuel, List.mem_singleton] at hp
      rw [hp]
      rwa [List.append_nil] at h
    | cons c t =>
      simp only [stringsSplitFuel] at hp
      split at hp
      · rename_i hpre
        have hs := isPrefixOf_eq_append sep (c :: t) hpre
        obtain ⟨rs, hrs, hrs2⟩ := h
        have hstart : ∀ b ∈ (c :: t).head?, RuneStart b = true := by
          intro b hb
          apply IsValid_head_start sep hsep
          rw [hs] at hb
          cases sep with
          | nil => exact absurd rfl hne
          | cons s0 s1 =>
            rw [List.cons_append, List.head?_cons] at hb
            rw [List.head?_cons]
            exact hb
        obtain ⟨hcur, hct⟩ := IsValid_cut rs hrs cur (c :: t) hrs2 hstart
        rcases List.mem_cons.1 hp with h1 | h1
        · rw [h1]
          exact hcur
        · apply ih _ [] _ p h1
          rw [List.nil_append]
          rw [hs] at hct
          exact IsValid_of_append_left sep _ hct hsep
      · apply ih t (cur ++ [c]) _ p hp
        rwa [List.append_assoc, List.singleton_append]

theorem stringsSplit_valid (text sep : GoString) (ht : IsValid text) (hsep : IsValid sep)
    (hne : sep ≠ []) : ∀ p ∈ stringsSplit text sep, IsValid p :=
  stringsSplitFuel_valid sep hsep hne _ text [] (by rwa [List.nil_append])

theorem stringsSplitFuel_ne_nil (sep : GoString) (n : Nat) :
    ∀ (s cur : GoString), stringsSplitFuel sep n s cur ≠ [] := by
  induction n with
  | zero => intro s cur; simp [stringsSplitFuel]
  | succ n ih =>
    intro s cur
    cases s with
    | nil => simp [stringsSplitFuel]
    | cons c t =>
      simp only [stringsSplitFuel]
      split
      · simp
      · exact ih _ _

theorem stringsJoin_cons (sep a : GoString) (l : List GoString) (h : l ≠ []) :
    stringsJoin sep (a :: l) = a ++ sep ++ stringsJoin sep l := by
  cases l with
  | nil => exact absurd rfl h
  | cons b t => rfl

theorem stringsJoin_splitFuel (sep : GoString) (n : Nat) :
    ∀ (s cur : GoString), stringsJoin sep (stringsSplitFuel sep n s cur) = cur ++ s := by
  induction n with
  | zero => intro s cur; simp [stringsSplitFuel, stringsJoin]
  | succ n ih =>
    intro s cur
    cases s with
    | nil => simp [stringsSplitFuel, stringsJoin]
    | cons c t =>
      simp only [stringsSplitFuel]
      split
      · rename_i hpre
        rw [stringsJoin_cons _ _ _ (stringsSplitFuel_ne_nil _ _ _ _), ih, List.nil_append,
          List.append_assoc, ← isPrefixOf_eq_append sep (c :: t) hpre]
      · rw [ih, List.append_assoc, List.singleton_append]

/-- Joining the pieces of `strings.Split` with the separator gives the text back. -/
theorem stringsJoin_stringsSplit (text sep : GoString) :
    stringsJoin sep (stringsSplit text sep) = text :=
  stringsJoin_splitFuel sep _ text []

/-! ## No character is lost without overlap -/

theorem stringsJoin_cons_cons (sep a b : GoString) (l : List GoString) :
    stringsJoin sep (a :: b :: l) = a ++ sep ++ stringsJoin sep (b :: l) := rfl

theorem stringsJoin_singleton (sep a : GoString) : stringsJoin sep [a] = a := rfl

theorem stringsJoin_append (sep : GoString) (l1 l2 : List GoString) (h1 : l1 ≠ [])
    (h2 : l2 ≠ []) :
    stringsJoin sep (l1 ++ l2) = stringsJoin sep l1 ++ sep ++ stringsJoin sep l2 := by
  induction l1 with
  | nil => exact absurd rfl h1
  | cons a t ih =>
    cases t with
    | nil =>
      rw [List.singleton_append, stringsJoin_cons sep a l2 h2, stringsJoin_singleton]
    | cons b t2 =>
      rw [List.cons_append, stringsJoin_cons sep a _ (by simp), ih (by simp),
        stringsJoin_cons_cons sep a b t2]
      simp only [List.append_assoc]

theorem stringsJoin_merge (sep a b : GoString) (A X : List GoString) :
    stringsJoin sep (A ++ [a ++ sep ++ b] ++ X) = stringsJoin sep (A ++ [a] ++ b :: X) := by
  have e1 : stringsJoin sep ([a ++ sep ++ b] ++ X) = stringsJoin sep ([a] ++ b :: X) := by
    cases X with
    | nil => rfl
    | cons x X2 =>
      rw [List.singleton_append, List.singleton_append,
        stringsJoin_cons_cons sep (a ++ sep ++ b) x X2, stringsJoin_cons_cons sep a b (x :: X2),
        stringsJoin_cons_cons sep b x X2]
      simp only [List.append_assoc]
  cases A with
  | nil => simpa using e1
  | cons c A2 =>
    rw [List.append_assoc (c :: A2) [a ++ sep ++ b] X, List.append_assoc (c :: A2) [a] (b :: X),
      stringsJoin_append sep (c :: A2) ([a ++ sep ++ b] ++ X) (by simp) (by simp),
      stringsJoin_append sep (c :: A2) ([a] ++ b :: X) (by simp) (by simp), e1]

theorem noSpace_stringsJoin (sep : GoString) (hsep : IsValid sep) (l : List GoString)
    (hl : ∀ a ∈ l, IsValid a) :
    noSpace (stringsJoin sep l) = stringsJoin (noSpace sep) (l.map noSpace) := by
  induction l with
  | nil => rfl
  | cons a t ih =>
    cases t with
    | nil => rfl
    | cons b t2 =>
      rw [stringsJoin_cons_cons sep a b t2, List.map_cons, List.map_cons,
        stringsJoin_cons_cons, List.append_assoc,
        noSpace_append a _ (hl a (List.mem_cons_self _ _)), noSpace_append sep _ hsep,
        ih (fun c hc => hl c (List.mem_cons_of_mem _ hc)), List.append_assoc, List.map_cons]

theorem keptPieces_blank (p : GoString) (rest : List GoString) (h : TrimSpace p = []) :
    keptPieces (p :: rest) = keptPieces rest := by
  unfold keptPieces
  rw [List.map_cons, List.filter_cons_of_neg (by simp [h])]

theorem keptPieces_kept (p : GoString) (rest : List GoString) (h : TrimSpace p ≠ []) :
    keptPieces (p :: rest) = TrimSpace p :: keptPieces rest := by
  unfold keptPieces
  rw [List.map_cons, List.filter_cons_of_pos (by simp [h])]

theorem bufferList_nil : bufferList [] = [] := rfl

theorem bufferList_of_ne_nil (cur : GoString) (h : cur ≠ []) : bufferList cur = [cur] := by
  unfold bufferList
  rw [if_neg h]

theorem overlapSeed_of_nonpos (cfg : Options) (sep : GoString) (chunks : List GoString)
    (h : cfg.ChunkOverlap ≤ 0) : overlapSeed cfg sep chunks = [] := by
  unfold overlapSeed
  rw [if_neg (by omega)]

theorem writePiece_nil (sep : GoString) (i : Nat) (p : GoString) : writePiece sep i [] p = p := by
  unfold writePiece
  rw [if_neg (by simp), List.nil_append]

theorem writePiece_of_ne_nil (sep : GoString) (i : Nat) (cur p : GoString) (hcur : cur ≠ [])
    (hsep : sep ≠ []) (hi : 0 < i) : writePiece sep i cur p = cur ++ sep ++ p := by
  unfold writePiece
  rw [if_pos ⟨List.length_pos.2 hcur, hsep, hi⟩]

/-- Without overlap, the chunks the merging loop returns, joined with the separator and
white space removed, are the completed chunks, the buffer and the pieces kept, joined
with the separator and white space removed. -/
theorem mergeLoop_noSpace (cfg : Options) (hco : cfg.ChunkOverlap ≤ 0) (sep : GoString)
    (hsep : sep ≠ []) (hvs : IsValid sep) (recur : GoString → Outcome (List GoString))
    (splits : List GoString) :
    ∀ (i : Nat) (chunks : List GoString) (cur : GoString),
      (∀ p ∈ splits, IsValid p ∧ ((TrimSpace p).length : Int) ≤ cfg.ChunkSize) →
      (∀ c ∈ chunks, IsValid c) → IsValid cur → (cur ≠ [] → 0 < i) →
      ∃ out, mergeLoop cfg sep recur splits i chunks cur = .done out ∧
        (∀ c ∈ out, IsValid c) ∧
        stringsJoin (noSpace sep) (out.map noSpace)
          = stringsJoin (noSpace sep)
              ((chunks ++ bufferList cur ++ keptPieces splits).map noSpace) := by
  induction splits with
  | nil =>
    intro i chunks cur _ hch hcur _
    refine ⟨_, mergeLoop_nil _ _ _ _ _ _, ?_, ?_⟩
    · intro c hc
      by_cases hne : cur = []
      · rw [hne, flushBuffer_nil] at hc
        exact hch c hc
      · rw [flushBuffer_of_ne_nil _ _ hne] at hc
        rcases List.mem_append.1 hc with h | h
        · exact hch c h
        · rw [List.mem_singleton.1 h]
          exact IsValid_TrimSpace cur hcur
    · by_cases hne : cur = []
      · rw [hne, flushBuffer_nil, bufferList_nil]
        simp [keptPieces]
      · rw [flushBuffer_of_ne_nil _ _ hne, bufferList_of_ne_nil _ hne]
        simp [keptPieces, noSpace_TrimSpace cur hcur]
  | cons p0 rest ih =>
    intro i chunks cur hfit hch hcur hi
    have hrest : ∀ q ∈ rest, IsValid q ∧ ((TrimSpace q).length : Int) ≤ cfg.ChunkSize :=
      fun q hq => hfit q (List.mem_cons_of_mem _ hq)
    obtain ⟨hp0, hlen⟩ := hfit p0 (List.mem_cons_self _ _)
    have hnext : ∀ c : GoString, c ≠ [] → 0 < i + 1 := fun _ _ => Nat.succ_pos _
    by_cases h1 : TrimSpace p0 = []
    · rw [mergeLoop_blank _ _ _ _ _ _ _ _ h1, keptPieces_blank _ _ h1]
      exact ih _ _ _ hrest hch hcur (hnext cur)
    · have h2 : ¬ ((TrimSpace p0).length : Int) > cfg.ChunkSize := by omega
      have hpv : IsValid (TrimSpace p0) := IsValid_TrimSpace p0 hp0
      rw [keptPieces_kept _ _ h1]
      by_cases h3 : newSize sep cur (TrimSpace p0) > cfg.ChunkSize
      · have hne : cur ≠ [] :=
          List.length_pos.1 (newSize_pos_of_overflow cfg sep cur _ h2 h3)
        rw [mergeLoop_overflow _ _ _ _ _ _ _ _ h1 h2 h3, flushBuffer_of_ne_nil _ _ hne,
          overlapSeed_of_nonpos _ _ _ hco, writePiece_nil]
        obtain ⟨out, ho1, ho2, ho3⟩ := ih (i + 1) (chunks ++ [TrimSpace cur]) (TrimSpace p0)
          hrest (by
            intro c hc
            rcases List.mem_append.1 hc with h | h
            · exact hch c h
            · rw [List.mem_singleton.1 h]
              exact IsValid_TrimSpace cur hcur) hpv (hnext _)
        refine ⟨out, ho1, ho2, ?_⟩
        rw [ho3, bufferList_of_ne_nil _ h1, bufferList_of_ne_nil _ hne]
        simp [noSpace_TrimSpace cur hcur]
      · rw [mergeLoop_append _ _ _ _ _ _ _ _ h1 h2 h3]
        by_cases hne : cur = []
        · subst hne
          rw [writePiece_nil]
          obtain ⟨out, ho1, ho2, ho3⟩ := ih (i + 1) chunks (TrimSpace p0) hrest hch hpv
            (hnext _)
          refine ⟨out, ho1, ho2, ?_⟩
          rw [ho3, bufferList_of_ne_nil _ h1, bufferList_nil]
          simp
        · rw [writePiece_of_ne_nil sep i cur _ hne hsep (hi hne)]
          have hv2 : IsValid (cur ++ sep ++ TrimSpace p0) :=
            IsValid_append _ _ (IsValid_append _ _ hcur hvs) hpv
          obtain ⟨out, ho1, ho2, ho3⟩ := ih (i + 1) chunks (cur ++ sep ++ TrimSpace p0) hrest
            hch hv2 (hnext _)
          refine ⟨out, ho1, ho2, ?_⟩
          rw [ho3, bufferList_of_ne_nil _ (by simp [hne]), bufferList_of_ne_nil _ hne]
          simp only [List.map_append, List.map_cons, List.map_nil]
          rw [List.append_assoc cur, noSpace_append cur _ hcur, noSpace_append sep _ hvs,
            ← List.append_assoc]
          exact stringsJoin_merge _ _ _ _ _

theorem map_noSpace_keptPieces (l : List GoString) (hl : ∀ p ∈ l, IsValid p) :
    (keptPieces l).map noSpace
      = (l.filter (fun p => decide (TrimSpace p ≠ []))).map noSpace := by
  induction l with
  | nil => rfl
  | cons p rest ih =>
    have hrest := ih (fun q hq => hl q (List.mem_cons_of_mem _ hq))
    by_cases h : TrimSpace p = []
    · rw [keptPieces_blank _ _ h, List.filter_cons_of_neg (by simp [h]), hrest]
    · rw [keptPieces_kept _ _ h, List.filter_cons_of_pos (by simp [h]), List.map_cons,
        List.map_cons, hrest, noSpace_TrimSpace p (hl p (List.mem_cons_self _ _))]

/-- **C9** (amended).  For `ChunkOverlap = 0`, `ChunkSize > 0`, a non-empty separator and a
text, both valid UTF-8, such that every piece of the text fits in `ChunkSize`:
`splitText` returns chunks; when the text is longer than `ChunkSize`, the chunks joined
with the separator, white space removed, are the pieces that are not blank joined with the
separator, white space removed (a separator next to a blank piece is dropped); and when no
piece is blank, the chunks joined with the separator, white space removed, are the text
with its white space removed. -/
theorem splitText_no_loss (cfg : Options) (fuel : Nat) (text sep : GoString)
    (rest : List GoString) (hcs : 0 < cfg.ChunkSize) (hco : cfg.ChunkOverlap = 0)
    (hsep : sep ≠ []) (hvt : ValidString text = true) (hvs : ValidString sep = true)
    (hfit : ∀ p ∈ splitPieces text sep, (p.length : Int) ≤ cfg.ChunkSize) :
    ∃ chunks, splitText cfg fuel text (sep :: rest) = .done chunks ∧
      (cfg.ChunkSize < (text.length : Int) →
        noSpace (stringsJoin sep chunks)
          = noSpace (stringsJoin sep
              ((splitPieces text sep).filter (fun p => decide (TrimSpace p ≠ []))))) ∧
      ((∀ p ∈ splitPieces text sep, TrimSpace p ≠ []) →
        noSpace (stringsJoin sep chunks) = noSpace text) := by
  have hvt2 := ValidString_isValid text hvt
  have hvs2 := ValidString_isValid sep hvs
  have hpieces : splitPieces text sep = stringsSplit text sep := by
    unfold splitPieces
    rw [if_neg hsep]
  have hpv : ∀ p ∈ splitPieces text sep, IsValid p := by
    rw [hpieces]
    exact stringsSplit_valid text sep hvt2 hvs2 hsep
  by_cases h0 : text = []
  · refine ⟨[], ?_, ?_, fun _ => ?_⟩
    · rw [h0, splitText_empty]
    · intro h
      rw [h0] at h
      simp only [List.length_nil, Nat.cast_zero] at h
      omega
    · rw [h0]
      rfl
  by_cases h1 : (text.length : Int) ≤ cfg.ChunkSize
  · refine ⟨[TrimSpace text], splitText_short cfg fuel text _ h0 h1, fun h => by omega,
      fun _ => ?_⟩
    rw [stringsJoin_singleton, noSpace_TrimSpace text hvt2]
  · obtain ⟨out, ho1, ho2, ho3⟩ := mergeLoop_noSpace cfg (by omega) sep hsep hvs2
      (fun piece => splitText cfg fuel piece rest) (splitPieces text sep) 0 [] []
      (fun p hp => ⟨hpv p hp, by
        have := hfit p hp
        have := TrimSpace_length_le p
        omega⟩) (by simp) IsValid_nil (fun h => absurd rfl h)
    rw [bufferList_nil, List.nil_append, List.nil_append] at ho3
    have hlong : noSpace (stringsJoin sep out)
        = noSpace (stringsJoin sep
            ((splitPieces text sep).filter (fun p => decide (TrimSpace p ≠ [])))) := by
      rw [noSpace_stringsJoin sep hvs2 out ho2, ho3,
        noSpace_stringsJoin sep hvs2 _ (fun p hp => hpv p (List.mem_of_mem_filter hp)),
        map_noSpace_keptPieces _ hpv]
    refine ⟨out, ?_, fun _ => hlong, fun hnb => ?_⟩
    · rw [splitText_long cfg fuel text sep rest (by omega) (le_of_lt hcs)]
      exact ho1
    · rw [hlong, List.filter_eq_self.2 (fun p hp => by simp [hnb p hp]), hpieces,
        stringsJoin_stringsSplit]

/-- Witness of `splitText_no_loss`: the text `"a b, c,d"` cut on `","` with `ChunkSize = 4`
and no overlap. -/
theorem splitText_no_loss_witness :
    (0 < (⟨4, 0, []⟩ : Options).ChunkSize ∧ (⟨4, 0, []⟩ : Options).ChunkOverlap = 0 ∧
      ([44] : GoString) ≠ [] ∧ ValidString [97, 32, 98, 44, 32, 99, 44, 100] = true ∧
      ValidString [44] = true ∧
      ∀ p ∈ splitPieces [97, 32, 98, 44, 32, 99, 44, 100] [44],
        (p.length : Int) ≤ (⟨4, 0, []⟩ : Options).ChunkSize) ∧
    ∃ chunks, splitText ⟨4, 0, []⟩ 0 [97, 32, 98, 44, 32, 99, 44, 100] ([44] :: []) = .done chunks ∧
      ((⟨4, 0, []⟩ : Options).ChunkSize
          < (([97, 32, 98, 44, 32, 99, 44, 100] : GoString).length : Int) →
        noSpace (stringsJoin [44] chunks)
          = noSpace (stringsJoin [44]
              ((splitPieces [97, 32, 98, 44, 32, 99, 44, 100] [44]).filter
                (fun p => decide (TrimSpace p ≠ []))))) ∧
      ((∀ p ∈ splitPieces [97, 32, 98, 44, 32, 99, 44, 100] [44], TrimSpace p ≠ []) →
        noSpace (stringsJoin [44] chunks) = noSpace [97, 32, 98, 44, 32, 99, 44, 100]) :=
  ⟨by decide,
    splitText_no_loss ⟨4, 0, []⟩ 0 [97, 32, 98, 44, 32, 99, 44, 100] [44] [] (by decide)
      (by decide) (by decide) (by decide) (by decide) (by decide)⟩

/-- **C9**, counterexample.  With `ChunkSize = 3`, no overlap and separator `","`, the
pieces of `"a,,b"` are `"a"`, `""`, `"b"`, all within `ChunkSize`; `splitText` returns the
single chunk `"a,b"`: the empty piece is skipped and one of the two separators is lost.
And on bytes that are not valid UTF-8 the property fails without any blank piece: with
`ChunkSize = 4` and the separator `C2`, the text `61 C2 20 85 62` gives the chunk
`61 C2 85 62`, in which the separator and the byte `85` form the white space U+0085. -/
theorem splitText_no_loss_counterexample :
    ((0 : Int) < 3 ∧ ([44] : GoString) ≠ [] ∧
      (∀ p ∈ splitPieces [97, 44, 44, 98] [44], (p.length : Int) ≤ 3) ∧
      splitText ⟨3, 0, []⟩ 0 [97, 44, 44, 98] [[44]] = .done [[97, 44, 98]] ∧
      noSpace (stringsJoin [44] [[97, 44, 98]]) = [97, 44, 98] ∧
      noSpace [97, 44, 44, 98] = [97, 44, 44, 98] ∧
      noSpace (stringsJoin [44] [[97, 44, 98]]) ≠ noSpace [97, 44, 44, 98]) ∧
    ((0 : Int) < 4 ∧ ([0xC2] : GoString) ≠ [] ∧
      ValidString [0x61, 0xC2, 0x20, 0x85, 0x62] = false ∧
      (∀ p ∈ splitPieces [0x61, 0xC2, 0x20, 0x85, 0x62] [0xC2],
        (p.length : Int) ≤ 4 ∧ TrimSpace p ≠ []) ∧
      splitText ⟨4, 0, []⟩ 0 [0x61, 0xC2, 0x20, 0x85, 0x62] [[0xC2]]
        = .done [[0x61, 0xC2, 0x85, 0x62]] ∧
      noSpace (stringsJoin [0xC2] [[0x61, 0xC2, 0x85, 0x62]]) = [0x61, 0x62] ∧
      noSpace (stringsJoin [0xC2] [[0x61, 0xC2, 0x85, 0x62]])
        ≠ noSpace [0x61, 0xC2, 0x20, 0x85, 0x62]) := by
  decide


/-! ## The scenario `"A. B. C."` of the specification -/

/-- The run of `splitText` on `"A. B. C."` with `ChunkSize = 5`, no overlap and the
separator `". "`: the pieces are `"A"`, `"B"`, `"C."`; the first two are merged (size 4),
the third would make 8 and starts a new chunk. -/
theorem splitText_sentences_eval (fuel : Nat) :
    splitText ⟨5, 0, []⟩ fuel [65, 46, 32, 66, 46, 32, 67, 46] [[46, 32]]
      = .done [[65, 46, 32, 66], [67, 46]] := by
  rw [splitText_cons_eq, if_neg (by decide), if_neg (by decide)]
  have hp : splitPieces [65, 46, 32, 66, 46, 32, 67, 46] [46, 32] = [[65], [66], [67, 46]] := by
    decide
  have h1 : TrimSpace [65] = [65] := by decide
  have h2 : TrimSpace [66] = [66] := by decide
  have h3 : TrimSpace [67, 46] = [67, 46] := by decide
  rw [hp, mergeLoop_append _ _ _ _ _ _ _ _ (by rw [h1]; decide) (by rw [h1]; decide)
      (by rw [h1]; decide),
    mergeLoop_append _ _ _ _ _ _ _ _ (by rw [h2]; decide) (by rw [h2]; decide)
      (by rw [h1, h2]; decide),
    mergeLoop_overflow _ _ _ _ _ _ _ _ (by rw [h3]; decide) (by rw [h3]; decide)
      (by rw [h1, h2, h3]; decide), mergeLoop_nil]
  decide

/-- **C14**, counterexample.  For `"A. B. C."`, `ChunkSize = 5`, `ChunkOverlap = 0` and the
separator `". "`, `splitText` returns two chunks, `"A. B"` and `"C."`, not the three chunks
`"A"`, `"B"`, `"C."`. -/
theorem splitText_sentences_counterexample :
    splitText ⟨5, 0, []⟩ 9 [65, 46, 32, 66, 46, 32, 67, 46] [[46, 32]]
      = .done [[65, 46, 32, 66], [67, 46]] ∧
    splitText ⟨5, 0, []⟩ 9 [65, 46, 32, 66, 46, 32, 67, 46] [[46, 32]]
      ≠ .done [[65], [66], [67, 46]] := by
  rw [splitText_sentences_eval]
  exact ⟨rfl, by decide⟩

/-- **C14** (amended).  For `"A. B. C."`, `ChunkSize = 5`, `ChunkOverlap = 0` and the
separator `". "`, `splitText` returns, for every iteration budget, exactly the two chunks
`"A. B"` and `"C."`: the pieces are `"A"`, `"B"` and `"C."`, the pieces `"A"` and `"B"`
are merged since with the separator they make 4 bytes, and `"C."` would make 8.  No chunk
exceeds 5 bytes (or 5 characters). -/
theorem splitText_sentences :
    splitPieces [65, 46, 32, 66, 46, 32, 67, 46] [46, 32] = [[65], [66], [67, 46]] ∧
    newSize [46, 32] [65] [66] = 4 ∧ newSize [46, 32] [65, 46, 32, 66] [67, 46] = 8 ∧
    (∀ fuel, splitText ⟨5, 0, []⟩ fuel [65, 46, 32, 66, 46, 32, 67, 46] [[46, 32]]
      = .done [[65, 46, 32, 66], [67, 46]]) ∧
    ∀ c ∈ ([[65, 46, 32, 66], [67, 46]] : List GoString),
      c.length ≤ 5 ∧ (runes c).length ≤ 5 := by
  refine ⟨by decide, by decide, by decide, fun fuel => splitText_sentences_eval fuel, ?_⟩
  intro c hc
  simp only [List.mem_cons, List.mem_singleton, List.not_mem_nil, or_false] at hc
  rcases hc with rfl | rfl
  · decide
  · decide

/-! ## Default options -/

/-- **C15**, counterexample.  An `Options` value passed to `NewSplitter` is used as it is:
with `ChunkSize` and `Separators` left unset (zero, nil) and `ChunkOverlap = 50`, the
splitter has `ChunkSize = 0`, not 1000, and no separator, not the default list. -/
theorem NewSplitter_counterexample :
    (NewSplitter [⟨0, 50, []⟩]).opts.ChunkSize = 0 ∧
    (NewSplitter [⟨0, 50, []⟩]).opts.ChunkSize ≠ 1000 ∧
    (NewSplitter [⟨0, 50, []⟩]).opts.Separators = [] ∧
    (NewSplitter [⟨0, 50, []⟩]).opts.Separators ≠ DefaultOptions.Separators := by
  decide

/-- **C15** (amended).  A splitter built by `NewSplitter` with no `Options` has the default
options: `ChunkSize = 1000`, `ChunkOverlap = 200` and the default list of 14 separators,
which ends with the empty string, and `ChunkOverlap < ChunkSize`.  When `Options` values
are passed, the splitter has the first one, unchanged: no field of it is replaced by a
default. -/
theorem NewSplitter_options :
    (NewSplitter []).opts = DefaultOptions ∧
    (NewSplitter []).opts.ChunkSize = 1000 ∧ (NewSplitter []).opts.ChunkOverlap = 200 ∧
    (NewSplitter []).opts.Separators.length = 14 ∧
    (NewSplitter []).opts.Separators.getLast? = some [] ∧
    (0 < (NewSplitter []).opts.ChunkSize ∧ 0 ≤ (NewSplitter []).opts.ChunkOverlap ∧
      (NewSplitter []).opts.ChunkOverlap < (NewSplitter []).opts.ChunkSize) ∧
    ∀ (o : Options) (more : List Options), (NewSplitter (o :: more)).opts = o := by
  refine ⟨rfl, rfl, rfl, rfl, rfl, by decide, fun o more => rfl⟩

/-! ## Cancellation -/

/-- The loop of `Split` when the context is done before document number `j + pre.length`
and not before: the documents of `pre` are split, then the error of the context is
returned with the nil slice, whatever had been collected. -/
theorem SplitLoop_cancelled (s : Splitter) (fuel : Nat) (ctx : Context) (err : CtxError)
    (d : Document) (post : List Document) (pre : List Document) :
    ∀ (j : Nat) (result : List Document),
      (∀ i < pre.length, ctx (j + i) = none) →
      (∀ x ∈ pre, ∃ chunks, splitText s.opts fuel x.Content s.opts.Separators = .done chunks) →
      ctx (j + pre.length) = some err →
      SplitLoop s fuel ctx (pre ++ d :: post) j result = .done ([], some err) := by
  induction pre with
  | nil =>
    intro j result _ _ herr
    simp only [List.length_nil, Nat.add_zero] at herr
    simp only [List.nil_append, SplitLoop, herr]
  | cons x pre ih =>
    intro j result hnone hsplit herr
    obtain ⟨chunks, hx⟩ := hsplit x (List.mem_cons_self _ _)
    have h0 : ctx j = none := by simpa using hnone 0 (by simp)
    simp only [List.cons_append, SplitLoop, h0, hx]
    apply ih
    · intro i hi
      have := hnone (i + 1) (by simp only [List.length_cons]; omega)
      rwa [show j + 1 + i = j + (i + 1) by omega]
    · intro y hy
      exact hsplit y (List.mem_cons_of_mem _ hy)
    · rwa [show j + 1 + pre.length = j + (x :: pre).length by
        simp only [List.length_cons]; omega]

/-- The loop of `Split` when the context is not done before any of the documents: the
loop returns without error. -/
theorem SplitLoop_not_cancelled (s : Splitter) (fuel : Nat) (ctx : Context)
    (docs : List Document) :
    ∀ (j : Nat) (result : List Document),
      (∀ i < docs.length, ctx (j + i) = none) →
      (∀ x ∈ docs, ∃ chunks, splitText s.opts fuel x.Content s.opts.Separators = .done chunks) →
      ∃ out, SplitLoop s fuel ctx docs j result = .done (out, none) := by
  induction docs with
  | nil =>
    intro j result _ _
    exact ⟨result, rfl⟩
  | cons x docs ih =>
    intro j result hnone hsplit
    obtain ⟨chunks, hx⟩ := hsplit x (List.mem_cons_self _ _)
    have h0 : ctx j = none := by simpa using hnone 0 (by simp)
    simp only [SplitLoop, h0, hx]
    apply ih
    · intro i hi
      have := hnone (i + 1) (by simp only [List.length_cons]; omega)
      rwa [show j + 1 + i = j + (i + 1) by omega]
    · intro y hy
      exact hsplit y (List.mem_cons_of_mem _ hy)

/-- **C16**.  Cancellation is atomic.  When the context is done before document number `k`
of the batch and was not done before the documents `0..k-1`, which have been split (the
calls of `splitText` on them returned), `Split` returns the error of the context and the
nil slice: no chunk record at all, not the records of the documents `0..k-1`.  When the
context is not done before any document and every document is split, `Split` returns
without error.  The documents are split for every valid configuration (`ChunkSize > 0`,
`0 ≤ ChunkOverlap < ChunkSize`) and every iteration budget above their lengths. -/
theorem Split_cancellation_atomic (s : Splitter) (fuel : Nat) (ctx : Context)
    (docs : List Document) :
    (∀ (k : Nat) (err : CtxError), k < docs.length → (∀ j < k, ctx j = none) →
      ctx k = some err →
      (∀ d ∈ docs.take k, ∃ chunks,
        splitText s.opts fuel d.Content s.opts.Separators = .done chunks) →
      Split s fuel ctx docs = .done ([], some err)) ∧
    ((∀ k < docs.length, ctx k = none) →
      (∀ d ∈ docs, ∃ chunks,
        splitText s.opts fuel d.Content s.opts.Separators = .done chunks) →
      ∃ out, Split s fuel ctx docs = .done (out, none)) ∧
    (0 < s.opts.ChunkSize → 0 ≤ s.opts.ChunkOverlap → s.opts.ChunkOverlap < s.opts.ChunkSize →
      (∀ d ∈ docs, max d.Content.length 4 < fuel) →
      ∀ d ∈ docs, ∃ chunks,
        splitText s.opts fuel d.Content s.opts.Separators = .done chunks) := by
  refine ⟨?_, ?_, ?_⟩
  · intro k err hk hnone herr hsplit
    have hdocs : docs = docs.take k ++ docs[k] :: docs.drop (k + 1) := by
      rw [← List.drop_eq_getElem_cons hk, List.take_append_drop]
    have hlen : (docs.take k).length = k := by
      rw [List.length_take]; omega
    unfold Split
    rw [hdocs]
    apply SplitLoop_cancelled s fuel ctx err
    · intro i hi
      rw [hlen] at hi
      simpa using hnone i hi
    · exact hsplit
    · rw [hlen]
      simpa using herr
  · intro hnone hsplit
    unfold Split
    apply SplitLoop_not_cancelled s fuel ctx docs 0 []
    · intro i hi
      simpa using hnone i hi
    · exact hsplit
  · intro hcs hco hlt hfuel x hx
    obtain ⟨chunks, h⟩ := splitText_returns s.opts hcs hco hlt s.opts.Separators x.Content
    exact ⟨chunks, h fuel (hfuel x hx)⟩

/-- Witness of `Split_cancellation_atomic`: a batch of three documents, the context
being done before the third one; the first two documents are split, and `Split` returns
the error with no record. -/
theorem Split_cancellation_atomic_witness :
    Split ⟨⟨3, 1, [[32], []]⟩⟩ 6 (fun j => if j < 2 then none else some CtxError.Canceled)
      [NewDocument [100] [97, 98, 32, 99, 100], NewDocument [101] [97],
        NewDocument [102] [98]] = .done ([], some CtxError.Canceled) ∧
    ∃ out, Split ⟨⟨3, 1, [[32], []]⟩⟩ 6 (fun _ => none)
      [NewDocument [100] [97, 98, 32, 99, 100], NewDocument [101] [97],
        NewDocument [102] [98]] = .done (out, none) :=
  have h1 := Split_cancellation_atomic ⟨⟨3, 1, [[32], []]⟩⟩ 6
    (fun j => if j < 2 then none else some CtxError.Canceled)
    [NewDocument [100] [97, 98, 32, 99, 100], NewDocument [101] [97], NewDocument [102] [98]]
  have h2 := Split_cancellation_atomic ⟨⟨3, 1, [[32], []]⟩⟩ 6 (fun _ => none)
    [NewDocument [100] [97, 98, 32, 99, 100], NewDocument [101] [97], NewDocument [102] [98]]
  ⟨h1.1 2 CtxError.Canceled (by decide) (by decide) (by decide)
      (fun d hd => h1.2.2 (by decide) (by decide) (by decide) (by decide) d
        (List.mem_of_mem_take hd)),
    h2.2.1 (by decide) (h2.2.2 (by decide) (by decide) (by decide) (by decide))⟩

/-! ## Chunk identifiers -/

/-- The decimal representation of a number is not empty. -/
theorem decimal_ne_nil (n : Nat) : decimal n ≠ [] := by
  unfold decimal
  split
  · simp
  · rename_i h
    simp only [ne_eq, List.map_eq_nil_iff, List.reverse_eq_nil_iff, Nat.digits_eq_nil_iff_eq_zero]
    exact h

/-- The decimal representation holds digits only. -/
theorem decimal_digits (n : Nat) : ∀ b ∈ decimal n, 48 ≤ b ∧ b ≤ 57 := by
  unfold decimal
  split
  · simp
  · intro b hb
    simp only [List.mem_map, List.mem_reverse] at hb
    obtain ⟨d, hd, rfl⟩ := hb
    have := Nat.digits_lt_base (by norm_num : 1 < 10) hd
    omega

/-- The decimal representation of a positive number does not begin with `0`. -/
theorem decimal_head (n : Nat) (hn : n ≠ 0) : (decimal n).head? ≠ some 48 := by
  unfold decimal
  rw [if_neg hn, List.head?_map, List.head?_reverse]
  have hne : Nat.digits 10 n ≠ [] := by
    simpa [Nat.digits_eq_nil_iff_eq_zero] using hn
  have hlast := Nat.getLast_digit_ne_zero 10 hn
  rw [List.getLast?_eq_getLast _ hne]
  simp only [Option.map_some', ne_eq, Option.some.injEq]
  omega

/-- The number a decimal representation stands for. -/
theorem decimal_value (n : Nat) :
    Nat.ofDigits 10 ((decimal n).reverse.map (fun b => b - 48)) = n := by
  unfold decimal
  split
  · rename_i h
    subst h
    simp
  · rw [← List.map_reverse, List.reverse_reverse, List.map_map]
    have : ((fun b => b - 48) ∘ fun d => 48 + d) = id := by
      funext d
      simp
    rw [this, List.map_id, Nat.ofDigits_digits]

/-- Two numbers with the same decimal representation are equal. -/
theorem decimal_injective (m n : Nat) (h : decimal m = decimal n) : m = n := by
  rw [← decimal_value m, ← decimal_value n, h]

/-- Two numbers that `itoa` converts to the same string are equal. -/
theorem itoa_injective (m n : Nat) (h : itoa (m : Int) = itoa (n : Int)) : m = n := by
  rw [itoa_eq_decimal, itoa_eq_decimal] at h
  exact decimal_injective m n h

/-- The identifiers of the records the inner loop of `Split` appends, from position `i`. -/
theorem chunk_ids_nodup (doc : Document) (total : Int) (chunks : List GoString) :
    ∀ i : Nat, (((chunks.enumFrom i).map (fun ic => newDoc doc total ic.1 ic.2)).map
      (fun r => r.ID)).Nodup := by
  induction chunks with
  | nil => intro i; simp
  | cons c chunks ih =>
    intro i
    simp only [List.enumFrom_cons, List.map_cons, List.nodup_cons]
    refine ⟨?_, ih (i + 1)⟩
    intro hmem
    simp only [List.mem_map, Prod.exists] at hmem
    obtain ⟨r, ⟨j, c2, hjc, rfl⟩, hid⟩ := hmem
    have hj : i + 1 ≤ j := List.le_fst_of_mem_enumFrom hjc
    simp only [newDoc] at hid
    have := itoa_injective _ _ (List.append_cancel_left hid)
    omega

/-- **C20**.  For every `n ≥ 0`, `itoa(n)` is the canonical decimal representation of `n`:
it is not empty and holds digits only, it is `"0"` for 0 and does not begin with `0`
otherwise, and it stands for `n`.  Hence `itoa` is injective on the non-negative integers,
`parentID + "_chunk_" + itoa(i)` determines `i`, and the records `Split` builds from the
chunks of one document have pairwise distinct identifiers. -/
theorem itoa_canonical :
    (∀ n : Nat, itoa (n : Int) = decimal n ∧ itoa (n : Int) ≠ [] ∧
      (∀ b ∈ itoa (n : Int), 48 ≤ b ∧ b ≤ 57) ∧
      (n = 0 → itoa (n : Int) = [48]) ∧ (n ≠ 0 → (itoa (n : Int)).head? ≠ some 48) ∧
      Nat.ofDigits 10 ((itoa (n : Int)).reverse.map (fun b => b - 48)) = n) ∧
    (∀ m n : Nat, itoa (m : Int) = itoa (n : Int) → m = n) ∧
    (∀ (parentID : GoString) (i j : Nat),
      parentID ++ chunkTag ++ itoa (i : Int) = parentID ++ chunkTag ++ itoa (j : Int) → i = j) ∧
    (∀ (doc : Document) (chunks : List GoString),
      ((appendChunkDocs doc chunks.length chunks 0 []).map (fun r => r.ID)).Nodup ∧
      ∀ i j (hi : i < chunks.length) (hj : j < chunks.length), i ≠ j →
        (newDoc doc chunks.length i (chunks.get ⟨i, hi⟩)).ID
          ≠ (newDoc doc chunks.length j (chunks.get ⟨j, hj⟩)).ID) := by
  refine ⟨fun n => ?_, itoa_injective, ?_, ?_⟩
  · rw [itoa_eq_decimal]
    refine ⟨rfl, decimal_ne_nil n, decimal_digits n, ?_, decimal_head n, decimal_value n⟩
    intro h
    subst h
    rfl
  · intro parentID i j h
    exact itoa_injective i j (List.append_cancel_left h)
  · intro doc chunks
    constructor
    · rw [appendChunkDocs_eq, List.nil_append]
      exact chunk_ids_nodup doc chunks.length chunks 0
    · intro i j hi hj hne h
      simp only [newDoc] at h
      exact hne (itoa_injective i j (List.append_cancel_left h))

/-! ## The scenario of 2500 characters of the specification -/

/-- The runes of an ASCII string are its bytes. -/
theorem runes_ascii (s : GoString) (h : IsAscii s) : runes s = s := by
  have h1 := runes_encodeRunes s (isScalar_of_ascii s h)
  rwa [encodeRunes_ascii s h] at h1

/-- The fixed-size loop on 2500 runes with `ChunkSize = 1000` and `ChunkOverlap = 200`:
three windows, starting at the runes 0, 800 and 1600. -/
theorem splitBySizeLoop_2500 (rs : List Nat) (hlen : rs.length = 2500) (fuel : Nat)
    (hfuel : 2 < fuel) :
    splitBySizeLoop ⟨1000, 200, []⟩ rs fuel 0 []
      = .done (windowChunk (rs.take 1000) ++ windowChunk ((rs.drop 800).take 1000)
          ++ windowChunk (rs.drop 1600)) := by
  have h := splitBySizeLoop_windows rs 1000 200 [] (by norm_num) (by omega) 2 (by omega)
    (by intro k hk; interval_cases k <;> omega) 2 0 fuel [] rfl hfuel
  have e0 : runeWindow rs 1000 (1000 - 200) 0 = rs.take 1000 := by
    simp [runeWindow, hlen]
  have e1 : runeWindow rs 1000 (1000 - 200) 1 = (rs.drop 800).take 1000 := by
    simp [runeWindow, hlen]
  have e2 : runeWindow rs 1000 (1000 - 200) 2 = rs.drop 1600 := by
    simp only [runeWindow, hlen]
    rw [List.take_of_length_le]
    rw [List.length_drop, hlen]
    norm_num
  have hr : List.range' 0 (2 + 1) = [0, 1, 2] := by decide
  rw [hr] at h
  simp only [List.flatMap_cons, List.flatMap_nil, e0, e1, e2, List.nil_append,
    List.append_nil] at h
  simp only [Nat.cast_ofNat, Nat.zero_mul, Nat.cast_zero] at h
  rw [h, List.append_assoc]

/-- The chunk of a window of runes of a text that has no white space. -/
theorem windowChunk_of_runes (text : GoString) (hns : ∀ r ∈ runes text, isSpace r = false)
    (w : List Nat) (hw : ∀ r ∈ w, r ∈ runes text) (hne : w ≠ []) :
    windowChunk w = [encodeRunes w] ∧ runes (encodeRunes w) = w :=
  ⟨windowChunk_of_no_space w hne (fun r hr => runes_scalar text r (hw r hr))
      (fun r hr => hns r (hw r hr)),
    runes_encodeRunes w (fun r hr => runes_scalar text r (hw r hr))⟩

/-- The run of `splitText` on a text of 2500 runes, none of them white space, with the
default sizes and no separator. -/
theorem splitText_2500_eval (text : GoString) (hlen : (runes text).length = 2500)
    (hns : ∀ r ∈ runes text, isSpace r = false) (fuel : Nat) (hfuel : 2 < fuel) :
    splitText ⟨1000, 200, []⟩ fuel text []
      = .done [encodeRunes ((runes text).take 1000),
          encodeRunes (((runes text).drop 800).take 1000),
          encodeRunes ((runes text).drop 1600)] := by
  have hle := runes_length_le text
  rw [splitText_nil_eq, if_neg (by omega), if_neg (by simp only [Int.not_le]; omega)]
  unfold splitBySize
  rw [splitBySizeLoop_2500 _ hlen fuel hfuel]
  have hne : ∀ w : List Nat, 0 < w.length → w ≠ [] := fun w h0 hw => by
    rw [hw] at h0
    exact Nat.lt_irrefl _ h0
  rw [(windowChunk_of_runes text hns ((runes text).take 1000)
      (fun r hr => List.mem_of_mem_take hr)
      (hne _ (by rw [List.length_take, hlen]; norm_num))).1,
    (windowChunk_of_runes text hns (((runes text).drop 800).take 1000)
      (fun r hr => List.mem_of_mem_drop (List.mem_of_mem_take hr))
      (hne _ (by rw [List.length_take, List.length_drop, hlen]; norm_num))).1,
    (windowChunk_of_runes text hns ((runes text).drop 1600)
      (fun r hr => List.mem_of_mem_drop hr)
      (hne _ (by rw [List.length_drop, hlen]; norm_num))).1]
  rfl

/-- **C13**, counterexample.  The text of 2500 letters `a`, with `ChunkSize = 1000`,
`ChunkOverlap = 200` and no separator, gives three chunks, of 1000, 1000 and 900 letters,
not four chunks of 1000, 1000, 1000 and 700. -/
theorem splitText_2500_counterexample :
    (List.replicate 2500 97 : GoString).length = 2500 ∧
    (∀ b ∈ (List.replicate 2500 97 : GoString), isSpace b = false) ∧
    splitText ⟨1000, 200, []⟩ 2501 (List.replicate 2500 97) []
      = .done [List.replicate 1000 97, List.replicate 1000 97, List.replicate 900 97] ∧
    ([List.replicate 1000 97, List.replicate 1000 97, List.replicate 900 97]
      : List GoString).length ≠ 4 ∧
    ([List.replicate 1000 97, List.replicate 1000 97, List.replicate 900 97]
      : List GoString).map List.length ≠ [1000, 1000, 1000, 700] := by
  have hasc : IsAscii (List.replicate 2500 97) := by
    intro b hb
    rw [List.eq_of_mem_replicate hb]
    norm_num
  have hr : runes (List.replicate 2500 97) = List.replicate 2500 97 := runes_ascii _ hasc
  have hns : ∀ b ∈ (List.replicate 2500 97 : GoString), isSpace b = false := by
    intro b hb
    rw [List.eq_of_mem_replicate hb]
    decide
  refine ⟨List.length_replicate _ _, hns, ?_, by decide, ?_⟩
  swap
  · simp only [List.map_cons, List.map_nil, List.length_replicate]
    decide
  rw [splitText_2500_eval _ (by rw [hr]; exact List.length_replicate _ _)
    (by rw [hr]; exact hns) 2501 (by norm_num), hr]
  have ha : ∀ n : Nat, IsAscii (List.replicate n 97) := by
    intro n b hb
    rw [List.eq_of_mem_replicate hb]
    norm_num
  simp only [List.take_replicate, List.drop_replicate]
  rw [encodeRunes_ascii _ (ha _), encodeRunes_ascii _ (ha _), encodeRunes_ascii _ (ha _)]
  norm_num

/-- **C13** (amended).  For every text of 2500 characters none of which is white space,
`ChunkSize = 1000`, `ChunkOverlap = 200` and the empty separator list, `splitText` returns
(for every iteration budget of 3 or more) exactly three chunks: the windows of the text
that start at the characters 0, 800 and 1600, that is 800 characters apart; the first two
chunks have 1000 characters, the last one has the remaining 900. -/
theorem splitText_2500_windows (text : GoString) (hlen : (runes text).length = 2500)
    (hns : ∀ r ∈ runes text, isSpace r = false) :
    (∀ fuel, 2 < fuel → splitText ⟨1000, 200, []⟩ fuel text []
      = .done [encodeRunes ((runes text).take 1000),
          encodeRunes (((runes text).drop 800).take 1000),
          encodeRunes ((runes text).drop 1600)]) ∧
    (runes (encodeRunes ((runes text).take 1000)) = (runes text).take 1000 ∧
      runes (encodeRunes (((runes text).drop 800).take 1000))
        = ((runes text).drop 800).take 1000 ∧
      runes (encodeRunes ((runes text).drop 1600)) = (runes text).drop 1600) ∧
    ((runes text).take 1000).length = 1000 ∧
    (((runes text).drop 800).take 1000).length = 1000 ∧
    ((runes text).drop 1600).length = 900 := by
  have hsc : ∀ w : List Nat, (∀ r ∈ w, r ∈ runes text) → runes (encodeRunes w) = w :=
    fun w hw => runes_encodeRunes w (fun r hr => runes_scalar text r (hw r hr))
  refine ⟨fun fuel hfuel => splitText_2500_eval text hlen hns fuel hfuel, ⟨?_, ?_, ?_⟩, ?_, ?_, ?_⟩
  · exact hsc _ (fun r hr => List.mem_of_mem_take hr)
  · exact hsc _ (fun r hr => List.mem_of_mem_drop (List.mem_of_mem_take hr))
  · exact hsc _ (fun r hr => List.mem_of_mem_drop hr)
  · rw [List.length_take, hlen]; norm_num
  · rw [List.length_take, List.length_drop, hlen]; norm_num
  · rw [List.length_drop, hlen]

/-- Witness of `splitText_2500_windows`: the text of 2500 letters `a`. -/
theorem splitText_2500_windows_witness :
    ((runes (List.replicate 2500 97)).length = 2500 ∧
      ∀ r ∈ runes (List.replicate 2500 97), isSpace r = false) ∧
    (∀ fuel, 2 < fuel → splitText ⟨1000, 200, []⟩ fuel (List.replicate 2500 97) []
      = .done [encodeRunes ((runes (List.replicate 2500 97)).take 1000),
          encodeRunes (((runes (List.replicate 2500 97)).drop 800).take 1000),
          encodeRunes ((runes (List.replicate 2500 97)).drop 1600)]) ∧
    (runes (encodeRunes ((runes (List.replicate 2500 97)).take 1000))
        = (runes (List.replicate 2500 97)).take 1000 ∧
      runes (encodeRunes (((runes (List.replicate 2500 97)).drop 800).take 1000))
        = ((runes (List.replicate 2500 97)).drop 800).take 1000 ∧
      runes (encodeRunes ((runes (List.replicate 2500 97)).drop 1600))
        = (runes (List.replicate 2500 97)).drop 1600) ∧
    ((runes (List.replicate 2500 97)).take 1000).length = 1000 ∧
    (((runes (List.replicate 2500 97)).drop 800).take 1000).length = 1000 ∧
    ((runes (List.replicate 2500 97)).drop 1600).length = 900 :=
  have hr : runes (List.replicate 2500 97) = List.replicate 2500 97 :=
    runes_ascii _ (fun b hb => by rw [List.eq_of_mem_replicate hb]; norm_num)
  have h1 : (runes (List.replicate 2500 97)).length = 2500 := by
    rw [hr]; exact List.length_replicate _ _
  have h2 : ∀ r ∈ runes (List.replicate 2500 97), isSpace r = false := by
    rw [hr]
    intro b hb
    rw [List.eq_of_mem_replicate hb]
    decide
  ⟨⟨h1, h2⟩, splitText_2500_windows (List.replicate 2500 97) h1 h2⟩

/-! ## An invariant rule for the merging loop -/

/-- Invariant rule for the merging loop of `splitText`: a property `Inv` of the pieces still
to read, the loop index, the chunks and the buffer, that every kind of iteration keeps (a
blank piece, an oversized piece, a piece that overflows the buffer, a piece that is
appended), holds at the end of the loop, where the result is the flush of the buffer. -/
theorem mergeLoop_rule (cfg : Options) (sep : GoString)
    (recur : GoString → Outcome (List GoString))
    (Inv : List GoString → Nat → List GoString → GoString → Prop)
    (hblank : ∀ p rest i chunks cur, Inv (p :: rest) i chunks cur → TrimSpace p = [] →
      Inv rest (i + 1) chunks cur)
    (hbig : ∀ p rest i chunks cur sub, Inv (p :: rest) i chunks cur → TrimSpace p ≠ [] →
      ((TrimSpace p).length : Int) > cfg.ChunkSize → recur (TrimSpace p) = .done sub →
      Inv rest (i + 1) (flushBuffer chunks cur ++ sub) (if cur.length > 0 then [] else cur))
    (hover : ∀ p rest i chunks cur, Inv (p :: rest) i chunks cur → TrimSpace p ≠ [] →
      ¬ ((TrimSpace p).length : Int) > cfg.ChunkSize →
      newSize sep cur (TrimSpace p) > cfg.ChunkSize →
      Inv rest (i + 1) (flushBuffer chunks cur)
        (writePiece sep i (overlapSeed cfg sep (flushBuffer chunks cur)) (TrimSpace p)))
    (happ : ∀ p rest i chunks cur, Inv (p :: rest) i chunks cur → TrimSpace p ≠ [] →
      ¬ ((TrimSpace p).length : Int) > cfg.ChunkSize →
      ¬ newSize sep cur (TrimSpace p) > cfg.ChunkSize →
      Inv rest (i + 1) chunks (writePiece sep i cur (TrimSpace p)))
    (splits : List GoString) :
    ∀ (i : Nat) (chunks : List GoString) (cur : GoString) (out : List GoString),
      Inv splits i chunks cur → mergeLoop cfg sep recur splits i chunks cur = .done out →
      ∃ j chunks2 cur2, Inv [] j chunks2 cur2 ∧ out = flushBuffer chunks2 cur2 := by
  induction splits with
  | nil =>
    intro i chunks cur out hinv hout
    rw [mergeLoop_nil] at hout
    exact ⟨i, chunks, cur, hinv, (Outcome.done.inj hout).symm⟩
  | cons p rest ih =>
    intro i chunks cur out hinv hout
    by_cases h1 : TrimSpace p = []
    · rw [mergeLoop_blank _ _ _ _ _ _ _ _ h1] at hout
      exact ih _ _ _ _ (hblank p rest i chunks cur hinv h1) hout
    · by_cases h2 : ((TrimSpace p).length : Int) > cfg.ChunkSize
      · cases hr : recur (TrimSpace p) with
        | done sub =>
          rw [mergeLoop_big_done _ _ _ _ _ _ _ _ _ h1 h2 hr] at hout
          exact ih _ _ _ _ (hbig p rest i chunks cur sub hinv h1 h2 hr) hout
        | panic =>
          rw [mergeLoop_big_panic _ _ _ _ _ _ _ _ h1 h2 hr] at hout
          exact Outcome.noConfusion hout
        | outOfFuel =>
          rw [mergeLoop_big_outOfFuel _ _ _ _ _ _ _ _ h1 h2 hr] at hout
          exact Outcome.noConfusion hout
      · by_cases h3 : newSize sep cur (TrimSpace p) > cfg.ChunkSize
        · rw [mergeLoop_overflow _ _ _ _ _ _ _ _ h1 h2 h3] at hout
          exact ih _ _ _ _ (hover p rest i chunks cur hinv h1 h2 h3) hout
        · rw [mergeLoop_append _ _ _ _ _ _ _ _ h1 h2 h3] at hout
          exact ih _ _ _ _ (happ p rest i chunks cur hinv h1 h2 h3) hout

/-- Membership in a flushed list of chunks. -/
theorem mem_flushBuffer (chunks : List GoString) (cur c : GoString)
    (h : c ∈ flushBuffer chunks cur) : c ∈ chunks ∨ (cur ≠ [] ∧ c = TrimSpace cur) := by
  unfold flushBuffer at h
  split at h
  · rename_i hpos
    rcases List.mem_append.1 h with h | h
    · exact Or.inl h
    · exact Or.inr ⟨fun hc => by rw [hc] at hpos; exact Nat.lt_irrefl _ hpos,
        List.mem_singleton.1 h⟩
  · exact Or.inl h

/-! ## Without overlap, `ChunkSize` is a hard bound -/

/-- The buffer after a piece has been written is at most `newSize` long. -/
theorem writePiece_le_newSize (sep : GoString) (i : Nat) (cur p : GoString) :
    ((writePiece sep i cur p).length : Int) ≤ newSize sep cur p := by
  have h := writePiece_length_le sep i cur p
  unfold newSize
  omega

/-- Without overlap, every chunk the merging loop returns is at most `ChunkSize` bytes
long, unless it was returned by the recursive call on an oversized piece. -/
theorem mergeLoop_accumulator_bound (cfg : Options) (hcs : 0 < cfg.ChunkSize)
    (hco : cfg.ChunkOverlap = 0) (sep : GoString)
    (recur : GoString → Outcome (List GoString)) (splits : List GoString)
    (out : List GoString) (hout : mergeLoop cfg sep recur splits 0 [] [] = .done out) :
    ∀ c ∈ out, (c.length : Int) ≤ cfg.ChunkSize ∨
      ∃ p ∈ splits, cfg.ChunkSize < ((TrimSpace p).length : Int) ∧
        ∃ sub, recur (TrimSpace p) = .done sub ∧ c ∈ sub := by
  have hrule := mergeLoop_rule cfg sep recur
    (fun rest _ chunks cur => (∀ p ∈ rest, p ∈ splits) ∧ (cur.length : Int) ≤ cfg.ChunkSize ∧
      ∀ c ∈ chunks, (c.length : Int) ≤ cfg.ChunkSize ∨
        ∃ p ∈ splits, cfg.ChunkSize < ((TrimSpace p).length : Int) ∧
          ∃ sub, recur (TrimSpace p) = .done sub ∧ c ∈ sub)
    ?_ ?_ ?_ ?_ splits 0 [] [] out ⟨fun p hp => hp, by simpa using hcs.le, by simp⟩ hout
  · obtain ⟨_, chunks2, cur2, ⟨_, hcur, hch⟩, rfl⟩ := hrule
    intro c hc
    rcases mem_flushBuffer _ _ _ hc with h | ⟨_, h⟩
    · exact hch c h
    · have := TrimSpace_length_le cur2
      rw [h]
      exact Or.inl (by omega)
  · rintro p rest i chunks cur ⟨hmem, hcur, hch⟩ _
    exact ⟨fun q hq => hmem q (List.mem_cons_of_mem _ hq), hcur, hch⟩
  · rintro p rest i chunks cur sub ⟨hmem, hcur, hch⟩ _ h2 hr
    refine ⟨fun q hq => hmem q (List.mem_cons_of_mem _ hq), ?_, ?_⟩
    · split_ifs
      · simpa using hcs.le
      · exact hcur
    · intro c hc
      rcases List.mem_append.1 hc with h | h
      · rcases mem_flushBuffer _ _ _ h with h | ⟨_, h⟩
        · exact hch c h
        · have := TrimSpace_length_le cur
          rw [h]
          exact Or.inl (by omega)
      · exact Or.inr ⟨p, hmem p (List.mem_cons_self _ _), h2, sub, hr, h⟩
  · rintro p rest i chunks cur ⟨hmem, hcur, hch⟩ _ h2 _
    refine ⟨fun q hq => hmem q (List.mem_cons_of_mem _ hq), ?_, ?_⟩
    · rw [overlapSeed_of_nonpos cfg sep _ hco.le, writePiece_nil]
      omega
    · intro c hc
      rcases mem_flushBuffer _ _ _ hc with h | ⟨_, h⟩
      · exact hch c h
      · have := TrimSpace_length_le cur
        rw [h]
        exact Or.inl (by omega)
  · rintro p rest i chunks cur ⟨hmem, hcur, hch⟩ _ _ h3
    refine ⟨fun q hq => hmem q (List.mem_cons_of_mem _ hq), ?_, hch⟩
    have := writePiece_le_newSize sep i cur (TrimSpace p)
    omega

/-- **C17**.  Without overlap the budget is a hard bound.  For `ChunkOverlap = 0`, every
`ChunkSize ≥ 1`, every text and every list of separators, `splitText` returns chunks that
have at most `ChunkSize` runes each.  Moreover the chunk of a text of at most `ChunkSize`
bytes is at most `ChunkSize` bytes long, and so is every chunk built by the merging loop:
every chunk of more than `ChunkSize` bytes was returned by the recursive call on a piece
of more than `ChunkSize` bytes (and, for the empty list of separators, by the fixed-size
fallback). -/
theorem splitText_hard_bound (cfg : Options) (hcs : 1 ≤ cfg.ChunkSize)
    (hco : cfg.ChunkOverlap = 0) (text : GoString) (seps : List GoString) :
    ∃ chunks,
      (∀ fuel, max text.length 4 < fuel → splitText cfg fuel text seps = .done chunks) ∧
      (∀ c ∈ chunks, ((runes c).length : Int) ≤ cfg.ChunkSize) ∧
      ((text.length : Int) ≤ cfg.ChunkSize → ∀ c ∈ chunks, (c.length : Int) ≤ cfg.ChunkSize) ∧
      (∀ sep rest, seps = sep :: rest → ∀ fuel, max text.length 4 < fuel →
        ∀ c ∈ chunks, (c.length : Int) ≤ cfg.ChunkSize ∨
          ∃ p ∈ splitPieces text sep, cfg.ChunkSize < ((TrimSpace p).length : Int) ∧
            ∃ sub, splitText cfg fuel (TrimSpace p) rest = .done sub ∧ c ∈ sub) := by
  have hpos : 0 < cfg.ChunkSize := by omega
  obtain ⟨chunks, hch⟩ := splitText_returns cfg hpos (by omega) (by omega) seps text
  have hrun := hch (max text.length 4 + 1) (Nat.lt_succ_self _)
  have hshort : (text.length : Int) ≤ cfg.ChunkSize →
      ∀ c ∈ chunks, (c.length : Int) ≤ cfg.ChunkSize := by
    intro hle c hc
    by_cases h0 : text = []
    · rw [h0, splitText_empty] at hrun
      rw [← Outcome.done.inj hrun] at hc
      simp at hc
    · rw [splitText_short cfg _ text seps h0 hle] at hrun
      rw [← Outcome.done.inj hrun, List.mem_singleton] at hc
      have := TrimSpace_length_le text
      rw [hc]
      omega
  refine ⟨chunks, hch, ?_, hshort, ?_⟩
  · intro c hc
    have hall : sizeBoundAll cfg seps = cfg.ChunkSize := by
      unfold sizeBoundAll
      rw [if_pos hco.le, add_zero]
    rcases splitText_chunk_bound cfg hpos _ seps text chunks hrun c hc with h | h
    · have := runes_length_le c
      omega
    · exact h
  · intro sep rest hseps fuel hfuel c hc
    by_cases hle : (text.length : Int) ≤ cfg.ChunkSize
    · exact Or.inl (hshort hle c hc)
    · have h := hch fuel hfuel
      rw [hseps, splitText_long cfg fuel text sep rest (by omega) (by omega)] at h
      exact mergeLoop_accumulator_bound cfg hpos hco sep _ _ chunks h c hc

/-- Witness of `splitText_hard_bound`: `"éé,é"` with `ChunkSize = 2`, the separators
`","` and `""`. -/
theorem splitText_hard_bound_witness :
    (1 ≤ (⟨2, 0, []⟩ : Options).ChunkSize ∧ (⟨2, 0, []⟩ : Options).ChunkOverlap = 0) ∧
    ∃ chunks,
      (∀ fuel, max ([0xC3, 0xA9, 0xC3, 0xA9, 0x2C, 0xC3, 0xA9] : GoString).length 4 < fuel →
        splitText ⟨2, 0, []⟩ fuel [0xC3, 0xA9, 0xC3, 0xA9, 0x2C, 0xC3, 0xA9] [[0x2C], []]
          = .done chunks) ∧
      (∀ c ∈ chunks, ((runes c).length : Int) ≤ (⟨2, 0, []⟩ : Options).ChunkSize) ∧
      ((([0xC3, 0xA9, 0xC3, 0xA9, 0x2C, 0xC3, 0xA9] : GoString).length : Int)
          ≤ (⟨2, 0, []⟩ : Options).ChunkSize →
        ∀ c ∈ chunks, (c.length : Int) ≤ (⟨2, 0, []⟩ : Options).ChunkSize) ∧
      (∀ sep rest, [[0x2C], []] = sep :: rest →
        ∀ fuel, max ([0xC3, 0xA9, 0xC3, 0xA9, 0x2C, 0xC3, 0xA9] : GoString).length 4 < fuel →
        ∀ c ∈ chunks, (c.length : Int) ≤ (⟨2, 0, []⟩ : Options).ChunkSize ∨
          ∃ p ∈ splitPieces [0xC3, 0xA9, 0xC3, 0xA9, 0x2C, 0xC3, 0xA9] sep,
            (⟨2, 0, []⟩ : Options).ChunkSize < ((TrimSpace p).length : Int) ∧
            ∃ sub, splitText ⟨2, 0, []⟩ fuel (TrimSpace p) rest = .done sub ∧ c ∈ sub) :=
  ⟨⟨by decide, by decide⟩,
    splitText_hard_bound ⟨2, 0, []⟩ (by decide) (by decide)
      [0xC3, 0xA9, 0xC3, 0xA9, 0x2C, 0xC3, 0xA9] [[0x2C], []]⟩

/-! ## Trimming twice: `strings.TrimSpace` is idempotent -/

/-- The rune a string begins with, when it is correctly encoded, is also the rune every
extension of the string begins with. -/
theorem decodeRune_append (p x : GoString) (hp : p ≠ [])
    (hd : decodeRune p ≠ (RuneError, 1)) : decodeRune (p ++ x) = decodeRune p := by
  cases p with
  | nil => exact absurd rfl hp
  | cons c t =>
    rcases decodeRune_cases c t with h | ⟨h0, h⟩ | ⟨s1, t1, ht, h0, h1, h⟩ |
      ⟨s1, s2, t2, ht, h0, h1, h2, h⟩ | ⟨s1, s2, s3, t3, ht, h0, h1, h2, h3, h⟩
    · exact absurd h hd
    · rw [h, List.cons_append, decodeRune_one c _ h0]
    · rw [h, ht, List.cons_append, List.cons_append, decodeRune_two c s1 _ h0 h1]
    · rw [h, ht, List.cons_append, List.cons_append, List.cons_append,
        decodeRune_three c s1 s2 _ h0 h1 h2]
    · rw [h, ht, List.cons_append, List.cons_append, List.cons_append, List.cons_append,
        decodeRune_four c s1 s2 s3 _ h0 h1 h2 h3]

/-- A string that begins with white space: so does every extension of it. -/
theorem isSpace_decodeRune_of_take (s : GoString) (k : Nat)
    (h : isSpace (decodeRune (s.take k)).1 = true) : isSpace (decodeRune s).1 = true := by
  have hne : s.take k ≠ [] := by
    intro h0
    rw [h0] at h
    exact absurd h (by decide)
  have hd : decodeRune (s.take k) ≠ (RuneError, 1) := by
    intro h0
    rw [h0] at h
    exact absurd h (by decide)
  have := decodeRune_append (s.take k) (s.drop k) hne hd
  rw [List.take_append_drop] at this
  rw [this]
  exact h

/-- What `strings.TrimLeftFunc` returns is empty or begins with a rune that is not white
space. -/
theorem trimLeftFuel_head (n : Nat) :
    ∀ s : GoString, s.length ≤ n →
      trimLeftFuel n s = [] ∨ isSpace (decodeRune (trimLeftFuel n s)).1 = false := by
  induction n with
  | zero =>
    intro s hs
    left
    rw [List.length_eq_zero.1 (Nat.le_zero.1 hs)]
    rfl
  | succ n ih =>
    intro s hs
    cases s with
    | nil => exact Or.inl rfl
    | cons c t =>
      simp only [trimLeftFuel]
      split
      · apply ih
        have hw := decodeRune_width c t
        rw [List.length_drop]
        simp only [List.length_cons] at hs ⊢
        omega
      · rename_i h
        right
        simpa using h

/-- A string that is empty or begins with a rune that is not white space has no leading
white space to remove. -/
theorem trimLeftFuel_fix (n : Nat) (s : GoString)
    (h : s = [] ∨ isSpace (decodeRune s).1 = false) : trimLeftFuel n s = s := by
  cases n with
  | zero => cases s <;> rfl
  | succ n =>
    cases s with
    | nil => rfl
    | cons c t =>
      rcases h with h | h
      · exact absurd h (List.cons_ne_nil _ _)
      · simp only [trimLeftFuel, h, Bool.false_eq_true, if_false]

/-- The start offset `utf8.DecodeLastRuneInString` decodes from is inside the string. -/
theorem lastRuneStart_lt (s : GoString) (h : s ≠ []) : lastRuneStart s < s.length := by
  have hpos : 0 < s.length := List.length_pos.2 h
  unfold lastRuneStart
  simp only
  split_ifs <;> omega

/-- The last rune of a string that is not empty is at least one byte wide. -/
theorem decodeLastRune_width (s : GoString) (h : s ≠ []) : 1 ≤ (decodeLastRune s).2 := by
  have hpos : 0 < s.length := List.length_pos.2 h
  have hlt := lastRuneStart_lt s h
  unfold decodeLastRune
  simp only
  split_ifs with h1 h2 h3
  · omega
  · exact Nat.le_refl _
  · exact Nat.le_refl _
  · have : lastRuneStart s + (decodeRune (s.drop (lastRuneStart s))).2 = s.length := by
      simpa using h3
    omega

/-- What `strings.TrimRightFunc` returns is empty or ends with a rune that is not white
space. -/
theorem trimRightFuel_last (n : Nat) :
    ∀ s : GoString, s.length ≤ n →
      trimRightFuel n s = [] ∨ isSpace (decodeLastRune (trimRightFuel n s)).1 = false := by
  induction n with
  | zero =>
    intro s hs
    left
    rw [List.length_eq_zero.1 (Nat.le_zero.1 hs)]
    rfl
  | succ n ih =>
    intro s hs
    simp only [trimRightFuel]
    split
    · exact Or.inl rfl
    · rename_i hne
      split
      · apply ih
        have hw := decodeLastRune_width s hne
        have hpos : 0 < s.length := List.length_pos.2 hne
        rw [List.length_take]
        omega
      · rename_i h
        right
        simpa using h

/-- A string that is empty or ends with a rune that is not white space has no trailing
white space to remove. -/
theorem trimRightFuel_fix (n : Nat) (s : GoString)
    (h : s = [] ∨ isSpace (decodeLastRune s).1 = false) : trimRightFuel n s = s := by
  cases n with
  | zero => rfl
  | succ n =>
    simp only [trimRightFuel]
    split
    · rename_i h0
      exact h0.symm
    · rename_i hne
      rcases h with h | h
      · exact absurd h hne
      · simp only [h, Bool.false_eq_true, if_false]

/-- What `strings.TrimSpace` returns is empty, or begins and ends with runes that are not
white space. -/
theorem TrimSpace_ends (s : GoString) :
    TrimSpace s = [] ∨ (isSpace (decodeRune (TrimSpace s)).1 = false ∧
      isSpace (decodeLastRune (TrimSpace s)).1 = false) := by
  by_cases h0 : TrimSpace s = []
  · exact Or.inl h0
  · right
    have hl := trimLeftFuel_head s.length s (Nat.le_refl _)
    obtain ⟨a, ha⟩ := trimLeftFuel_eq_drop s.length s
    have hr := trimRightFuel_last s.length (trimLeftFuel s.length s)
      (by rw [ha, List.length_drop]; omega)
    obtain ⟨k, hk⟩ := trimRightFuel_eq_take s.length (trimLeftFuel s.length s)
    have hts : TrimSpace s = trimRightFuel s.length (trimLeftFuel s.length s) := rfl
    rw [← hts] at hr hk
    constructor
    · cases hsp : isSpace (decodeRune (TrimSpace s)).1 with
      | false => rfl
      | true =>
        rw [hk] at hsp
        have h2 := isSpace_decodeRune_of_take _ _ hsp
        rcases hl with hl | hl
        · rw [hl] at hk
          rw [hk] at h0
          simp at h0
        · rw [hl] at h2
          exact absurd h2 (by decide)
    · rcases hr with hr | hr
      · exact absurd hr h0
      · exact hr

/-- A string that is empty, or begins and ends with runes that are not white space, is
what `strings.TrimSpace` returns for it. -/
theorem TrimSpace_fix (s : GoString)
    (h : s = [] ∨ (isSpace (decodeRune s).1 = false ∧ isSpace (decodeLastRune s).1 = false)) :
    TrimSpace s = s := by
  unfold TrimSpace
  rcases h with h | ⟨h1, h2⟩
  · rw [h]
    rfl
  · rw [trimLeftFuel_fix _ _ (Or.inr h1), trimRightFuel_fix _ _ (Or.inr h2)]

/-- Trimming a trimmed string changes nothing. -/
theorem TrimSpace_idem (s : GoString) : TrimSpace (TrimSpace s) = TrimSpace s :=
  TrimSpace_fix _ (TrimSpace_ends s)

/-! ## Every chunk is trimmed -/

/-- A property of the trimmed windows of the rune slice holds for every chunk the
fixed-size loop returns. -/
theorem splitBySizeLoop_forall (cfg : Options) (rs : List Nat) (P : GoString → Prop)
    (hP : ∀ a b : Nat, TrimSpace (encodeRunes ((rs.drop a).take b)) ≠ [] →
      P (TrimSpace (encodeRunes ((rs.drop a).take b)))) (fuel : Nat) :
    ∀ (i : Int) (chunks out : List GoString), (∀ c ∈ chunks, P c) →
      splitBySizeLoop cfg rs fuel i chunks = .done out → ∀ c ∈ out, P c := by
  have hw : ∀ (i e : Int) (chunks : List GoString), (∀ c ∈ chunks, P c) →
      ∀ c ∈ appendWindow rs i e chunks, P c := by
    intro i e chunks hch c hc
    unfold appendWindow at hc
    split at hc
    · rename_i hne
      rcases List.mem_append.1 hc with h | h
      · exact hch c h
      · rw [List.mem_singleton.1 h]
        exact hP _ _ hne
    · exact hch c hc
  induction fuel with
  | zero =>
    intro i chunks out _ h
    exact Outcome.noConfusion h
  | succ fuel ih =>
    intro i chunks out hch h
    rw [splitBySizeLoop_succ_eq] at h
    by_cases h1 : i < (rs.length : Int)
    · rw [if_pos h1] at h
      by_cases h2 : i < 0 ∨ windowEnd cfg rs.length i < i
      · rw [if_pos h2] at h
        exact Outcome.noConfusion h
      · rw [if_neg h2] at h
        by_cases h3 : windowEnd cfg rs.length i = (rs.length : Int)
        · rw [if_pos h3] at h
          rw [← Outcome.done.inj h]
          exact hw _ _ _ hch
        · rw [if_neg h3] at h
          exact ih _ _ _ (hw _ _ _ hch) h
    · rw [if_neg h1] at h
      rw [← Outcome.done.inj h]
      exact hch

/-- Every chunk the merging loop returns is what `strings.TrimSpace` returned for some
string, as soon as the chunks of the recursive calls are. -/
theorem mergeLoop_trimmed (cfg : Options) (sep : GoString)
    (recur : GoString → Outcome (List GoString))
    (hrec : ∀ p sub, recur p = .done sub → ∀ c ∈ sub, ∃ s, c = TrimSpace s)
    (splits : List GoString) (out : List GoString)
    (hout : mergeLoop cfg sep recur splits 0 [] [] = .done out) :
    ∀ c ∈ out, ∃ s, c = TrimSpace s := by
  have hflush : ∀ (chunks : List GoString) (cur : GoString),
      (∀ c ∈ chunks, ∃ s, c = TrimSpace s) → ∀ c ∈ flushBuffer chunks cur, ∃ s, c = TrimSpace s := by
    intro chunks cur hch c hc
    rcases mem_flushBuffer _ _ _ hc with h | ⟨_, h⟩
    · exact hch c h
    · exact ⟨cur, h⟩
  have hrule := mergeLoop_rule cfg sep recur
    (fun _ _ chunks _ => ∀ c ∈ chunks, ∃ s, c = TrimSpace s)
    ?_ ?_ ?_ ?_ splits 0 [] [] out (by simp) hout
  · obtain ⟨_, chunks2, cur2, hch, rfl⟩ := hrule
    exact hflush chunks2 cur2 hch
  · intro p rest i chunks cur hch _
    exact hch
  · intro p rest i chunks cur sub hch _ _ hr c hc
    rcases List.mem_append.1 hc with h | h
    · exact hflush chunks cur hch c h
    · exact hrec _ sub hr c h
  · intro p rest i chunks cur hch _ _ _
    exact hflush chunks cur hch
  · intro p rest i chunks cur hch _ _ _
    exact hch

/-- Every chunk `splitText` returns is what `strings.TrimSpace` returned for some string. -/
theorem splitText_trimmed (cfg : Options) (fuel : Nat) (seps : List GoString) :
    ∀ (text : GoString) (chunks : List GoString), splitText cfg fuel text seps = .done chunks →
      ∀ c ∈ chunks, ∃ s, c = TrimSpace s := by
  induction seps with
  | nil =>
    intro text chunks h c hc
    rw [splitText_nil_eq] at h
    by_cases h0 : text.length = 0
    · rw [if_pos h0] at h
      rw [← Outcome.done.inj h] at hc
      simp at hc
    · rw [if_neg h0] at h
      by_cases h1 : (text.length : Int) ≤ cfg.ChunkSize
      · rw [if_pos h1] at h
        rw [← Outcome.done.inj h, List.mem_singleton] at hc
        exact ⟨text, hc⟩
      · rw [if_neg h1] at h
        exact splitBySizeLoop_forall cfg (runes text) (fun c => ∃ s, c = TrimSpace s)
          (fun a b _ => ⟨_, rfl⟩) fuel 0 [] chunks (by simp) h c hc
  | cons sep rest ih =>
    intro text chunks h c hc
    rw [splitText_cons_eq] at h
    by_cases h0 : text.length = 0
    · rw [if_pos h0] at h
      rw [← Outcome.done.inj h] at hc
      simp at hc
    · rw [if_neg h0] at h
      by_cases h1 : (text.length : Int) ≤ cfg.ChunkSize
      · rw [if_pos h1] at h
        rw [← Outcome.done.inj h, List.mem_singleton] at hc
        exact ⟨text, hc⟩
      · rw [if_neg h1] at h
        exact mergeLoop_trimmed cfg sep _ (fun p sub hp => ih p sub hp) _ chunks h c hc

/-- **C11**.  Every chunk is trimmed.  For every text, every list of separators and every
configuration with `ChunkSize > 0` and `0 ≤ ChunkOverlap < ChunkSize`, `splitText` returns
chunks `c` with `TrimSpace c = c`: a chunk is empty, or begins and ends with runes that
are not white space.  So do the recursive calls on the pieces (they are calls of
`splitText`), and so does the fixed-size fallback `splitBySize`. -/
theorem splitText_chunks_trimmed (cfg : Options) (hcs : 0 < cfg.ChunkSize)
    (hco : 0 ≤ cfg.ChunkOverlap) (hlt : cfg.ChunkOverlap < cfg.ChunkSize) (text : GoString)
    (seps : List GoString) :
    (∃ chunks,
      (∀ fuel, max text.length 4 < fuel → splitText cfg fuel text seps = .done chunks) ∧
      ∀ c ∈ chunks, TrimSpace c = c ∧
        (c = [] ∨ (isSpace (decodeRune c).1 = false ∧ isSpace (decodeLastRune c).1 = false))) ∧
    (∃ chunks,
      (∀ fuel, text.length < fuel → splitBySize cfg fuel text = .done chunks) ∧
      ∀ c ∈ chunks, TrimSpace c = c ∧
        (c = [] ∨ (isSpace (decodeRune c).1 = false ∧ isSpace (decodeLastRune c).1 = false))) := by
  have key : ∀ c : GoString, (∃ s, c = TrimSpace s) → TrimSpace c = c ∧
      (c = [] ∨ (isSpace (decodeRune c).1 = false ∧ isSpace (decodeLastRune c).1 = false)) := by
    rintro c ⟨s, rfl⟩
    exact ⟨TrimSpace_idem s, TrimSpace_ends s⟩
  constructor
  · obtain ⟨chunks, hch⟩ := splitText_returns cfg hcs hco hlt seps text
    refine ⟨chunks, hch, fun c hc => key c ?_⟩
    exact splitText_trimmed cfg _ seps text chunks (hch _ (Nat.lt_succ_self _)) c hc
  · obtain ⟨chunks, hch⟩ := splitBySize_terminates cfg hcs hco hlt text
    refine ⟨chunks, hch, fun c hc => key c ?_⟩
    exact splitBySizeLoop_forall cfg (runes text) (fun c => ∃ s, c = TrimSpace s)
      (fun a b _ => ⟨_, rfl⟩) _ 0 [] chunks (by simp) (hch _ (Nat.lt_succ_self _)) c hc

/-- Witness of `splitText_chunks_trimmed`: the text `" ab  cd ef "` with the separators
`" "` and `""`. -/
theorem splitText_chunks_trimmed_witness :
    (0 < (⟨3, 1, []⟩ : Options).ChunkSize ∧ 0 ≤ (⟨3, 1, []⟩ : Options).ChunkOverlap ∧
      (⟨3, 1, []⟩ : Options).ChunkOverlap < (⟨3, 1, []⟩ : Options).ChunkSize) ∧
    (∃ chunks,
      (∀ fuel, max ([32, 97, 98, 32, 32, 99, 100, 32, 101, 102, 32] : GoString).length 4 < fuel →
        splitText ⟨3, 1, []⟩ fuel [32, 97, 98, 32, 32, 99, 100, 32, 101, 102, 32] [[32], []]
          = .done chunks) ∧
      ∀ c ∈ chunks, TrimSpace c = c ∧
        (c = [] ∨ (isSpace (decodeRune c).1 = false ∧ isSpace (decodeLastRune c).1 = false))) ∧
    (∃ chunks,
      (∀ fuel, ([32, 97, 98, 32, 32, 99, 100, 32, 101, 102, 32] : GoString).length < fuel →
        splitBySize ⟨3, 1, []⟩ fuel [32, 97, 98, 32, 32, 99, 100, 32, 101, 102, 32]
          = .done chunks) ∧
      ∀ c ∈ chunks, TrimSpace c = c ∧
        (c = [] ∨ (isSpace (decodeRune c).1 = false ∧ isSpace (decodeLastRune c).1 = false))) :=
  ⟨⟨by decide, by decide, by decide⟩,
    splitText_chunks_trimmed ⟨3, 1, []⟩ (by decide) (by decide) (by decide)
      [32, 97, 98, 32, 32, 99, 100, 32, 101, 102, 32] [[32], []]⟩

/-! ## Clean pieces and their joins -/

/-- A valid string that is not empty ends with the encoding of a scalar value. -/
theorem IsValid_last (b : GoString) (hb : IsValid b) (hne : b ≠ []) :
    ∃ y r, IsScalar r ∧ b = y ++ encodeRune r := by
  obtain ⟨rs, hrs, rfl⟩ := hb
  have hrs0 : rs ≠ [] := fun h => hne (by rw [h]; rfl)
  obtain ⟨init, r, rfl⟩ : ∃ init r, rs = init ++ [r] :=
    ⟨rs.dropLast, rs.getLast hrs0, (List.dropLast_append_getLast hrs0).symm⟩
  refine ⟨encodeRunes init, r, hrs r (by simp), ?_⟩
  rw [encodeRunes_append, encodeRunes_cons, encodeRunes_nil, List.append_nil]

/-- The first rune of a valid string is the first rune of its extensions. -/
theorem decodeRune_valid_append (a x : GoString) (ha : IsValid a) (hne : a ≠ []) :
    decodeRune (a ++ x) = decodeRune a := by
  obtain ⟨rs, hrs, rfl⟩ := ha
  cases rs with
  | nil => exact absurd rfl hne
  | cons r rs =>
    have hr := hrs r (List.mem_cons_self _ _)
    rw [encodeRunes_cons, List.append_assoc, decodeRune_encodeRune r hr,
      decodeRune_encodeRune r hr]

/-- The last rune of a valid string is the last rune of the strings that end with it. -/
theorem decodeLastRune_valid_append (x b : GoString) (hb : IsValid b) (hne : b ≠ []) :
    decodeLastRune (x ++ b) = decodeLastRune b := by
  obtain ⟨y, r, hr, rfl⟩ := IsValid_last b hb hne
  rw [← List.append_assoc, decodeLastRune_encodeRune _ r hr, decodeLastRune_encodeRune _ r hr]

/-- A clean string begins and ends with runes that are not white space. -/
theorem IsClean_ends (s : GoString) (h : IsClean s) :
    isSpace (decodeRune s).1 = false ∧ isSpace (decodeLastRune s).1 = false := by
  obtain ⟨_, hne, ht⟩ := h
  rcases TrimSpace_ends s with h0 | h0
  · rw [ht] at h0
    exact absurd h0 hne
  · rwa [ht] at h0

/-- Two clean strings with a valid string between them make a clean string. -/
theorem IsClean_append (a m b : GoString) (ha : IsClean a) (hm : IsValid m) (hb : IsClean b) :
    IsClean (a ++ m ++ b) := by
  refine ⟨IsValid_append _ _ (IsValid_append _ _ ha.1 hm) hb.1, ?_, ?_⟩
  · intro h
    have h1 := List.append_eq_nil.1 h
    exact hb.2.1 h1.2
  · apply TrimSpace_fix
    right
    constructor
    · rw [List.append_assoc, decodeRune_valid_append a _ ha.1 ha.2.1]
      exact (IsClean_ends a ha).1
    · rw [decodeLastRune_valid_append _ b hb.1 hb.2.1]
      exact (IsClean_ends b hb).2

/-- The join of clean strings with a valid separator is a clean string. -/
theorem IsClean_join (sep : GoString) (hsep : IsValid sep) :
    ∀ g : List GoString, g ≠ [] → (∀ p ∈ g, IsClean p) → IsClean (stringsJoin sep g) := by
  intro g
  induction g with
  | nil => intro h; exact absurd rfl h
  | cons a l ih =>
    intro _ hall
    cases l with
    | nil => exact hall a (List.mem_cons_self _ _)
    | cons b l =>
      rw [stringsJoin_cons_cons]
      exact IsClean_append a sep _ (hall a (List.mem_cons_self _ _)) hsep
        (ih (List.cons_ne_nil _ _) (fun p hp => hall p (List.mem_cons_of_mem _ hp)))

/-- The join of a list of strings is empty only for the empty list, when no string of the
list is empty. -/
theorem stringsJoin_eq_nil (sep : GoString) (g : List GoString) (hall : ∀ p ∈ g, p ≠ [])
    (h : stringsJoin sep g = []) : g = [] := by
  cases g with
  | nil => rfl
  | cons a l =>
    exfalso
    cases l with
    | nil => exact hall a (List.mem_cons_self _ _) h
    | cons b l =>
      rw [stringsJoin_cons_cons] at h
      have h1 := List.append_eq_nil.1 h
      have h2 := List.append_eq_nil.1 h1.1
      exact hall a (List.mem_cons_self _ _) h2.1

/-- What is in the buffer after a piece has been written to a buffer that is not empty,
after the first iteration. -/
theorem writePiece_join (sep : GoString) (i : Nat) (cur p : GoString) (hcur : cur ≠ [])
    (hi : 0 < i) : writePiece sep i cur p = cur ++ sep ++ p := by
  unfold writePiece
  have hpos : cur.length > 0 := List.length_pos.2 hcur
  by_cases hsep : sep = []
  · rw [if_neg (fun h => h.2.1 hsep), hsep, List.append_nil]
  · rw [if_pos ⟨hpos, hsep, hi⟩]

/-- The buffer after a piece has been written, as a join: the piece is added to the pieces
the buffer holds. -/
theorem writePiece_stringsJoin (sep : GoString) (i : Nat) (g : List GoString) (p : GoString)
    (hall : ∀ q ∈ g, q ≠ []) (hi : stringsJoin sep g ≠ [] → 0 < i) :
    writePiece sep i (stringsJoin sep g) p = stringsJoin sep (g ++ [p]) := by
  by_cases hg : g = []
  · rw [hg]
    exact writePiece_nil sep i p
  · have hne : stringsJoin sep g ≠ [] := fun h => hg (stringsJoin_eq_nil sep g hall h)
    rw [writePiece_join sep i _ p hne (hi hne),
      stringsJoin_append sep g [p] hg (List.cons_ne_nil _ _), stringsJoin_singleton]

/-- Joining the joins of groups of strings is joining all the strings. -/
theorem stringsJoin_map_flatten (sep : GoString) :
    ∀ G : List (List GoString), (∀ g ∈ G, g ≠ []) →
      stringsJoin sep (G.map (stringsJoin sep)) = stringsJoin sep G.flatten := by
  intro G
  induction G with
  | nil => intro _; rfl
  | cons g G ih =>
    intro hall
    have hg : g ≠ [] := hall g (List.mem_cons_self _ _)
    cases G with
    | nil => simp [stringsJoin_singleton]
    | cons g2 G =>
      have hg2 : g2 ≠ [] := hall g2 (List.mem_cons_of_mem _ (List.mem_cons_self _ _))
      have hfl : (g2 :: G).flatten ≠ [] := by
        rw [List.flatten_cons]
        intro h
        exact hg2 (List.append_eq_nil.1 h).1
      have hcons : (g :: g2 :: G).flatten = g ++ (g2 :: G).flatten := rfl
      rw [List.map_cons, stringsJoin_cons sep _ _ (by simp), ih
        (fun x hx => hall x (List.mem_cons_of_mem _ hx)), hcons,
        stringsJoin_append sep g _ hg hfl]

/-- The join of a run of consecutive strings of a list is a contiguous part of the join of
the list. -/
theorem stringsJoin_contiguous (sep : GoString) (A g B : List GoString) (hg : g ≠ []) :
    stringsJoin sep g <:+: stringsJoin sep (A ++ g ++ B) := by
  by_cases hA : A = []
  · by_cases hB : B = []
    · rw [hA, hB, List.nil_append, List.append_nil]
    · rw [hA, List.nil_append, stringsJoin_append sep g B hg hB, List.append_assoc]
      exact (List.prefix_append _ _).isInfix
  · by_cases hB : B = []
    · rw [hB, List.append_nil, stringsJoin_append sep A g hA hg]
      exact (List.suffix_append _ _).isInfix
    · have hAg : A ++ g ≠ [] := fun h => hA (List.append_eq_nil.1 h).1
      rw [stringsJoin_append sep _ B hAg hB, stringsJoin_append sep A g hA hg]
      exact ⟨stringsJoin sep A ++ sep, sep ++ stringsJoin sep B, by
        simp only [List.append_assoc]⟩

/-- A valid string is the encoding of its runes. -/
theorem encodeRunes_runes (s : GoString) (h : IsValid s) : encodeRunes (runes s) = s := by
  obtain ⟨rs, hrs, rfl⟩ := h
  rw [runes_encodeRunes rs hrs]

/-- Joining the encodings of runes with the empty separator is encoding the runes. -/
theorem stringsJoin_nil_map (rs : List Nat) :
    stringsJoin [] (rs.map encodeRune) = encodeRunes rs := by
  induction rs with
  | nil => rfl
  | cons r rs ih =>
    cases rs with
    | nil => simp [stringsJoin_singleton, encodeRunes_cons, encodeRunes_nil]
    | cons r2 rs =>
      rw [List.map_cons, List.map_cons, stringsJoin_cons_cons, ← List.map_cons, ih,
        List.append_nil, encodeRunes_cons r]

/-- A valid text is the join of its pieces, for the empty separator too. -/
theorem stringsJoin_splitPieces (text sep : GoString) (ht : IsValid text) :
    stringsJoin sep (splitPieces text sep) = text := by
  unfold splitPieces
  split
  · rename_i h
    rw [h, stringsJoin_nil_map, encodeRunes_runes text ht]
  · exact stringsJoin_stringsSplit text sep

/-- The pieces of a valid text, for a valid separator, are valid. -/
theorem splitPieces_valid (text sep : GoString) (ht : IsValid text) (hsep : IsValid sep) :
    ∀ p ∈ splitPieces text sep, IsValid p := by
  unfold splitPieces
  split
  · intro p hp
    obtain ⟨r, hr, rfl⟩ := List.mem_map.1 hp
    exact ⟨[r], fun x hx => by rw [List.mem_singleton.1 hx]; exact runes_scalar text r hr, by
      rw [encodeRunes_cons, encodeRunes_nil, List.append_nil]⟩
  · rename_i hne
    exact stringsSplit_valid text sep ht hsep hne

/-! ## First and last rune of a string that is extended -/

/-- A continuation byte does not start a rune. -/
theorem RuneStart_cont (b : Nat) (h : 0x80 ≤ b ∧ b ≤ 0xBF) : RuneStart b = false := by
  simp only [RuneStart, Bool.not_eq_false', Bool.and_eq_true, decide_eq_true_eq]
  omega

/-- The second byte of a three or four byte encoding is a continuation byte. -/
theorem RuneStart_accept (c b : Nat) (h : acceptLo c ≤ b ∧ b ≤ acceptHi c) :
    RuneStart b = false := by
  have hlo := acceptLo_cases c
  have hhi := acceptHi_cases c
  exact RuneStart_cont b (by omega)

/-- The first rune of a string is not changed by what is appended to the string, when
that begins with the first byte of a rune. -/
theorem decodeRune_append_start (p y : GoString) (hp : p ≠ [])
    (hy : ∀ b ∈ y.head?, RuneStart b = true) : decodeRune (p ++ y) = decodeRune p := by
  by_cases hd : decodeRune p = (RuneError, 1)
  swap
  · exact decodeRune_append p y hp hd
  have hcont : ∀ (b : Nat) (l : GoString), y = b :: l → RuneStart b = false → False := by
    intro b l hyb hb
    have := hy b (by rw [hyb]; rfl)
    rw [hb] at this
    exact Bool.noConfusion this
  cases p with
  | nil => exact absurd rfl hp
  | cons c t =>
    rw [hd, List.cons_append]
    rcases decodeRune_cases c (t ++ y) with h | ⟨h0, _⟩ | ⟨s1, t1, ht, h0, h1, _⟩ |
      ⟨s1, s2, t2, ht, h0, h1, h2, _⟩ | ⟨s1, s2, s3, t3, ht, h0, h1, h2, h3, _⟩
    · exact h
    · rw [decodeRune_one c t h0] at hd
      have := (Prod.mk.inj hd).1
      simp only [RuneError] at this
      omega
    · exfalso
      match t, ht with
      | [], ht => exact hcont s1 t1 ht (RuneStart_cont s1 h1)
      | a :: t, ht =>
        simp only [List.cons_append, List.cons.injEq] at ht
        obtain ⟨ha, -⟩ := ht
        subst ha
        rw [decodeRune_two c a t h0 h1] at hd
        exact absurd (Prod.mk.inj hd).2 (by decide)
    · exfalso
      match t, ht with
      | [], ht => exact hcont s1 _ ht (RuneStart_accept c s1 h1)
      | [a], ht =>
        simp only [List.cons_append, List.nil_append, List.cons.injEq] at ht
        exact hcont s2 t2 ht.2 (RuneStart_cont s2 h2)
      | a :: b :: t, ht =>
        simp only [List.cons_append, List.cons.injEq] at ht
        obtain ⟨ha, hb, -⟩ := ht
        subst ha hb
        rw [decodeRune_three c a b t h0 h1 h2] at hd
        exact absurd (Prod.mk.inj hd).2 (by decide)
    · exfalso
      match t, ht with
      | [], ht => exact hcont s1 _ ht (RuneStart_accept c s1 h1)
      | [a], ht =>
        simp only [List.cons_append, List.nil_append, List.cons.injEq] at ht
        exact hcont s2 _ ht.2 (RuneStart_cont s2 h2)
      | [a, b], ht =>
        simp only [List.cons_append, List.nil_append, List.cons.injEq] at ht
        exact hcont s3 t3 ht.2.2 (RuneStart_cont s3 h3)
      | a :: b :: d :: t, ht =>
        simp only [List.cons_append, List.cons.injEq] at ht
        obtain ⟨ha, hb, hd3, -⟩ := ht
        subst ha hb hd3
        rw [decodeRune_four c a b d t h0 h1 h2 h3] at hd
        exact absurd (Prod.mk.inj hd).2 (by decide)

/-- The width `utf8.DecodeRuneInString` returns for a correct encoding is the length of
the encoding of the rune. -/
theorem decodeRune_width_eq (c : Nat) (t : GoString)
    (h : decodeRune (c :: t) ≠ (RuneError, 1)) :
    (encodeRune (decodeRune (c :: t)).1).length = (decodeRune (c :: t)).2 := by
  have h1 := decodeRune_take c t h
  have h2 := decodeRune_width c t
  have h3 := congrArg List.length h1
  rw [List.length_append, List.length_drop] at h3
  simp only [List.length_cons] at h3 ⊢
  omega

/-- The ways `utf8.DecodeLastRuneInString` decodes a string that is not empty: an error of
width 1, or the string ends with the encoding of the scalar value that is returned. -/
theorem decodeLastRune_cases (s : GoString) (hs : s ≠ []) :
    decodeLastRune s = (RuneError, 1) ∨
      ∃ y r, IsScalar r ∧ s = y ++ encodeRune r ∧
        decodeLastRune s = (r, (encodeRune r).length) := by
  have hpos : 0 < s.length := List.length_pos.2 hs
  by_cases h1 : s.getD (s.length - 1) 0 < 0x80
  · right
    have hlast : s = s.dropLast ++ [s.getD (s.length - 1) 0] := by
      conv_lhs => rw [← List.dropLast_append_getLast hs]
      congr 2
      rw [List.getLast_eq_getElem, List.getD_eq_getElem?_getD,
        List.getElem?_eq_getElem (by omega)]
      rfl
    have henc : encodeRune (s.getD (s.length - 1) 0) = [s.getD (s.length - 1) 0] := by
      unfold encodeRune
      rw [if_pos h1]
    refine ⟨s.dropLast, s.getD (s.length - 1) 0, Or.inl (by omega), ?_, ?_⟩
    · rw [henc]
      exact hlast
    · rw [henc]
      conv_lhs => rw [hlast]
      exact decodeLastRune_append_one _ _ h1
  · have hlt := lastRuneStart_lt s hs
    have hdef : decodeLastRune s =
        if lastRuneStart s + (decodeRune (s.drop (lastRuneStart s))).2 ≠ s.length
        then (RuneError, 1) else decodeRune (s.drop (lastRuneStart s)) := by
      unfold decodeLastRune
      rw [if_neg (by omega), if_neg h1]
    by_cases h2 : lastRuneStart s + (decodeRune (s.drop (lastRuneStart s))).2 ≠ s.length
    · left
      rw [hdef, if_pos h2]
    · rw [if_neg h2] at hdef
      by_cases h3 : decodeRune (s.drop (lastRuneStart s)) = (RuneError, 1)
      · left
        rw [hdef, h3]
      · right
        have hne : s.drop (lastRuneStart s) ≠ [] := by
          intro h
          have := congrArg List.length h
          rw [List.length_drop] at this
          simp only [List.length_nil] at this
          omega
        obtain ⟨c, t, hct⟩ := List.exists_cons_of_ne_nil hne
        rw [hct] at h3 hdef h2
        have htake := decodeRune_take c t h3
        have hw := decodeRune_width_eq c t h3
        have hlen : (c :: t).length = s.length - lastRuneStart s := by
          rw [← hct, List.length_drop]
        have hnil : (c :: t).drop (decodeRune (c :: t)).2 = [] := by
          apply List.eq_nil_of_length_eq_zero
          rw [List.length_drop, hlen]
          omega
        rw [hnil, List.append_nil] at htake
        refine ⟨s.take (lastRuneStart s), (decodeRune (c :: t)).1, decodeRune_scalar _, ?_, ?_⟩
        · rw [← htake, ← hct, List.take_append_drop]
        · rw [hdef, hw]

/-- The encoding of a scalar value is not the beginning of a longer encoding. -/
theorem encodeRune_append_eq (r0 r : Nat) (hr0 : IsScalar r0) (hr : IsScalar r)
    (p : GoString) (h : encodeRune r = encodeRune r0 ++ p) : p = [] := by
  have h1 := decodeRune_encodeRune r0 hr0 p
  have h2 := decodeRune_encodeRune r hr []
  rw [List.append_nil, h, h1] at h2
  have h3 := (Prod.mk.inj h2).2
  rw [List.length_append] at h3
  exact List.eq_nil_of_length_eq_zero (by omega)

/-- The first byte of the encoding of a scalar value that is cut in two non-empty parts
starts a rune, the first byte of the second part does not. -/
theorem encodeRune_cut (r : Nat) (a c : GoString) (ha : a ≠ []) (h : encodeRune r = a ++ c) :
    ∀ b ∈ c.head?, RuneStart b = false := by
  intro b hb
  obtain ⟨x, a2, rfl⟩ := List.exists_cons_of_ne_nil ha
  apply encodeRune_tail_cont r
  rw [h, List.cons_append, List.tail_cons]
  cases c with
  | nil => simp at hb
  | cons y c2 =>
    simp only [List.head?_cons, Option.mem_def, Option.some.injEq] at hb
    rw [← hb]
    simp

/-- The last rune of a string is not changed by what comes before the string, when that
ends with the encoding of a scalar value. -/
theorem decodeLastRune_append_stable (Y : GoString) (r0 : Nat) (hr0 : IsScalar r0)
    (p : GoString) (hp : p ≠ []) :
    decodeLastRune (Y ++ encodeRune r0 ++ p) = decodeLastRune p := by
  have hvalid : ∀ (a : GoString) (r : Nat), IsScalar r → p = a ++ encodeRune r →
      decodeLastRune (Y ++ encodeRune r0 ++ p) = decodeLastRune p := by
    intro a r hr hpa
    rw [hpa, ← List.append_assoc, decodeLastRune_encodeRune _ r hr,
      decodeLastRune_encodeRune _ r hr]
  rcases decodeLastRune_cases p hp with hB | ⟨y, r, hr, hy, _⟩
  swap
  · exact hvalid y r hr hy
  have hne : Y ++ encodeRune r0 ++ p ≠ [] := fun h => hp (List.append_eq_nil.1 h).2
  rcases decodeLastRune_cases _ hne with h | ⟨y, r, hr, hs, _⟩
  · rw [h, hB]
  exfalso
  have hstart : ∀ b ∈ (encodeRune r).head?, RuneStart b = true := encodeRune_head_start r
  have hclash : ∀ l : GoString, (∀ b ∈ l.head?, RuneStart b = true) →
      (∀ b ∈ l.head?, RuneStart b = false) → l ≠ [] → False := by
    intro l h1 h2 hl
    obtain ⟨b, l2, rfl⟩ := List.exists_cons_of_ne_nil hl
    have e1 := h1 b rfl
    rw [h2 b rfl] at e1
    exact Bool.noConfusion e1
  have hsplit : ∀ a : GoString, p = a ++ encodeRune r → False := by
    intro a hpa
    have := decodeLastRune_encodeRune a r hr
    rw [← hpa, hB] at this
    have h1 := (Prod.mk.inj this).1
    have h2 := (Prod.mk.inj this).2
    rw [← h1] at h2
    exact absurd h2 (by decide)
  rcases List.append_eq_append_iff.1 hs with ⟨a, _, hpa⟩ | ⟨c, hYc, hrc⟩
  · exact hsplit a hpa
  · by_cases hc : c = []
    · rw [hc, List.nil_append] at hrc
      exact hsplit [] (by rw [List.nil_append, hrc])
    · rcases List.append_eq_append_iff.1 hYc with ⟨a2, hy2, hr2⟩ | ⟨c2, _, hcc⟩
      · -- `encodeRune r0 = a2 ++ c` and `encodeRune r = c ++ p`
        by_cases ha2 : a2 = []
        · rw [ha2, List.nil_append] at hr2
          rw [← hr2] at hrc
          exact hp (encodeRune_append_eq r0 r hr0 hr p hrc)
        · refine hclash c ?_ (encodeRune_cut r0 a2 c ha2 hr2) hc
          intro b hb
          apply hstart b
          rw [hrc]
          obtain ⟨x, c3, rfl⟩ := List.exists_cons_of_ne_nil hc
          exact hb
      · -- `c = c2 ++ encodeRune r0` and `encodeRune r = c ++ p`
        by_cases hc2 : c2 = []
        · rw [hc2, List.nil_append] at hcc
          rw [hcc] at hrc
          exact hp (encodeRune_append_eq r0 r hr0 hr p hrc)
        · rw [hcc, List.append_assoc] at hrc
          refine hclash (encodeRune r0) (encodeRune_head_start r0) ?_ (encodeRune_ne_nil r0)
          intro b hb
          apply encodeRune_cut r c2 (encodeRune r0 ++ p) hc2 hrc b
          obtain ⟨x, e3, he⟩ := List.exists_cons_of_ne_nil (encodeRune_ne_nil r0)
          rw [he] at hb ⊢
          exact hb

/-- A string that ends with a rune that is not white space is not emptied by
`strings.TrimLeftFunc`, and what remains ends with a rune that is not white space. -/
theorem trimLeftFuel_last (n : Nat) :
    ∀ s : GoString, s ≠ [] → isSpace (decodeLastRune s).1 = false →
      trimLeftFuel n s ≠ [] ∧ isSpace (decodeLastRune (trimLeftFuel n s)).1 = false := by
  induction n with
  | zero =>
    intro s hs hl
    have : trimLeftFuel 0 s = s := by cases s <;> rfl
    rw [this]
    exact ⟨hs, hl⟩
  | succ n ih =>
    intro s hs hl
    obtain ⟨c, t, rfl⟩ := List.exists_cons_of_ne_nil hs
    simp only [trimLeftFuel]
    split
    · rename_i hsp
      have hd : decodeRune (c :: t) ≠ (RuneError, 1) := by
        intro h
        rw [h] at hsp
        exact absurd hsp (by decide)
      have htake := decodeRune_take c t hd
      have hsc := decodeRune_scalar (c :: t)
      by_cases hrest : (c :: t).drop (decodeRune (c :: t)).2 = []
      · exfalso
        rw [hrest, List.append_nil] at htake
        have := decodeLastRune_encodeRune [] _ hsc
        rw [List.nil_append, ← htake] at this
        rw [this] at hl
        rw [hl] at hsp
        exact Bool.noConfusion hsp
      · apply ih _ hrest
        have := decodeLastRune_append_stable [] _ hsc _ hrest
        rw [List.nil_append, ← htake] at this
        rw [← this]
        exact hl
    · exact ⟨hs, hl⟩

/-- A string that ends with a rune that is not white space is not emptied by
`strings.TrimSpace`. -/
theorem TrimSpace_ne_nil (s : GoString) (hs : s ≠ [])
    (hl : isSpace (decodeLastRune s).1 = false) : TrimSpace s ≠ [] := by
  have h := trimLeftFuel_last s.length s hs hl
  unfold TrimSpace
  rw [trimRightFuel_fix _ _ (Or.inr h.2)]
  exact h.1

/-! ## Lossless round trip on clean input -/

/-- The join, with a valid separator that is not empty, of strings that are not empty and
have no leading or trailing white space is not empty and has no leading or trailing white
space. -/
theorem TrimSpace_stringsJoin (sep : GoString) (hsep : IsValid sep) (hne : sep ≠ []) :
    ∀ g : List GoString, g ≠ [] → (∀ p ∈ g, p ≠ [] ∧ TrimSpace p = p) →
      stringsJoin sep g ≠ [] ∧ TrimSpace (stringsJoin sep g) = stringsJoin sep g := by
  have hends : ∀ g : List GoString, g ≠ [] → (∀ p ∈ g, p ≠ [] ∧ TrimSpace p = p) →
      stringsJoin sep g ≠ [] ∧ isSpace (decodeRune (stringsJoin sep g)).1 = false ∧
        isSpace (decodeLastRune (stringsJoin sep g)).1 = false := by
    intro g
    induction g with
    | nil => intro h; exact absurd rfl h
    | cons a l ih =>
      intro _ hall
      have ha := hall a (List.mem_cons_self _ _)
      have haends : isSpace (decodeRune a).1 = false ∧ isSpace (decodeLastRune a).1 = false := by
        rcases TrimSpace_ends a with h0 | h0
        · rw [ha.2] at h0
          exact absurd h0 ha.1
        · rwa [ha.2] at h0
      cases l with
      | nil => exact ⟨ha.1, haends⟩
      | cons b l =>
        obtain ⟨hJ, _, hJl⟩ := ih (List.cons_ne_nil _ _)
          (fun p hp => hall p (List.mem_cons_of_mem _ hp))
        rw [stringsJoin_cons_cons]
        refine ⟨fun h => hJ (List.append_eq_nil.1 h).2, ?_, ?_⟩
        · rw [List.append_assoc, decodeRune_append_start a _ ha.1]
          · exact haends.1
          · intro x hx
            apply IsValid_head_start sep hsep x
            obtain ⟨s0, s1, rfl⟩ := List.exists_cons_of_ne_nil hne
            exact hx
        · obtain ⟨y0, r0, hr0, hy0⟩ := IsValid_last sep hsep hne
          have hsplit : a ++ sep = a ++ y0 ++ encodeRune r0 := by
            rw [List.append_assoc, ← hy0]
          rw [hsplit, decodeLastRune_append_stable _ r0 hr0 _ hJ]
          exact hJl
  intro g hg hall
  obtain ⟨h1, h2, h3⟩ := hends g hg hall
  exact ⟨h1, TrimSpace_fix _ (Or.inr ⟨h2, h3⟩)⟩

/-- The flush of a buffer that holds a join that has no leading or trailing white space:
the join is added as it is. -/
theorem flushBuffer_join (sep : GoString) (G : List (List GoString)) (g : List GoString)
    (hg : ∀ p ∈ g, p ≠ [])
    (ht : g ≠ [] → TrimSpace (stringsJoin sep g) = stringsJoin sep g) :
    flushBuffer (G.map (stringsJoin sep)) (stringsJoin sep g)
      = (if g = [] then G else G ++ [g]).map (stringsJoin sep) := by
  by_cases h : g = []
  · rw [if_pos h, h]
    rfl
  · have hne : stringsJoin sep g ≠ [] := fun h0 => h (stringsJoin_eq_nil sep g hg h0)
    rw [if_neg h, flushBuffer_of_ne_nil _ _ hne, ht h, List.map_append, List.map_cons,
      List.map_nil]

/-- Without overlap, on pieces that are not empty, have no leading or trailing white space
and fit in `ChunkSize`, and whose joins have no leading or trailing white space, the
merging loop returns the joins of groups of consecutive pieces: the groups are not empty
and, one after the other, they make the list of pieces. -/
theorem mergeLoop_clean_groups (cfg : Options) (hco : cfg.ChunkOverlap = 0) (sep : GoString)
    (recur : GoString → Outcome (List GoString)) (splits : List GoString)
    (hgood : ∀ p ∈ splits, p ≠ [] ∧ TrimSpace p = p ∧ (p.length : Int) ≤ cfg.ChunkSize)
    (hjoin : ∀ g : List GoString, g ≠ [] → (∀ p ∈ g, p ∈ splits) →
      TrimSpace (stringsJoin sep g) = stringsJoin sep g)
    (out : List GoString) (hout : mergeLoop cfg sep recur splits 0 [] [] = .done out) :
    ∃ G : List (List GoString), G.flatten = splits ∧ (∀ g ∈ G, g ≠ []) ∧
      out = G.map (stringsJoin sep) := by
  have hrule := mergeLoop_rule cfg sep recur
    (fun rest i chunks cur => ∃ (G : List (List GoString)) (g : List GoString),
      G.flatten ++ g ++ rest = splits ∧ (∀ x ∈ G, x ≠ []) ∧
      chunks = G.map (stringsJoin sep) ∧ cur = stringsJoin sep g ∧ (cur ≠ [] → 0 < i))
    ?_ ?_ ?_ ?_ splits 0 [] [] out ⟨[], [], by simp, by simp, rfl, rfl, by simp⟩ hout
  · obtain ⟨_, chunks2, cur2, ⟨G, g, hsp, hG, rfl, rfl, _⟩, rfl⟩ := hrule
    rw [List.append_nil] at hsp
    have hmem : ∀ p ∈ g, p ∈ splits := fun p hp => by
      rw [← hsp]; exact List.mem_append_right _ hp
    rw [flushBuffer_join sep G g (fun p hp => (hgood p (hmem p hp)).1)
      (fun hg => hjoin g hg hmem)]
    by_cases h : g = []
    · rw [if_pos h]
      rw [h, List.append_nil] at hsp
      exact ⟨G, hsp, hG, rfl⟩
    · rw [if_neg h]
      refine ⟨G ++ [g], by simpa using hsp, ?_, rfl⟩
      intro x hx
      rcases List.mem_append.1 hx with hx | hx
      · exact hG x hx
      · rw [List.mem_singleton.1 hx]
        exact h
  · rintro p rest i chunks cur ⟨G, g, hsp, _⟩ h1
    have hp := hgood p (by rw [← hsp]; simp)
    rw [hp.2.1] at h1
    exact absurd h1 hp.1
  · rintro p rest i chunks cur sub ⟨G, g, hsp, _⟩ _ h2 _
    have hp := hgood p (by rw [← hsp]; simp)
    rw [hp.2.1] at h2
    omega
  · rintro p rest i chunks cur ⟨G, g, hsp, hG, rfl, rfl, hi⟩ _ h2 h3
    have hp := hgood p (by rw [← hsp]; simp)
    have hmem : ∀ q ∈ g, q ∈ splits := fun q hq => by rw [← hsp]; simp [hq]
    have hpos := newSize_pos_of_overflow cfg sep _ _ h2 h3
    have hgne : g ≠ [] := by
      intro h
      rw [h] at hpos
      exact Nat.lt_irrefl _ hpos
    rw [flushBuffer_join sep G g (fun q hq => (hgood q (hmem q hq)).1)
      (fun hg => hjoin g hg hmem), if_neg hgne, hp.2.1,
      overlapSeed_of_nonpos cfg sep _ hco.le, writePiece_nil]
    refine ⟨G ++ [g], [p], by simpa using hsp, ?_, rfl, rfl, fun _ => Nat.succ_pos _⟩
    intro x hx
    rcases List.mem_append.1 hx with hx | hx
    · exact hG x hx
    · rw [List.mem_singleton.1 hx]
      exact hgne
  · rintro p rest i chunks cur ⟨G, g, hsp, hG, rfl, rfl, hi⟩ _ _ _
    have hp := hgood p (by rw [← hsp]; simp)
    have hg : ∀ q ∈ g, q ≠ [] := fun q hq =>
      (hgood q (by rw [← hsp]; simp [hq])).1
    rw [hp.2.1, writePiece_stringsJoin sep i g p hg hi]
    exact ⟨G, g ++ [p], by simpa using hsp, hG, rfl, rfl, fun _ => Nat.succ_pos _⟩

/-- The chunks of a text with clean pieces, without overlap, for a valid separator that is
not empty: the joins of groups of consecutive pieces. -/
theorem splitText_clean_groups (cfg : Options) (fuel : Nat) (text sep : GoString)
    (rest : List GoString) (hcs : 1 ≤ cfg.ChunkSize) (hco : cfg.ChunkOverlap = 0)
    (hsep : sep ≠ []) (hvs : ValidString sep = true)
    (hlong : cfg.ChunkSize < (text.length : Int))
    (hclean : ∀ p ∈ splitPieces text sep,
      p ≠ [] ∧ TrimSpace p = p ∧ (p.length : Int) ≤ cfg.ChunkSize) :
    ∃ (chunks : List GoString) (groups : List (List GoString)),
      splitText cfg fuel text (sep :: rest) = .done chunks ∧
      groups.flatten = splitPieces text sep ∧ (∀ g ∈ groups, g ≠ []) ∧
      chunks = groups.map (stringsJoin sep) := by
  obtain ⟨chunks, hch, _⟩ := splitText_fit_bound cfg fuel text sep rest (by omega)
    (fun p hp => (hclean p hp).2.2)
  have hm := hch
  rw [splitText_long cfg fuel text sep rest hlong (by omega)] at hm
  obtain ⟨G, h1, h2, h3⟩ := mergeLoop_clean_groups cfg hco sep _ (splitPieces text sep) hclean
    (fun g hg hmem => (TrimSpace_stringsJoin sep (ValidString_isValid sep hvs) hsep g hg
      (fun p hp => ⟨(hclean p (hmem p hp)).1, (hclean p (hmem p hp)).2.1⟩)).2)
    chunks hm
  exact ⟨chunks, G, hch, h1, h2, h3⟩

/-- **C18**, counterexample (a separator that is not valid UTF-8).  With the separator
`"\x85"` (a lone continuation byte) and `ChunkSize = 3`, the text `C2 85 61 85 62 63` has
the pieces `C2`, `"a"` and `"bc"`, which are not empty, have no leading or trailing white
space and fit; the buffer `C2 85 61` begins with U+0085, which is white space, so the chunk
is `"a"`, and the chunks `"a"`, `"bc"` joined with the separator are not the text.  The
same happens on a valid text: with the separator `85 C2` and `ChunkSize = 7`, the text
`C2 85 C2 A0 C2 85 C2 85` (four white space characters) has the pieces `C2`, `A0 C2` and
`85`, and the chunks are `C2` and `85`. -/
theorem splitText_round_trip_counterexample :
    ((1 : Int) ≤ 3 ∧ ([0x85] : GoString) ≠ [] ∧
      (3 : Int) < (([0xC2, 0x85, 0x61, 0x85, 0x62, 0x63] : GoString).length : Int) ∧
      stringsSplit [0xC2, 0x85, 0x61, 0x85, 0x62, 0x63] [0x85]
        = [[0xC2], [0x61], [0x62, 0x63]] ∧
      (∀ p ∈ stringsSplit [0xC2, 0x85, 0x61, 0x85, 0x62, 0x63] [0x85],
        p ≠ [] ∧ TrimSpace p = p ∧ (p.length : Int) ≤ 3) ∧
      ValidString [0x85] = false ∧
      splitText ⟨3, 0, []⟩ 7 [0xC2, 0x85, 0x61, 0x85, 0x62, 0x63] [[0x85]]
        = .done [[0x61], [0x62, 0x63]] ∧
      stringsJoin [0x85] [[0x61], [0x62, 0x63]] ≠ [0xC2, 0x85, 0x61, 0x85, 0x62, 0x63]) ∧
    ((1 : Int) ≤ 7 ∧ ([0x85, 0xC2] : GoString) ≠ [] ∧
      (7 : Int) < (([0xC2, 0x85, 0xC2, 0xA0, 0xC2, 0x85, 0xC2, 0x85] : GoString).length : Int) ∧
      ValidString [0xC2, 0x85, 0xC2, 0xA0, 0xC2, 0x85, 0xC2, 0x85] = true ∧
      stringsSplit [0xC2, 0x85, 0xC2, 0xA0, 0xC2, 0x85, 0xC2, 0x85] [0x85, 0xC2]
        = [[0xC2], [0xA0, 0xC2], [0x85]] ∧
      (∀ p ∈ stringsSplit [0xC2, 0x85, 0xC2, 0xA0, 0xC2, 0x85, 0xC2, 0x85] [0x85, 0xC2],
        p ≠ [] ∧ TrimSpace p = p ∧ (p.length : Int) ≤ 7) ∧
      ValidString [0x85, 0xC2] = false ∧
      splitText ⟨7, 0, []⟩ 9 [0xC2, 0x85, 0xC2, 0xA0, 0xC2, 0x85, 0xC2, 0x85] [[0x85, 0xC2]]
        = .done [[0xC2], [0x85]] ∧
      stringsJoin [0x85, 0xC2] [[0xC2], [0x85]]
        ≠ [0xC2, 0x85, 0xC2, 0xA0, 0xC2, 0x85, 0xC2, 0x85]) := by
  refine ⟨⟨by decide, by decide, by decide, by decide, by decide, by decide, by decide,
    by decide⟩, ⟨by decide, by decide, by decide, by decide, by decide, by decide, by decide,
    by decide, by decide⟩⟩

/-- **C18** (amended).  Lossless round trip on clean input.  For `ChunkOverlap = 0`, every
`ChunkSize ≥ 1`, every non-empty separator `sep` that is valid UTF-8 and every text such
that each piece of the text split on `sep` is not empty, has no leading or trailing white
space and is at most `ChunkSize` bytes long, the chunks `splitText(text, sep :: rest)`
returns, joined with `sep`, are exactly the text, and each chunk is the `sep`-join of a run
of consecutive pieces: the chunks are the joins of non-empty groups of pieces that, one
after the other, make the list of the pieces.  This holds for a text longer than
`ChunkSize`, which the merging loop handles, and also for a shorter one, which is returned
as a single chunk. -/
theorem splitText_round_trip (cfg : Options) (fuel : Nat) (text sep : GoString)
    (rest : List GoString) (hcs : 1 ≤ cfg.ChunkSize) (hco : cfg.ChunkOverlap = 0)
    (hsep : sep ≠ []) (hvs : ValidString sep = true)
    (hclean : ∀ p ∈ stringsSplit text sep,
      p ≠ [] ∧ TrimSpace p = p ∧ (p.length : Int) ≤ cfg.ChunkSize) :
    ∃ (chunks : List GoString) (groups : List (List GoString)),
      splitText cfg fuel text (sep :: rest) = .done chunks ∧
      stringsJoin sep chunks = text ∧
      groups.flatten = stringsSplit text sep ∧ (∀ g ∈ groups, g ≠ []) ∧
      chunks = groups.map (stringsJoin sep) := by
  have hpieces : splitPieces text sep = stringsSplit text sep := by
    unfold splitPieces
    rw [if_neg hsep]
  by_cases hlong : cfg.ChunkSize < (text.length : Int)
  · obtain ⟨chunks, G, h0, h1, h2, h3⟩ := splitText_clean_groups cfg fuel text sep rest hcs hco
      hsep hvs hlong (by rw [hpieces]; exact hclean)
    refine ⟨chunks, G, h0, ?_, by rw [← hpieces]; exact h1, h2, h3⟩
    rw [h3, stringsJoin_map_flatten sep G h2, h1, hpieces]
    exact stringsJoin_stringsSplit text sep
  · have hne : stringsSplit text sep ≠ [] := stringsSplitFuel_ne_nil sep _ text []
    have hjoin := TrimSpace_stringsJoin sep (ValidString_isValid sep hvs) hsep
      (stringsSplit text sep) hne (fun p hp => ⟨(hclean p hp).1, (hclean p hp).2.1⟩)
    rw [stringsJoin_stringsSplit] at hjoin
    refine ⟨[text], [stringsSplit text sep], ?_, rfl, by simp, ?_, ?_⟩
    · rw [splitText_short cfg fuel text (sep :: rest) hjoin.1 (by omega), hjoin.2]
    · intro g hg
      rw [List.mem_singleton.1 hg]
      exact hne
    · rw [List.map_cons, List.map_nil, stringsJoin_stringsSplit]

/-- Witness of `splitText_round_trip`: the text `"a b,c,dé"` with `ChunkSize = 5` and
the separator `","`. -/
theorem splitText_round_trip_witness :
    (1 ≤ (⟨5, 0, []⟩ : Options).ChunkSize ∧ (⟨5, 0, []⟩ : Options).ChunkOverlap = 0 ∧
      ([44] : GoString) ≠ [] ∧ ValidString [44] = true ∧
      (⟨5, 0, []⟩ : Options).ChunkSize
        < (([97, 32, 98, 44, 99, 44, 100, 0xC3, 0xA9] : GoString).length : Int) ∧
      ∀ p ∈ stringsSplit [97, 32, 98, 44, 99, 44, 100, 0xC3, 0xA9] [44],
        p ≠ [] ∧ TrimSpace p = p ∧ (p.length : Int) ≤ (⟨5, 0, []⟩ : Options).ChunkSize) ∧
    ∃ (chunks : List GoString) (groups : List (List GoString)),
      splitText ⟨5, 0, []⟩ 0 [97, 32, 98, 44, 99, 44, 100, 0xC3, 0xA9] ([44] :: [[]])
        = .done chunks ∧
      stringsJoin [44] chunks = [97, 32, 98, 44, 99, 44, 100, 0xC3, 0xA9] ∧
      groups.flatten = stringsSplit [97, 32, 98, 44, 99, 44, 100, 0xC3, 0xA9] [44] ∧
      (∀ g ∈ groups, g ≠ []) ∧ chunks = groups.map (stringsJoin [44]) :=
  ⟨⟨by decide, by decide, by decide, by decide, by decide, by decide⟩,
    splitText_round_trip ⟨5, 0, []⟩ 0 [97, 32, 98, 44, 99, 44, 100, 0xC3, 0xA9] [44] [[]]
      (by decide) (by decide) (by decide) (by decide) (by decide)⟩

/-! ## Chunks as contiguous parts of the text -/

/-- What `strings.TrimSpace` returns is a contiguous part of the string. -/
theorem TrimSpace_contiguous (s : GoString) : TrimSpace s <:+: s := by
  obtain ⟨a, b, h⟩ := TrimSpace_eq_take_drop s
  rw [h]
  exact ( List.take_prefix _ _).isInfix.trans (List.drop_suffix _ _).isInfix

/-- The trimmed encoding of a window of the runes of a valid text is a contiguous part of
the text. -/
theorem window_contiguous (text : GoString) (ht : IsValid text) (a b : Nat) :
    TrimSpace (encodeRunes (((runes text).drop a).take b)) <:+: text := by
  refine (TrimSpace_contiguous _).trans ?_
  refine ⟨encodeRunes ((runes text).take a), encodeRunes (((runes text).drop a).drop b), ?_⟩
  rw [← encodeRunes_append, ← encodeRunes_append, List.append_assoc, List.take_append_drop,
    List.take_append_drop, encodeRunes_runes text ht]

/-- A piece is a contiguous part of the join of the pieces. -/
theorem piece_contiguous (sep : GoString) (A : List GoString) (p : GoString) (B : List GoString) :
    p <:+: stringsJoin sep (A ++ [p] ++ B) := by
  have h := stringsJoin_contiguous sep A [p] B (List.cons_ne_nil _ _)
  rwa [stringsJoin_singleton] at h

/-- Without overlap, on clean pieces, every chunk the merging loop returns is a contiguous
part of the join of the pieces, as soon as the chunks of a recursive call are contiguous
parts of the piece it was made on. -/
theorem mergeLoop_contiguous (cfg : Options) (hco : cfg.ChunkOverlap = 0) (sep : GoString)
    (hsep : IsValid sep) (recur : GoString → Outcome (List GoString)) (splits : List GoString)
    (hgood : ∀ p ∈ splits, IsClean p)
    (hrec : ∀ p ∈ splits, cfg.ChunkSize < (p.length : Int) → ∀ sub, recur p = .done sub →
      ∀ c ∈ sub, c <:+: p)
    (out : List GoString) (hout : mergeLoop cfg sep recur splits 0 [] [] = .done out) :
    ∀ c ∈ out, c <:+: stringsJoin sep splits := by
  have hflush : ∀ (A g rest : List GoString) (chunks : List GoString),
      A ++ g ++ rest = splits → (∀ c ∈ chunks, c <:+: stringsJoin sep splits) →
      ∀ c ∈ flushBuffer chunks (stringsJoin sep g), c <:+: stringsJoin sep splits := by
    intro A g rest chunks hsp hch c hc
    rcases mem_flushBuffer _ _ _ hc with h | ⟨hne, h⟩
    · exact hch c h
    · have hg : g ≠ [] := by
        intro h0
        rw [h0] at hne
        exact hne rfl
      have hcl := IsClean_join sep hsep g hg
        (fun q hq => hgood q (by rw [← hsp]; simp [hq]))
      rw [h, hcl.2.2, ← hsp]
      exact stringsJoin_contiguous sep A g rest hg
  have hrule := mergeLoop_rule cfg sep recur
    (fun rest i chunks cur => (∀ c ∈ chunks, c <:+: stringsJoin sep splits) ∧
      ∃ (A g : List GoString), A ++ g ++ rest = splits ∧ cur = stringsJoin sep g ∧
        (cur ≠ [] → 0 < i))
    ?_ ?_ ?_ ?_ splits 0 [] [] out ⟨by simp, [], [], by simp, rfl, by simp⟩ hout
  · obtain ⟨_, chunks2, cur2, ⟨hch, A, g, hsp, rfl, _⟩, rfl⟩ := hrule
    exact hflush A g [] chunks2 hsp hch
  · rintro p rest i chunks cur ⟨_, A, g, hsp, _⟩ h1
    have hp := hgood p (by rw [← hsp]; simp)
    rw [hp.2.2] at h1
    exact absurd h1 hp.2.1
  · rintro p rest i chunks cur sub ⟨hch, A, g, hsp, rfl, hi⟩ _ h2 hr
    have hmem : p ∈ splits := by rw [← hsp]; simp
    have hp := hgood p hmem
    rw [hp.2.2] at h2 hr
    refine ⟨?_, A ++ g ++ [p], [], by simpa using hsp, ?_, fun _ => Nat.succ_pos _⟩
    · intro c hc
      rcases List.mem_append.1 hc with h | h
      · exact hflush A g (p :: rest) chunks hsp hch c h
      · refine (hrec p hmem h2 sub hr c h).trans ?_
        have := piece_contiguous sep (A ++ g) p rest
        rwa [show A ++ g ++ [p] ++ rest = A ++ g ++ p :: rest by simp, hsp] at this
    · split_ifs with h0
      · rfl
      · have : (stringsJoin sep g).length = 0 := by omega
        rw [List.length_eq_zero.1 this]
        rfl
  · rintro p rest i chunks cur ⟨hch, A, g, hsp, rfl, hi⟩ _ h2 h3
    have hp := hgood p (by rw [← hsp]; simp)
    rw [hp.2.2, overlapSeed_of_nonpos cfg sep _ hco.le, writePiece_nil]
    exact ⟨hflush A g (p :: rest) chunks hsp hch, A ++ g, [p], by simpa using hsp, rfl,
      fun _ => Nat.succ_pos _⟩
  · rintro p rest i chunks cur ⟨hch, A, g, hsp, rfl, hi⟩ _ _ _
    have hp := hgood p (by rw [← hsp]; simp)
    have hg : ∀ q ∈ g, q ≠ [] := fun q hq => (hgood q (by rw [← hsp]; simp [hq])).2.1
    rw [hp.2.2, writePiece_stringsJoin sep i g p hg hi]
    exact ⟨hch, A, g ++ [p], by simpa using hsp, rfl, fun _ => Nat.succ_pos _⟩

/-- Without overlap, on a valid text with clean pieces at every level, every chunk
`splitText` returns is a contiguous part of the text. -/
theorem splitText_contiguous (cfg : Options) (hco : cfg.ChunkOverlap = 0)
    (fuel : Nat) (seps : List GoString) :
    (∀ s ∈ seps, IsValid s) →
    ∀ (text : GoString) (chunks : List GoString), IsValid text → CleanPieces cfg seps text →
      splitText cfg fuel text seps = .done chunks → ∀ c ∈ chunks, c <:+: text := by
  induction seps with
  | nil =>
    intro _ text chunks ht _ h c hc
    rw [splitText_nil_eq] at h
    by_cases h0 : text.length = 0
    · rw [if_pos h0] at h
      rw [← Outcome.done.inj h] at hc
      simp at hc
    · rw [if_neg h0] at h
      by_cases h1 : (text.length : Int) ≤ cfg.ChunkSize
      · rw [if_pos h1] at h
        rw [← Outcome.done.inj h, List.mem_singleton] at hc
        rw [hc]
        exact TrimSpace_contiguous text
      · rw [if_neg h1] at h
        exact splitBySizeLoop_forall cfg (runes text) (fun c => c <:+: text)
          (fun a b _ => window_contiguous text ht a b) fuel 0 [] chunks (by simp) h c hc
  | cons sep rest ih =>
    intro hseps text chunks ht hclean h c hc
    rw [splitText_cons_eq] at h
    by_cases h0 : text.length = 0
    · rw [if_pos h0] at h
      rw [← Outcome.done.inj h] at hc
      simp at hc
    · rw [if_neg h0] at h
      by_cases h1 : (text.length : Int) ≤ cfg.ChunkSize
      · rw [if_pos h1] at h
        rw [← Outcome.done.inj h, List.mem_singleton] at hc
        rw [hc]
        exact TrimSpace_contiguous text
      · rw [if_neg h1] at h
        have hsep : IsValid sep := hseps sep (List.mem_cons_self _ _)
        have hvalid := splitPieces_valid text sep ht hsep
        have hcl : ∀ p ∈ splitPieces text sep, p ≠ [] ∧ TrimSpace p = p ∧
            (cfg.ChunkSize < (p.length : Int) → CleanPieces cfg rest p) := by
          rcases hclean with hcl | hcl
          · exact absurd hcl h1
          · exact hcl
        have := mergeLoop_contiguous cfg hco sep hsep _ (splitPieces text sep)
          (fun p hp => ⟨hvalid p hp, (hcl p hp).1, (hcl p hp).2.1⟩)
          (fun p hp hbig sub hsub => ih (fun s hs => hseps s (List.mem_cons_of_mem _ hs)) p sub
            (hvalid p hp) ((hcl p hp).2.2 hbig) hsub)
          chunks h c hc
        rwa [stringsJoin_splitPieces text sep ht] at this

/-- **C12**, counterexample.  Chunks that are not contiguous parts of the text, without
overlap: `"a , b"` (`ChunkSize = 3`, separator `","`) gives the single chunk `"a,b"`, the
pieces `"a "` and `" b"` being trimmed before they are joined; `"a,,b"` gives `"a,b"`, the
empty piece being skipped with its separator; for the bytes `FF 61 62` (`ChunkSize = 2`,
no separator) the fixed-size fallback, which converts the text to runes, gives the chunk
`EF BF BD 61`, the byte `FF` being replaced by the encoding of U+FFFD; and the valid text
`"aéb"` cut by the separator `A9` (half of `é`), with `ChunkSize = 1` and the separators
`A9`, `""`, has clean pieces at both levels, but the piece `61 C3` is split into runes and
gives the chunk `EF BF BD`.  With an overlap, the separator is written twice after the
seed: `"hello,world"` (`ChunkSize = 5`, `ChunkOverlap = 2`) gives the chunk `"lo,,world"`. -/
theorem splitText_contiguous_counterexample :
    (splitPieces [97, 32, 44, 32, 98] [44] = [[97, 32], [32, 98]] ∧
      splitText ⟨3, 0, []⟩ 6 [97, 32, 44, 32, 98] [[44]] = .done [[97, 44, 98]] ∧
      ¬ (([97, 44, 98] : GoString) <:+: [97, 32, 44, 32, 98])) ∧
    (splitPieces [97, 44, 44, 98] [44] = [[97], [], [98]] ∧
      splitText ⟨3, 0, []⟩ 5 [97, 44, 44, 98] [[44]] = .done [[97, 44, 98]] ∧
      ¬ (([97, 44, 98] : GoString) <:+: [97, 44, 44, 98])) ∧
    (runes [0xFF, 0x61, 0x62] = [0xFFFD, 0x61, 0x62] ∧
      splitText ⟨2, 0, []⟩ 4 [0xFF, 0x61, 0x62] [] = .done [[0xEF, 0xBF, 0xBD, 0x61], [0x62]] ∧
      ¬ (([0xEF, 0xBF, 0xBD, 0x61] : GoString) <:+: [0xFF, 0x61, 0x62])) ∧
    (ValidString [0x61, 0xC3, 0xA9, 0x62] = true ∧ ValidString [0xA9] = false ∧
      CleanPieces ⟨1, 0, []⟩ [[0xA9], []] [0x61, 0xC3, 0xA9, 0x62] ∧
      splitText ⟨1, 0, []⟩ 5 [0x61, 0xC3, 0xA9, 0x62] [[0xA9], []]
        = .done [[0x61], [0xEF, 0xBF, 0xBD], [0x62]] ∧
      ¬ (([0xEF, 0xBF, 0xBD] : GoString) <:+: [0x61, 0xC3, 0xA9, 0x62])) ∧
    (splitText ⟨5, 2, []⟩ 12 [104, 101, 108, 108, 111, 44, 119, 111, 114, 108, 100] [[44]]
        = .done [[104, 101, 108, 108, 111], [108, 111, 44, 44, 119, 111, 114, 108, 100]] ∧
      ¬ (([108, 111, 44, 44, 119, 111, 114, 108, 100] : GoString)
          <:+: [104, 101, 108, 108, 111, 44, 119, 111, 114, 108, 100])) := by
  have hclean : CleanPieces ⟨1, 0, []⟩ [[0xA9], []] [0x61, 0xC3, 0xA9, 0x62] := by
    have hp : splitPieces [0x61, 0xC3, 0xA9, 0x62] [0xA9] = [[0x61, 0xC3], [0x62]] := by decide
    have hq : splitPieces [0x61, 0xC3] [] = [[0x61], [0xEF, 0xBF, 0xBD]] := by decide
    refine Or.inr ?_
    rw [hp]
    intro p hmem
    simp only [List.mem_cons, List.mem_singleton, List.not_mem_nil, or_false] at hmem
    rcases hmem with rfl | rfl
    · refine ⟨by decide, by decide, fun _ => Or.inr ?_⟩
      rw [hq]
      intro q hmem
      simp only [List.mem_cons, List.mem_singleton, List.not_mem_nil, or_false] at hmem
      rcases hmem with rfl | rfl <;> exact ⟨by decide, by decide, fun _ => trivial⟩
    · exact ⟨by decide, by decide, fun h => absurd h (by decide)⟩
  refine ⟨⟨by decide, by decide, by decide⟩, ⟨by decide, by decide, by decide⟩,
    ⟨by decide, by decide, by decide⟩, ⟨by decide, by decide, hclean, by decide, by decide⟩,
    ⟨by decide, by decide⟩⟩

/-- **C12** (amended).  For every configuration with `ChunkSize > 0` and
`0 ≤ ChunkOverlap < ChunkSize`, every chunk `splitText` returns is a contiguous part of the
text in each of these cases: the text is at most `ChunkSize` bytes long (the chunk is the
trimmed text); the list of separators is empty and the text is valid UTF-8 (the chunks are
the trimmed windows of the fixed-size fallback); `ChunkOverlap = 0`, the text and the
separators are valid UTF-8 and, at every level of the recursion, the pieces of a text of
more than `ChunkSize` bytes are not empty and have no leading or trailing white space
(`CleanPieces`). -/
theorem splitText_chunks_contiguous (cfg : Options) (hcs : 0 < cfg.ChunkSize)
    (hco : 0 ≤ cfg.ChunkOverlap) (hlt : cfg.ChunkOverlap < cfg.ChunkSize) (text : GoString)
    (seps : List GoString) :
    ∃ chunks,
      (∀ fuel, max text.length 4 < fuel → splitText cfg fuel text seps = .done chunks) ∧
      ((text.length : Int) ≤ cfg.ChunkSize → ∀ c ∈ chunks, c <:+: text) ∧
      (seps = [] → ValidString text = true → ∀ c ∈ chunks, c <:+: text) ∧
      (cfg.ChunkOverlap = 0 → ValidString text = true → (∀ s ∈ seps, ValidString s = true) →
        CleanPieces cfg seps text → ∀ c ∈ chunks, c <:+: text) := by
  obtain ⟨chunks, hch⟩ := splitText_returns cfg hcs hco hlt seps text
  have hrun := hch (max text.length 4 + 1) (Nat.lt_succ_self _)
  refine ⟨chunks, hch, ?_, ?_, ?_⟩
  · intro hle c hc
    by_cases h0 : text = []
    · rw [h0, splitText_empty] at hrun
      rw [← Outcome.done.inj hrun] at hc
      simp at hc
    · rw [splitText_short cfg _ text seps h0 hle] at hrun
      rw [← Outcome.done.inj hrun, List.mem_singleton] at hc
      rw [hc]
      exact TrimSpace_contiguous text
  · intro hseps hvt c hc
    rw [hseps, splitText_nil_eq] at hrun
    by_cases h0 : text.length = 0
    · rw [if_pos h0] at hrun
      rw [← Outcome.done.inj hrun] at hc
      simp at hc
    · rw [if_neg h0] at hrun
      by_cases h1 : (text.length : Int) ≤ cfg.ChunkSize
      · rw [if_pos h1] at hrun
        rw [← Outcome.done.inj hrun, List.mem_singleton] at hc
        rw [hc]
        exact TrimSpace_contiguous text
      · rw [if_neg h1] at hrun
        exact splitBySizeLoop_forall cfg (runes text) (fun c => c <:+: text)
          (fun a b _ => window_contiguous text (ValidString_isValid text hvt) a b) _ 0 [] chunks
          (by simp) hrun c hc
  · intro hzero hvt hvs hclean
    exact splitText_contiguous cfg hzero _ seps (fun s hs => ValidString_isValid s (hvs s hs)) text
      chunks (ValidString_isValid text hvt) hclean hrun

/-- Witness of `splitText_chunks_contiguous`: the text `"ab,cdefgh,i j"` with
`ChunkSize = 4`, no overlap and the separators `","` and `""`; its pieces are clean at
both levels (the piece `"cdefgh"` is split again into its characters). -/
theorem splitText_chunks_contiguous_witness :
    (0 < (⟨4, 0, []⟩ : Options).ChunkSize ∧ 0 ≤ (⟨4, 0, []⟩ : Options).ChunkOverlap ∧
      (⟨4, 0, []⟩ : Options).ChunkOverlap < (⟨4, 0, []⟩ : Options).ChunkSize ∧
      ValidString [97, 98, 44, 99, 100, 101, 102, 103, 104, 44, 105, 32, 106] = true ∧
      (∀ s ∈ ([[44], []] : List GoString), ValidString s = true) ∧
      CleanPieces ⟨4, 0, []⟩ [[44], []]
        [97, 98, 44, 99, 100, 101, 102, 103, 104, 44, 105, 32, 106]) ∧
    ∃ chunks,
      (∀ fuel,
        max ([97, 98, 44, 99, 100, 101, 102, 103, 104, 44, 105, 32, 106] : GoString).length 4
          < fuel →
        splitText ⟨4, 0, []⟩ fuel [97, 98, 44, 99, 100, 101, 102, 103, 104, 44, 105, 32, 106]
          [[44], []] = .done chunks) ∧
      ((([97, 98, 44, 99, 100, 101, 102, 103, 104, 44, 105, 32, 106] : GoString).length : Int)
          ≤ (⟨4, 0, []⟩ : Options).ChunkSize →
        ∀ c ∈ chunks, c <:+: [97, 98, 44, 99, 100, 101, 102, 103, 104, 44, 105, 32, 106]) ∧
      (([[44], []] : List GoString) = [] →
        ValidString [97, 98, 44, 99, 100, 101, 102, 103, 104, 44, 105, 32, 106] = true →
        ∀ c ∈ chunks, c <:+: [97, 98, 44, 99, 100, 101, 102, 103, 104, 44, 105, 32, 106]) ∧
      ((⟨4, 0, []⟩ : Options).ChunkOverlap = 0 →
        ValidString [97, 98, 44, 99, 100, 101, 102, 103, 104, 44, 105, 32, 106] = true →
        (∀ s ∈ ([[44], []] : List GoString), ValidString s = true) →
        CleanPieces ⟨4, 0, []⟩ [[44], []]
          [97, 98, 44, 99, 100, 101, 102, 103, 104, 44, 105, 32, 106] →
        ∀ c ∈ chunks, c <:+: [97, 98, 44, 99, 100, 101, 102, 103, 104, 44, 105, 32, 106]) :=
  have hclean : CleanPieces ⟨4, 0, []⟩ [[44], []]
      [97, 98, 44, 99, 100, 101, 102, 103, 104, 44, 105, 32, 106] := by
    have hp : splitPieces [97, 98, 44, 99, 100, 101, 102, 103, 104, 44, 105, 32, 106] [44]
        = [[97, 98], [99, 100, 101, 102, 103, 104], [105, 32, 106]] := by decide
    have hq : splitPieces [99, 100, 101, 102, 103, 104] []
        = [[99], [100], [101], [102], [103], [104]] := by decide
    refine Or.inr ?_
    rw [hp]
    intro p hmem
    simp only [List.mem_cons, List.mem_singleton, List.not_mem_nil, or_false] at hmem
    rcases hmem with rfl | rfl | rfl
    · exact ⟨by decide, by decide, fun h => absurd h (by decide)⟩
    · refine ⟨by decide, by decide, fun _ => Or.inr ?_⟩
      rw [hq]
      intro q hmem
      simp only [List.mem_cons, List.mem_singleton, List.not_mem_nil, or_false] at hmem
      rcases hmem with rfl | rfl | rfl | rfl | rfl | rfl <;>
        exact ⟨by decide, by decide, fun _ => trivial⟩
    · exact ⟨by decide, by decide, fun h => absurd h (by decide)⟩
  ⟨⟨by decide, by decide, by decide, by decide, by decide, hclean⟩,
    splitText_chunks_contiguous ⟨4, 0, []⟩ (by decide) (by decide) (by decide)
      [97, 98, 44, 99, 100, 101, 102, 103, 104, 44, 105, 32, 106] [[44], []]⟩

/-! ## Strings of white space -/

/-- The runes of a string that begins with a correct encoding. -/
theorem IsBlank_cons (c : Nat) (t : GoString) (h : IsBlank (c :: t)) :
    isSpace (decodeRune (c :: t)).1 = true ∧ IsBlank ((c :: t).drop (decodeRune (c :: t)).2) := by
  unfold IsBlank at h ⊢
  rw [runes_cons] at h
  exact ⟨h _ (List.mem_cons_self _ _), fun r hr => h r (List.mem_cons_of_mem _ hr)⟩

/-- A string of white space is valid UTF-8. -/
theorem IsBlank_valid (n : Nat) : ∀ s : GoString, s.length ≤ n → IsBlank s → IsValid s := by
  induction n with
  | zero =>
    intro s hs _
    rw [List.length_eq_zero.1 (Nat.le_zero.1 hs)]
    exact IsValid_nil
  | succ n ih =>
    intro s hs hb
    cases s with
    | nil => exact IsValid_nil
    | cons c t =>
      obtain ⟨hsp, hrest⟩ := IsBlank_cons c t hb
      have hd : decodeRune (c :: t) ≠ (RuneError, 1) := by
        intro h
        rw [h] at hsp
        exact absurd hsp (by decide)
      have hw := decodeRune_width c t
      have htake := decodeRune_take c t hd
      rw [htake]
      refine IsValid_append _ _ ⟨[(decodeRune (c :: t)).1], ?_, ?_⟩ (ih _ ?_ hrest)
      · intro r hr
        rw [List.mem_singleton.1 hr]
        exact decodeRune_scalar _
      · rw [encodeRunes_cons, encodeRunes_nil, List.append_nil]
      · rw [List.length_drop]
        simp only [List.length_cons] at hs ⊢
        omega

/-- Trimming a sequence of white space runes leaves nothing. -/
theorem trimRunes_blank (rs : List Nat) (h : ∀ r ∈ rs, isSpace r = true) : trimRunes rs = [] := by
  unfold trimRunes
  rw [List.dropWhile_eq_nil_iff.2 h]
  rfl

/-- Trimming a string of white space leaves nothing. -/
theorem TrimSpace_blank (s : GoString) (h : IsBlank s) : TrimSpace s = [] := by
  have hv := IsBlank_valid s.length s (Nat.le_refl _) h
  rw [← encodeRunes_runes s hv, TrimSpace_encodeRunes _ (runes_scalar s), trimRunes_blank _ h]
  rfl

/-- A string `strings.TrimLeftFunc` empties is a string of white space. -/
theorem trimLeftFuel_eq_nil (n : Nat) :
    ∀ s : GoString, s.length ≤ n → trimLeftFuel n s = [] → IsBlank s := by
  induction n with
  | zero =>
    intro s hs _
    rw [List.length_eq_zero.1 (Nat.le_zero.1 hs)]
    intro r hr
    simp [runes_nil] at hr
  | succ n ih =>
    intro s hs h
    cases s with
    | nil =>
      intro r hr
      simp [runes_nil] at hr
    | cons c t =>
      simp only [trimLeftFuel] at h
      split at h
      · rename_i hsp
        have hw := decodeRune_width c t
        have hrest := ih _ (by
          rw [List.length_drop]
          simp only [List.length_cons] at hs ⊢
          omega) h
        intro r hr
        rw [runes_cons] at hr
        rcases List.mem_cons.1 hr with h1 | h1
        · rw [h1]
          exact hsp
        · exact hrest r h1
      · exact absurd h (List.cons_ne_nil _ _)

/-- A string `strings.TrimRightFunc` empties is empty or begins with white space. -/
theorem trimRightFuel_eq_nil (n : Nat) :
    ∀ s : GoString, trimRightFuel n s = [] → s = [] ∨ isSpace (decodeRune s).1 = true := by
  induction n with
  | zero =>
    intro s h
    left
    simpa [trimRightFuel] using h
  | succ n ih =>
    intro s h
    simp only [trimRightFuel] at h
    split at h
    · rename_i h0
      exact Or.inl h0
    · rename_i hne
      split at h
      · rename_i hsp
        right
        rcases decodeLastRune_cases s hne with he | ⟨y, r, hr, hy, hd⟩
        · rw [he] at hsp
          exact absurd hsp (by decide)
        · rw [hd] at hsp h
          simp only at hsp h
          have hyt : s.take (s.length - (encodeRune r).length) = y := by
            rw [hy, List.length_append, Nat.add_sub_cancel, List.take_left]
          rw [hyt] at h
          rcases ih y h with h1 | h1
          · rw [hy, h1, List.nil_append]
            have := decodeRune_encodeRune r hr []
            rw [List.append_nil] at this
            rw [this]
            exact hsp
          · have hyne : y ≠ [] := by
              intro h0
              rw [h0] at h1
              exact absurd h1 (by decide)
            have hdy : decodeRune y ≠ (RuneError, 1) := by
              intro h0
              rw [h0] at h1
              exact absurd h1 (by decide)
            rw [hy, decodeRune_append y _ hyne hdy]
            exact h1
      · exact absurd h hne

/-- What `strings.TrimSpace` empties are the strings of white space. -/
theorem TrimSpace_eq_nil_iff (s : GoString) : TrimSpace s = [] ↔ IsBlank s := by
  constructor
  · intro h
    apply trimLeftFuel_eq_nil s.length s (Nat.le_refl _)
    unfold TrimSpace at h
    rcases trimRightFuel_eq_nil _ _ h with h1 | h1
    · exact h1
    · rcases trimLeftFuel_head s.length s (Nat.le_refl _) with h2 | h2
      · exact h2
      · rw [h2] at h1
        exact absurd h1 (by decide)
  · exact TrimSpace_blank s

/-! ## No empty chunk -/

/-- The last rune of a string that follows a valid separator is the last rune of what is
read up to it. -/
theorem decodeLastRune_after_sep (X sep p : GoString) (hsep : IsValid sep) (hne : sep ≠ [])
    (hp : p ≠ []) : decodeLastRune (X ++ sep ++ p) = decodeLastRune p := by
  obtain ⟨y0, r0, hr0, hy0⟩ := IsValid_last sep hsep hne
  have hsplit : X ++ sep = X ++ y0 ++ encodeRune r0 := by
    rw [List.append_assoc, ← hy0]
  rw [hsplit, decodeLastRune_append_stable _ r0 hr0 p hp]

/-- The buffer after a piece that ends with a rune that is not white space has been
written ends with that rune.  For the empty separator the piece is valid UTF-8 (it is one
rune); otherwise the separator is. -/
theorem writePiece_last (sep : GoString) (hsep : IsValid sep) (i : Nat) (cur p : GoString)
    (hp : p ≠ []) (hpv : sep = [] → IsValid p) (hi : cur ≠ [] → 0 < i) :
    decodeLastRune (writePiece sep i cur p) = decodeLastRune p := by
  by_cases h0 : sep = []
  · have : writePiece sep i cur p = cur ++ p := by
      rcases writePiece_cases sep i cur p with h | h
      · rw [h, List.append_nil]
      · rw [h, h0, List.append_nil]
    rw [this, decodeLastRune_valid_append cur p (hpv h0) hp]
  · by_cases hc : cur = []
    · rw [hc, writePiece_nil]
    · rw [writePiece_join sep i cur p hc (hi hc), decodeLastRune_after_sep cur sep p hsep h0 hp]

/-- For valid separators, the merging loop returns no empty chunk, as soon as the recursive
calls on the oversized pieces return none. -/
theorem mergeLoop_nonempty (cfg : Options) (sep : GoString) (hsep : IsValid sep)
    (recur : GoString → Outcome (List GoString)) (splits : List GoString)
    (hpieces : sep = [] → ∀ p ∈ splits, IsValid p)
    (hrec : ∀ p ∈ splits, cfg.ChunkSize < ((TrimSpace p).length : Int) → ∀ sub,
      recur (TrimSpace p) = .done sub → ∀ c ∈ sub, c ≠ [])
    (out : List GoString) (hout : mergeLoop cfg sep recur splits 0 [] [] = .done out) :
    ∀ c ∈ out, c ≠ [] := by
  have hflush : ∀ (chunks : List GoString) (cur : GoString), (∀ c ∈ chunks, c ≠ []) →
      (cur = [] ∨ isSpace (decodeLastRune cur).1 = false) →
      ∀ c ∈ flushBuffer chunks cur, c ≠ [] := by
    intro chunks cur hch hcur c hc
    rcases mem_flushBuffer _ _ _ hc with h | ⟨hne, h⟩
    · exact hch c h
    · rcases hcur with h0 | h0
      · exact absurd h0 hne
      · rw [h]
        exact TrimSpace_ne_nil cur hne h0
  have hwrite : ∀ (p : GoString) (i : Nat) (cur : GoString), p ∈ splits → TrimSpace p ≠ [] →
      (cur ≠ [] → 0 < i) →
      isSpace (decodeLastRune (writePiece sep i cur (TrimSpace p))).1 = false := by
    intro p i cur hp h1 hi
    rw [writePiece_last sep hsep i cur _ h1
      (fun h0 => IsValid_TrimSpace p (hpieces h0 p hp)) hi]
    rcases TrimSpace_ends p with h | h
    · exact absurd h h1
    · exact h.2
  have hrule := mergeLoop_rule cfg sep recur
    (fun rest i chunks cur => (∀ p ∈ rest, p ∈ splits) ∧ (∀ c ∈ chunks, c ≠ []) ∧
      (cur = [] ∨ isSpace (decodeLastRune cur).1 = false) ∧ (cur ≠ [] → 0 < i))
    ?_ ?_ ?_ ?_ splits 0 [] [] out ⟨fun p hp => hp, by simp, Or.inl rfl, by simp⟩ hout
  · obtain ⟨_, chunks2, cur2, ⟨_, hch, hcur, _⟩, rfl⟩ := hrule
    exact hflush chunks2 cur2 hch hcur
  · rintro p rest i chunks cur ⟨hmem, hch, hcur, hi⟩ _
    exact ⟨fun q hq => hmem q (List.mem_cons_of_mem _ hq), hch, hcur,
      fun h => Nat.succ_pos _⟩
  · rintro p rest i chunks cur sub ⟨hmem, hch, hcur, hi⟩ _ h2 hr
    refine ⟨fun q hq => hmem q (List.mem_cons_of_mem _ hq), ?_, ?_, fun _ => Nat.succ_pos _⟩
    · intro c hc
      rcases List.mem_append.1 hc with h | h
      · exact hflush chunks cur hch hcur c h
      · exact hrec p (hmem p (List.mem_cons_self _ _)) h2 sub hr c h
    · split_ifs
      · exact Or.inl rfl
      · exact hcur
  · rintro p rest i chunks cur ⟨hmem, hch, hcur, hi⟩ h1 h2 h3
    have hpos := newSize_pos_of_overflow cfg sep _ _ h2 h3
    have hcne : cur ≠ [] := fun h => by
      rw [h] at hpos
      exact Nat.lt_irrefl _ hpos
    exact ⟨fun q hq => hmem q (List.mem_cons_of_mem _ hq), hflush chunks cur hch hcur,
      Or.inr (hwrite p i _ (hmem p (List.mem_cons_self _ _)) h1 (fun _ => hi hcne)),
      fun _ => Nat.succ_pos _⟩
  · rintro p rest i chunks cur ⟨hmem, hch, hcur, hi⟩ h1 _ _
    exact ⟨fun q hq => hmem q (List.mem_cons_of_mem _ hq), hch,
      Or.inr (hwrite p i cur (hmem p (List.mem_cons_self _ _)) h1 hi),
      fun _ => Nat.succ_pos _⟩

/-- The pieces of a text, for the empty separator, are valid: each is one rune. -/
theorem splitPieces_nil_valid (text : GoString) : ∀ p ∈ splitPieces text [], IsValid p := by
  intro p hp
  unfold splitPieces at hp
  rw [if_pos rfl] at hp
  obtain ⟨r, hr, rfl⟩ := List.mem_map.1 hp
  exact ⟨[r], fun x hx => by rw [List.mem_singleton.1 hx]; exact runes_scalar text r hr, by
    rw [encodeRunes_cons, encodeRunes_nil, List.append_nil]⟩

/-- For valid separators, `splitText` returns no empty chunk for a text of more than
`ChunkSize` bytes. -/
theorem splitText_nonempty (cfg : Options) (fuel : Nat) (seps : List GoString) :
    (∀ s ∈ seps, IsValid s) →
    ∀ (text : GoString) (chunks : List GoString), cfg.ChunkSize < (text.length : Int) →
      splitText cfg fuel text seps = .done chunks → ∀ c ∈ chunks, c ≠ [] := by
  induction seps with
  | nil =>
    intro _ text chunks hlong h c hc
    rw [splitText_nil_eq] at h
    by_cases h0 : text.length = 0
    · rw [if_pos h0] at h
      rw [← Outcome.done.inj h] at hc
      simp at hc
    · rw [if_neg h0, if_neg (by omega)] at h
      exact splitBySizeLoop_forall cfg (runes text) (fun c => c ≠ [])
        (fun a b hne => hne) fuel 0 [] chunks (by simp) h c hc
  | cons sep rest ih =>
    intro hseps text chunks hlong h c hc
    rw [splitText_cons_eq] at h
    by_cases h0 : text.length = 0
    · rw [if_pos h0] at h
      rw [← Outcome.done.inj h] at hc
      simp at hc
    · rw [if_neg h0, if_neg (by omega)] at h
      refine mergeLoop_nonempty cfg sep (hseps sep (List.mem_cons_self _ _)) _
        (splitPieces text sep) ?_ ?_ chunks h c hc
      · intro hs p hp
        rw [hs] at hp
        exact splitPieces_nil_valid text p hp
      · intro p _ hbig sub hsub
        exact ih (fun s hs => hseps s (List.mem_cons_of_mem _ hs)) _ sub hbig hsub

/-- The runes of a piece are runes of the join of the pieces, for valid pieces and a valid
separator. -/
theorem runes_mem_stringsJoin (sep : GoString) (hsep : IsValid sep) :
    ∀ l : List GoString, (∀ q ∈ l, IsValid q) → ∀ p ∈ l, ∀ r ∈ runes p,
      r ∈ runes (stringsJoin sep l) := by
  intro l
  induction l with
  | nil => intro _ p hp; simp at hp
  | cons a l ih =>
    intro hl p hp r hr
    cases l with
    | nil =>
      rw [List.mem_singleton.1 hp] at hr
      exact hr
    | cons b l =>
      rw [stringsJoin_cons_cons, List.append_assoc,
        runes_of_valid_append a _ (hl a (List.mem_cons_self _ _)),
        runes_of_valid_append sep _ hsep]
      rcases List.mem_cons.1 hp with h | h
      · rw [h] at hr
        exact List.mem_append_left _ hr
      · exact List.mem_append_right _ (List.mem_append_right _
          (ih (fun q hq => hl q (List.mem_cons_of_mem _ hq)) p h r hr))

/-- The pieces of a string of white space are strings of white space, for a valid
separator: the merging loop skips them all. -/
theorem splitPieces_blank (text sep : GoString) (hsep : IsValid sep) (hb : IsBlank text) :
    ∀ p ∈ splitPieces text sep, TrimSpace p = [] := by
  have hv := IsBlank_valid text.length text (Nat.le_refl _) hb
  intro p hp
  apply TrimSpace_blank
  intro r hr
  apply hb
  have h := runes_mem_stringsJoin sep hsep (splitPieces text sep)
    (splitPieces_valid text sep hv hsep) p hp r hr
  rwa [stringsJoin_splitPieces text sep hv] at h

/-- The merging loop on pieces that are all skipped: the chunks and the buffer stay as
they are. -/
theorem mergeLoop_all_blank (cfg : Options) (sep : GoString)
    (recur : GoString → Outcome (List GoString)) (splits : List GoString) :
    ∀ (i : Nat) (chunks : List GoString) (cur : GoString),
      (∀ p ∈ splits, TrimSpace p = []) →
      mergeLoop cfg sep recur splits i chunks cur = .done (flushBuffer chunks cur) := by
  induction splits with
  | nil => intro i chunks cur _; rfl
  | cons p rest ih =>
    intro i chunks cur h
    rw [mergeLoop_blank _ _ _ _ _ _ _ _ (h p (List.mem_cons_self _ _))]
    exact ih _ _ _ (fun q hq => h q (List.mem_cons_of_mem _ hq))

/-- For valid separators, `splitText` returns no chunk for a text of white space of more
than `ChunkSize` bytes. -/
theorem splitText_blank (cfg : Options) (fuel : Nat) (text : GoString) (seps : List GoString)
    (hseps : ∀ s ∈ seps, IsValid s) (hb : IsBlank text)
    (hlong : cfg.ChunkSize < (text.length : Int)) (chunks : List GoString)
    (h : splitText cfg fuel text seps = .done chunks) : chunks = [] := by
  cases seps with
  | nil =>
    rw [splitText_nil_eq] at h
    by_cases h0 : text.length = 0
    · rw [if_pos h0] at h
      exact (Outcome.done.inj h).symm
    · rw [if_neg h0, if_neg (by omega)] at h
      apply List.eq_nil_iff_forall_not_mem.2
      intro c hc
      refine splitBySizeLoop_forall cfg (runes text) (fun _ => False) ?_ fuel 0 [] chunks
        (by simp) h c hc
      intro a b hne
      apply hne
      rw [TrimSpace_encodeRunes _ (fun r hr =>
          runes_scalar text r (List.mem_of_mem_drop (List.mem_of_mem_take hr))),
        trimRunes_blank _ (fun r hr => hb r (List.mem_of_mem_drop (List.mem_of_mem_take hr)))]
      rfl
  | cons sep rest =>
    rw [splitText_cons_eq] at h
    by_cases h0 : text.length = 0
    · rw [if_pos h0] at h
      exact (Outcome.done.inj h).symm
    · rw [if_neg h0, if_neg (by omega), mergeLoop_all_blank cfg sep _ _ 0 [] []
        (splitPieces_blank text sep (hseps sep (List.mem_cons_self _ _)) hb)] at h
      exact (Outcome.done.inj h).symm

/-- **C19**, counterexample (a separator that is not valid UTF-8).  With the separator
`85 C2` and `ChunkSize = 4`, the text `C2 85 C2 85 C2 85` (three characters U+0085, white
space only, 6 bytes) has the pieces `C2`, `""` and `85`; the buffer `C2 85 C2 85` is white
space only, and `splitText` returns one chunk, which is empty. -/
theorem splitText_empty_chunk_counterexample :
    (1 : Int) ≤ 4 ∧ (0 : Int) ≤ 0 ∧ (0 : Int) < 4 ∧
    (4 : Int) < (([0xC2, 0x85, 0xC2, 0x85, 0xC2, 0x85] : GoString).length : Int) ∧
    ValidString [0xC2, 0x85, 0xC2, 0x85, 0xC2, 0x85] = true ∧
    runes [0xC2, 0x85, 0xC2, 0x85, 0xC2, 0x85] = [0x85, 0x85, 0x85] ∧
    isSpace 0x85 = true ∧ ValidString [0x85, 0xC2] = false ∧
    splitPieces [0xC2, 0x85, 0xC2, 0x85, 0xC2, 0x85] [0x85, 0xC2] = [[0xC2], [], [0x85]] ∧
    splitText ⟨4, 0, []⟩ 7 [0xC2, 0x85, 0xC2, 0x85, 0xC2, 0x85] [[0x85, 0xC2]] = .done [[]] := by
  refine ⟨by decide, by decide, by decide, by decide, by decide, by decide, by decide,
    by decide, by decide, by decide⟩

/-- **C19** (amended).  No empty chunk except for a short text of white space.  For every
configuration with `ChunkSize ≥ 1` and `0 ≤ ChunkOverlap < ChunkSize`, every list of
separators that are valid UTF-8 and every text: when the text is longer than `ChunkSize`
(in bytes), no chunk `splitText` returns is the empty string, and a text of white space
only gives no chunk at all; `splitText` returns an empty chunk exactly when the text is not
empty, is at most `ChunkSize` bytes long and holds white space only, and the result is then
`[""]`. -/
theorem splitText_no_empty_chunk (cfg : Options) (hcs : 1 ≤ cfg.ChunkSize)
    (hco : 0 ≤ cfg.ChunkOverlap) (hlt : cfg.ChunkOverlap < cfg.ChunkSize) (text : GoString)
    (seps : List GoString) (hvs : ∀ s ∈ seps, ValidString s = true) :
    ∃ chunks,
      (∀ fuel, max text.length 4 < fuel → splitText cfg fuel text seps = .done chunks) ∧
      (cfg.ChunkSize < (text.length : Int) →
        (∀ c ∈ chunks, c ≠ []) ∧ (IsBlank text → chunks = [])) ∧
      ([] ∈ chunks ↔ text ≠ [] ∧ (text.length : Int) ≤ cfg.ChunkSize ∧ IsBlank text) ∧
      ([] ∈ chunks → chunks = [[]]) := by
  have hseps : ∀ s ∈ seps, IsValid s := fun s hs => ValidString_isValid s (hvs s hs)
  obtain ⟨chunks, hch⟩ := splitText_returns cfg (by omega) hco hlt seps text
  have hrun := hch (max text.length 4 + 1) (Nat.lt_succ_self _)
  have hlong : cfg.ChunkSize < (text.length : Int) → ∀ c ∈ chunks, c ≠ [] :=
    fun hl => splitText_nonempty cfg _ seps hseps text chunks hl hrun
  have hshort : text ≠ [] → (text.length : Int) ≤ cfg.ChunkSize → chunks = [TrimSpace text] := by
    intro h0 hle
    rw [splitText_short cfg _ text seps h0 hle] at hrun
    exact (Outcome.done.inj hrun).symm
  have hmem : [] ∈ chunks → text ≠ [] ∧ (text.length : Int) ≤ cfg.ChunkSize ∧ IsBlank text ∧
      chunks = [[]] := by
    intro hin
    by_cases h0 : text = []
    · rw [h0, splitText_empty] at hrun
      rw [← Outcome.done.inj hrun] at hin
      simp at hin
    · by_cases hle : (text.length : Int) ≤ cfg.ChunkSize
      · have hc := hshort h0 hle
        rw [hc, List.mem_singleton] at hin
        exact ⟨h0, hle, (TrimSpace_eq_nil_iff text).1 hin.symm, by rw [hc, ← hin]⟩
      · exact absurd rfl (hlong (by omega) [] hin)
  refine ⟨chunks, hch, fun hl => ⟨hlong hl, fun hb =>
    splitText_blank cfg _ text seps hseps hb hl chunks hrun⟩, ⟨fun h => ?_, fun h => ?_⟩,
    fun h => (hmem h).2.2.2⟩
  · exact ⟨(hmem h).1, (hmem h).2.1, (hmem h).2.2.1⟩
  · rw [hshort h.1 h.2.1, (TrimSpace_eq_nil_iff text).2 h.2.2]
    exact List.mem_singleton.2 rfl

/-- Witness of `splitText_no_empty_chunk`: the text `" a,  ,b c "` with
`ChunkSize = 3`, `ChunkOverlap = 1` and the separators `","`, `" "` and `""`. -/
theorem splitText_no_empty_chunk_witness :
    (1 ≤ (⟨3, 1, []⟩ : Options).ChunkSize ∧ 0 ≤ (⟨3, 1, []⟩ : Options).ChunkOverlap ∧
      (⟨3, 1, []⟩ : Options).ChunkOverlap < (⟨3, 1, []⟩ : Options).ChunkSize ∧
      ∀ s ∈ ([[44], [32], []] : List GoString), ValidString s = true) ∧
    ∃ chunks,
      (∀ fuel, max ([32, 97, 44, 32, 32, 44, 98, 32, 99, 32] : GoString).length 4 < fuel →
        splitText ⟨3, 1, []⟩ fuel [32, 97, 44, 32, 32, 44, 98, 32, 99, 32] [[44], [32], []]
          = .done chunks) ∧
      ((⟨3, 1, []⟩ : Options).ChunkSize
          < (([32, 97, 44, 32, 32, 44, 98, 32, 99, 32] : GoString).length : Int) →
        (∀ c ∈ chunks, c ≠ []) ∧
          (IsBlank [32, 97, 44, 32, 32, 44, 98, 32, 99, 32] → chunks = [])) ∧
      ([] ∈ chunks ↔ ([32, 97, 44, 32, 32, 44, 98, 32, 99, 32] : GoString) ≠ [] ∧
        (([32, 97, 44, 32, 32, 44, 98, 32, 99, 32] : GoString).length : Int)
          ≤ (⟨3, 1, []⟩ : Options).ChunkSize ∧
        IsBlank [32, 97, 44, 32, 32, 44, 98, 32, 99, 32]) ∧
      ([] ∈ chunks → chunks = [[]]) :=
  ⟨⟨by decide, by decide, by decide, by decide⟩,
    splitText_no_empty_chunk ⟨3, 1, []⟩ (by decide) (by decide) (by decide)
      [32, 97, 44, 32, 32, 44, 98, 32, 99, 32] [[44], [32], []] (by decide)⟩

end Gorag
